import Mathlib

/-!
# tubex-lib: slice chains (`TubeVector`)

A shallow embedding of `src/tube/tubex_TubeVector.cpp` and of the compound operators of
`src/core/dynamics/tube/tubex_Tube_operators.cpp`.

* Time values (`double` in the source) are rationals. The source compares them, and
  adds them in one place, the constructor by timestep: that addition is rounded to the
  nearest double (`Double.add`, IEEE 754 binary64, ties to even; overflow to infinity is
  not modelled).
* Boxes (`ibex::IntervalVector`, an external library) are an arbitrary type `β`
  carrying the hull union `⊔` and the empty box `⊥`; where the source asks a box for its
  size or adds boxes, `β` also carries `BoxOps`.
* A time interval that may be empty is an `Option Interval`, `none` being the empty
  interval.
* A function that may call itself without end takes a bound on the number of nested
  calls and answers `none` when the bound is reached.
* The slice vector `m_v_slices` is a list; the `nextSlice()` links installed by
  `TubeSlice::chainSlices` always follow the order of that vector, so walking the
  links is walking the list.
* C++ exceptions are values of `Exception` returned through `Except`.
* The per-slice routines `TubeSlice::invert` and `TubeSlice::eval` and the bisector
  `ibex::LargestFirst` are not in the sources: they are parameters of the functions that
  call them, and what a theorem needs from them is one of its hypotheses.
* The compound operators are one macro body instantiated for `+=`, `-=`, `*=`, `/=`,
  `&=`, `|=`: the operator on values is a parameter `f`.
-/

namespace tubex

/-- Failures a call can end with. `NoReturn` marks control running off the end of a
non-void function without reaching a `return`, `NullPointer` the dereference of a null
slice pointer, `NotBisectable` the exception `bisect` throws when the bisector finds no
variable to bisect, `AssertionFailed` a failed `assert`. -/
inductive Exception where
  | DomainException
  | DimensionException
  | StructureException
  | NoReturn
  | NullPointer
  | NotBisectable
  | AssertionFailed
deriving DecidableEq, Repr

deriving instance DecidableEq for Except

/-- Time interval `[lb, ub]` with finite bounds. -/
structure Interval where
  lb : ℚ
  ub : ℚ
deriving DecidableEq, Repr

/-- The number of binary digits of `n`; `fuel` is a bound on it. -/
def Double.bitLength : ℕ → ℕ → ℕ
  | 0, _ => 0
  | fuel + 1, n => if n = 0 then 0 else Double.bitLength fuel (n / 2) + 1

/-- The binary exponent of a non-zero rational `q`: the integer `e` with
`2 ^ e ≤ |q| < 2 ^ (e + 1)`. -/
def Double.exponent (q : ℚ) : ℤ :=
  let n := q.num.natAbs
  let d := q.den
  let e : ℤ := (Double.bitLength n n : ℤ) - (Double.bitLength d d : ℤ)
  if (if 0 ≤ e then d * 2 ^ e.toNat ≤ n else d ≤ n * 2 ^ (-e).toNat) then e else e - 1

/-- The fraction `|q| / 2 ^ p` as a numerator and a denominator. -/
def Double.scaled (q : ℚ) (p : ℤ) : ℕ × ℕ :=
  if 0 ≤ p then (q.num.natAbs, q.den * 2 ^ p.toNat)
  else (q.num.natAbs * 2 ^ (-p).toNat, q.den)

/-- The double of mantissa `k`, unit in the last place `2 ^ p` and the given sign. -/
def Double.ofMantissa (negative : Bool) (k : ℕ) (p : ℤ) : ℚ :=
  let m : ℤ := if negative then -(k : ℤ) else (k : ℤ)
  if 0 ≤ p then ((m * 2 ^ p.toNat : ℤ) : ℚ) else (m : ℚ) / ((2 ^ (-p).toNat : ℕ) : ℚ)

/-- Rounding of a real result to a `double`: IEEE 754 binary64, to the nearest double,
ties to the even mantissa. The unit in the last place is `2 ^ (e - 52)` for a value of
binary exponent `e`, and `2 ^ (-1074)` in the subnormal range. Overflow to infinity is
not modelled. -/
def Double.round (q : ℚ) : ℚ :=
  if q = 0 then 0
  else
    let p : ℤ := max (Double.exponent q - 52) (-1074)
    let N := (Double.scaled q p).1
    let D := (Double.scaled q p).2
    let k := N / D
    let r := N % D
    let k := if D < 2 * r ∨ (2 * r = D ∧ k % 2 = 1) then k + 1 else k
    Double.ofMantissa (decide (q < 0)) k p

/-- Rounding of a real result to the nearest `double` above it, the rounding of the
external interval library for an upper bound. -/
def Double.roundUp (q : ℚ) : ℚ :=
  if q = 0 then 0
  else
    let p : ℤ := max (Double.exponent q - 52) (-1074)
    let N := (Double.scaled q p).1
    let D := (Double.scaled q p).2
    let k := N / D
    let r := N % D
    let k := if r = 0 then k else if q < 0 then k else k + 1
    Double.ofMantissa (decide (q < 0)) k p

/-- The addition `a + b` of two `double` values. -/
def Double.add (a b : ℚ) : ℚ := Double.round (a + b)

/-- `Interval::diam` of the external interval library: the width `ub - lb`, rounded
upward. -/
def Interval.diam (x : Interval) : ℚ := Double.roundUp (x.ub - x.lb)

/-- `Interval::is_degenerated` on a non-empty interval. -/
def Interval.is_degenerated (x : Interval) : Bool := decide (x.lb = x.ub)

/-- Modelled from the spec: the class `TubeSlice` (tubex_TubeSlice.cpp is missing).
A slice has a time domain, an envelope (`codomain`), two gates and a dimension. -/
structure TubeSlice (β : Type) where
  domain : Interval
  codomain : β
  inputGate : β
  outputGate : β
  dim : ℕ
deriving DecidableEq, Repr

/-- The chain: the vector `m_v_slices`. -/
structure TubeVector (β : Type) where
  m_v_slices : List (TubeSlice β)
deriving DecidableEq, Repr

variable {β : Type}

/-- Modelled from the spec: the constructor `TubeSlice(domain, dim)`, missing from the
sources. The new slice carries no information yet: envelope and gates are the whole
value space. -/
def TubeSlice.new [Top β] (domain : Interval) (dim : ℕ) : TubeSlice β :=
  { domain := domain, codomain := ⊤, inputGate := ⊤, outputGate := ⊤, dim := dim }

/-- Modelled from the spec: the copy constructor of `TubeSlice`, missing from the
sources: a new slice object with the values copied. -/
def TubeSlice.copy (s : TubeSlice β) : TubeSlice β :=
  { domain := s.domain, codomain := s.codomain, inputGate := s.inputGate,
    outputGate := s.outputGate, dim := s.dim }

/-- Modelled from the spec: `TubeSlice::setDomain`, missing from the sources. -/
def TubeSlice.setDomain (s : TubeSlice β) (d : Interval) : TubeSlice β :=
  { s with domain := d }

/-- Modelled from the spec: `TubeSlice::setOutputGate`, missing from the sources:
overwrites the output gate of this slice. -/
def TubeSlice.setOutputGate (s : TubeSlice β) (g : β) : TubeSlice β :=
  { s with outputGate := g }

/-- Modelled from the spec: `TubeSlice::operator[](double)`, missing from the sources:
the gate at a boundary time of the slice, the envelope at an interior time. -/
def TubeSlice.operatorBracket (s : TubeSlice β) (t : ℚ) : β :=
  if t = s.domain.lb then s.inputGate
  else if t = s.domain.ub then s.outputGate
  else s.codomain

/-- `TubeVector::nbSlices`. -/
def TubeVector.nbSlices (x : TubeVector β) : ℕ := x.m_v_slices.length

/-- `TubeVector::domain`: from the first slice's lower bound to the last slice's upper
bound. Every constructor creates at least one slice; on an empty vector the source
dereferences `begin()` of an empty vector, here the result is `[0, 0]`. -/
def TubeVector.domain (x : TubeVector β) : Interval :=
  match x.m_v_slices.head?, x.m_v_slices.getLast? with
  | some first, some last => ⟨first.domain.lb, last.domain.ub⟩
  | _, _ => ⟨0, 0⟩

/-- `TubeVector::dim`: read from the first slice. -/
def TubeVector.dim (x : TubeVector β) : ℕ :=
  match x.m_v_slices.head? with
  | some first => first.dim
  | none => 0

/-- Modelled from the spec: `DomainException::check(const Interval&)`, missing from the
sources: a time domain is a non-degenerate interval. -/
def DomainException.checkDomain (domain : Interval) : Except Exception Unit :=
  if domain.lb < domain.ub then .ok () else .error .DomainException

/-- Modelled from the spec: `DomainException::check(double timestep)`, missing from the
sources: a negative timestep is rejected (zero is accepted: the constructor handles
it). -/
def DomainException.checkTimestep (timestep : ℚ) : Except Exception Unit :=
  if 0 ≤ timestep then .ok () else .error .DomainException

/-- Modelled from the spec: `DimensionException::check(int dim)`, missing from the
sources: a box has at least one component. -/
def DimensionException.checkDim (dim : ℕ) : Except Exception Unit :=
  if 1 ≤ dim then .ok () else .error .DimensionException

/-- Modelled from the spec: `DomainException::check(const TubeVector&, double)`, missing
from the sources: fails when `t` is outside `domain()`. -/
def DomainException.check (x : TubeVector β) (t : ℚ) : Except Exception Unit :=
  if x.domain.lb ≤ t ∧ t ≤ x.domain.ub then .ok () else .error .DomainException

/-- Modelled from the spec: `DomainException::check(const TubeVector&, int)`, missing
from the sources: fails when the index is not one of the chain's slices. -/
def DomainException.checkIndex (x : TubeVector β) (slice_id : ℕ) : Except Exception Unit :=
  if slice_id < x.nbSlices then .ok () else .error .DomainException

/-- Modelled from the spec: `DomainException::check(const TubeVector&, const Interval&)`,
missing from the sources: fails when the sub-interval is not inside `domain()`. -/
def DomainException.checkInterval (x : TubeVector β) (t : Interval) :
    Except Exception Unit :=
  if x.domain.lb ≤ t.lb ∧ t.lb ≤ t.ub ∧ t.ub ≤ x.domain.ub then .ok ()
  else .error .DomainException

/-- The `do ... while(ub < domain.ub())` loop of
`TubeVector(const Interval&, double, int)`; `ub` is the loop variable, `slices` the
vector built so far. `none`: the loop is still running after `fuel` iterations. -/
def TubeVector.sliceLoop [Top β] (domain : Interval) (timestep : ℚ) (dim : ℕ) :
    ℕ → ℚ → List (TubeSlice β) → Option (List (TubeSlice β))
  | 0, _, _ => none
  | fuel + 1, ub, slices =>
    let lb := ub
    let ub := min (Double.add lb timestep) domain.ub
    let slices := slices ++ [TubeSlice.new ⟨lb, ub⟩ dim]
    if ub < domain.ub then TubeVector.sliceLoop domain timestep dim fuel ub slices
    else some slices

/-- `TubeVector::TubeVector(const Interval& domain, double timestep, int dim)`. -/
def TubeVector.ofTimestep [Top β] (fuel : ℕ) (domain : Interval) (timestep : ℚ) (dim : ℕ) :
    Option (Except Exception (TubeVector β)) :=
  match DomainException.checkDomain domain with
  | .error e => some (.error e)
  | .ok _ =>
  match DomainException.checkTimestep timestep with
  | .error e => some (.error e)
  | .ok _ =>
  match DimensionException.checkDim dim with
  | .error e => some (.error e)
  | .ok _ =>
    let timestep := if timestep = 0 then domain.diam else timestep
    match TubeVector.sliceLoop domain timestep dim fuel domain.lb [] with
    | none => none
    | some slices => some (.ok ⟨slices⟩)

/-- `TubeVector::getSlice(int)`. -/
def TubeVector.getSliceAt (x : TubeVector β) (slice_id : ℕ) :
    Except Exception (TubeSlice β) :=
  match DomainException.checkIndex x slice_id with
  | .error e => .error e
  | .ok _ =>
    match x.m_v_slices[slice_id]? with
    | some s => .ok s
    | none => .error .DomainException

/-- The `for` loop of `TubeVector::input2index`, from index `i` on. Leaving the loop
without a result is running off the end of the function. -/
def TubeVector.input2indexLoop (t : ℚ) : List (TubeSlice β) → ℕ → Except Exception ℕ
  | [], _ => .error .NoReturn
  | s :: rest, i =>
    if s.domain.lb ≤ t ∧ t < s.domain.ub then .ok i
    else TubeVector.input2indexLoop t rest (i + 1)

/-- `TubeVector::input2index`. -/
def TubeVector.input2index (x : TubeVector β) (t : ℚ) : Except Exception ℕ :=
  match DomainException.check x t with
  | .error e => .error e
  | .ok _ =>
    if t = x.domain.ub then .ok (x.nbSlices - 1)
    else TubeVector.input2indexLoop t x.m_v_slices 0

/-- `TubeVector::getSlice(double)`. -/
def TubeVector.getSlice (x : TubeVector β) (t : ℚ) : Except Exception (TubeSlice β) :=
  match DomainException.check x t with
  | .error e => .error e
  | .ok _ =>
    match x.input2index t with
    | .error e => .error e
    | .ok i => x.getSliceAt i

/-- `TubeVector::sample(double)`. The pointer `slice_to_be_sampled` is the slice at
index `input2index(t)`, so after the insertion at `new_slice_id` it is the slice at
`new_slice_id - 1`. The two `chainSlices` calls link the new slice between
`slice_to_be_sampled` and its former successor, which is the order of the vector. -/
def TubeVector.sample (x : TubeVector β) (t : ℚ) : Except Exception (TubeVector β) :=
  match DomainException.check x t with
  | .error e => .error e
  | .ok _ =>
    match x.getSlice t with
    | .error e => .error e
    | .ok slice_to_be_sampled =>
      if slice_to_be_sampled.domain.lb = t ∨ slice_to_be_sampled.domain.ub = t then
        .ok x
      else
        match x.input2index t with
        | .error e => .error e
        | .ok i =>
          let new_slice_id := i + 1
          let slices := x.m_v_slices.insertIdx new_slice_id slice_to_be_sampled.copy
          let slices := slices.modify
            (fun s => s.setDomain ⟨t, slice_to_be_sampled.domain.ub⟩) new_slice_id
          let slices := slices.modify
            (fun s => s.setDomain ⟨s.domain.lb, t⟩) (new_slice_id - 1)
          let slices := slices.modify
            (fun s => s.setOutputGate s.codomain) (new_slice_id - 1)
          .ok ⟨slices⟩

/-- `TubeVector::codomain`: the union of all envelopes, walking the chain from the first
slice. -/
def TubeVector.codomain [SemilatticeSup β] [OrderBot β] (x : TubeVector β) : β :=
  x.m_v_slices.foldl (fun codomain slice => codomain ⊔ slice.codomain) ⊥

/-- `TubeVector::operator[](double)`. -/
def TubeVector.operatorBracketTime (x : TubeVector β) (t : ℚ) : Except Exception β :=
  match DomainException.check x t with
  | .error e => .error e
  | .ok _ =>
    match x.getSlice t with
    | .error e => .error e
    | .ok s => .ok (s.operatorBracket t)

/-- The loop `while(slice != NULL && slice != last_slice)` of
`TubeVector::operator[](const Interval&)`: `i` is the index of `slice`, the list holds
`slice` and its successors, `last_slice` is the index the loop stops at. -/
def TubeVector.unionLoop [SemilatticeSup β] [OrderBot β] (last_slice : ℕ) :
    List (TubeSlice β) → ℕ → β → β
  | [], _, codomain => codomain
  | slice :: rest, i, codomain =>
    if i = last_slice then codomain
    else TubeVector.unionLoop last_slice rest (i + 1) (codomain ⊔ slice.codomain)

/-- `TubeVector::operator[](const Interval&)`. The pointers `slice` and `last_slice`
are the indices `input2index(t.lb())` and `input2index(t.ub())`; `nextSlice()` is the
next index. -/
def TubeVector.operatorBracketInterval [SemilatticeSup β] [OrderBot β]
    (x : TubeVector β) (t : Interval) : Except Exception β :=
  match DomainException.checkInterval x t with
  | .error e => .error e
  | .ok _ =>
    if t.is_degenerated then x.operatorBracketTime t.lb
    else
      match x.getSlice t.lb, x.input2index t.lb with
      | .error e, _ => .error e
      | _, .error e => .error e
      | .ok _, .ok slice =>
        match x.getSlice t.ub, x.input2index t.ub with
        | .error e, _ => .error e
        | _, .error e => .error e
        | .ok last, .ok last_slice =>
          let last_slice := if last.domain.lb ≠ t.ub then last_slice + 1 else last_slice
          .ok (TubeVector.unionLoop last_slice (x.m_v_slices.drop slice) slice ⊥)

/-- The range query as the specification words it: the union of the envelopes of every
slice whose domain intersects `t`, except the slice whose domain starts exactly at
`t.ub`. -/
def TubeVector.operatorBracketIntervalSpec [SemilatticeSup β] [OrderBot β]
    (x : TubeVector β) (t : Interval) : β :=
  (x.m_v_slices.filter (fun s =>
      decide ((s.domain.lb ≤ t.ub ∧ t.lb ≤ s.domain.ub) ∧ s.domain.lb ≠ t.ub))).foldl
    (fun codomain slice => codomain ⊔ slice.codomain) ⊥

/-- Structural invariants of a chain: at least one slice, every slice has a
non-degenerate time domain, and each slice ends where the next one begins. -/
def TubeVector.WellFormed (x : TubeVector β) : Prop :=
  0 < x.nbSlices ∧ (∀ s ∈ x.m_v_slices, s.domain.lb < s.domain.ub) ∧
    x.m_v_slices.Chain' (fun a b => a.domain.ub = b.domain.lb)

/-- All slices of the chain share the dimension of the chain. -/
def TubeVector.UniformDim (x : TubeVector β) : Prop :=
  ∀ s ∈ x.m_v_slices, s.dim = x.dim

/-- Modelled from the spec: a one-dimensional box of the external interval library:
the empty set, a bounded interval, or the whole line. -/
inductive Box1 where
  | empty
  | bounded (lb ub : ℚ)
  | all
deriving DecidableEq, Repr

/-- Modelled from the spec: the union `|=` of the external interval library is the
hull of the two operands. -/
def Box1.hull : Box1 → Box1 → Box1
  | .empty, y => y
  | x, .empty => x
  | .all, _ => .all
  | _, .all => .all
  | .bounded a b, .bounded c d => .bounded (min a c) (max b d)

instance : Max Box1 := ⟨Box1.hull⟩
instance : Bot Box1 := ⟨Box1.empty⟩
instance : Top Box1 := ⟨Box1.all⟩

instance : SemilatticeSup Box1 :=
  SemilatticeSup.mk'
    (fun x y => by
      show Box1.hull x y = Box1.hull y x
      cases x <;> cases y <;> simp [Box1.hull, min_comm, max_comm])
    (fun x y z => by
      show Box1.hull (Box1.hull x y) z = Box1.hull x (Box1.hull y z)
      cases x <;> cases y <;> cases z <;> simp [Box1.hull, min_assoc, max_assoc])
    (fun x => by
      show Box1.hull x x = x
      cases x <;> simp [Box1.hull])

instance : OrderBot Box1 where
  bot_le x := by
    show Box1.hull Box1.empty x = x
    cases x <;> rfl

instance (x : TubeVector β) : Decidable x.UniformDim :=
  inferInstanceAs (Decidable (∀ s ∈ x.m_v_slices, s.dim = x.dim))

/-- The slice `slice_to_be_sampled` as `sample(t)` leaves it: domain cut at `t`, output
gate set to the envelope. -/
def TubeVector.leftHalf (s : TubeSlice β) (t : ℚ) : TubeSlice β :=
  (s.setDomain ⟨s.domain.lb, t⟩).setOutputGate s.codomain

/-- The slice inserted by `sample(t)`: a copy of `slice_to_be_sampled` whose domain
starts at `t`. -/
def TubeVector.rightHalf (s : TubeSlice β) (t : ℚ) : TubeSlice β :=
  s.copy.setDomain ⟨t, s.domain.ub⟩

/-- The chain of the running example: `[0, 10]` cut by timestep `2`, dimension `1`. -/
def exampleChain : TubeVector Box1 :=
  ⟨[TubeSlice.new ⟨0, 2⟩ 1, TubeSlice.new ⟨2, 4⟩ 1, TubeSlice.new ⟨4, 6⟩ 1,
    TubeSlice.new ⟨6, 8⟩ 1, TubeSlice.new ⟨8, 10⟩ 1]⟩

/-- A one-slice chain over `[0, 2]` whose envelope `[0, 1]` differs from both gates. -/
def gateChain : TubeVector Box1 :=
  ⟨[{ domain := ⟨0, 2⟩, codomain := .bounded 0 1, inputGate := .bounded 0 0,
      outputGate := .bounded 1 1, dim := 1 }]⟩

/-- Two slices `[0, 2]` and `[2, 4]` with the disjoint envelopes `[0, 1]` and `[5, 6]`. -/
def twoSliceChain : TubeVector Box1 :=
  ⟨[{ domain := ⟨0, 2⟩, codomain := .bounded 0 1, inputGate := .bounded 0 1,
      outputGate := .bounded 0 1, dim := 1 },
    { domain := ⟨2, 4⟩, codomain := .bounded 5 6, inputGate := .bounded 5 6,
      outputGate := .bounded 5 6, dim := 1 }]⟩

/-- The slicing of `twoSliceChain` with the envelope `[0, 1]` on both slices. -/
def flatChain : TubeVector Box1 :=
  ⟨[{ domain := ⟨0, 2⟩, codomain := .bounded 0 1, inputGate := .bounded 0 1,
      outputGate := .bounded 0 1, dim := 1 },
    { domain := ⟨2, 4⟩, codomain := .bounded 0 1, inputGate := .bounded 0 1,
      outputGate := .bounded 0 1, dim := 1 }]⟩

/-! ### Values, comparisons and copies -/

/-- Modelled from the spec: what the chain uses from the boxes of the external interval
library besides the union and the empty box: the number of components of a box
(`IntervalVector::size`), the sum of two boxes, and the box holding `[-rad, rad]` in
each of `dim` components. -/
class BoxOps (β : Type) where
  size : β → ℕ
  add : β → β → β
  symmetric : ℕ → ℚ → β

/-- Modelled from the spec: `TubeSlice::set`, missing from the sources: overwrites the
envelope of the slice. -/
def TubeSlice.set (s : TubeSlice β) (y : β) : TubeSlice β :=
  { s with codomain := y }

/-- Modelled from the spec: `TubeSlice::setEnvelope`, missing from the sources. -/
def TubeSlice.setEnvelope (s : TubeSlice β) (y : β) : TubeSlice β :=
  { s with codomain := y }

/-- Modelled from the spec: `TubeSlice::setInputGate`, missing from the sources:
overwrites the input gate of this slice. -/
def TubeSlice.setInputGate (s : TubeSlice β) (g : β) : TubeSlice β :=
  { s with inputGate := g }

/-- Modelled from the spec: `TubeSlice::operator!=`, missing from the sources: two slices
differ when their domains, envelopes or gates differ. -/
def TubeSlice.ne [DecidableEq β] (s x : TubeSlice β) : Bool :=
  !decide (s.domain = x.domain ∧ s.codomain = x.codomain ∧ s.inputGate = x.inputGate ∧
    s.outputGate = x.outputGate)

/-- Modelled from the spec: `TubeSlice::isSubset`, missing from the sources: envelope and
gates are contained in those of the other slice. -/
def TubeSlice.isSubset [SemilatticeSup β] [DecidableRel (α := β) (· ≤ ·)]
    (s x : TubeSlice β) : Bool :=
  decide (s.codomain ≤ x.codomain ∧ s.inputGate ≤ x.inputGate ∧ s.outputGate ≤ x.outputGate)

/-- Modelled from the spec: `TubeSlice::isEmpty`, missing from the sources: the envelope
of the slice is the empty box. -/
def TubeSlice.isEmpty [Bot β] [DecidableEq β] (s : TubeSlice β) : Bool :=
  decide (s.codomain = ⊥)

/-- Modelled from the spec: `DimensionException::check(const TubeVector&, const
IntervalVector&)`, missing from the sources: fails when the box has not the dimension
of the chain. -/
def DimensionException.checkBox [BoxOps β] (x : TubeVector β) (y : β) :
    Except Exception Unit :=
  if BoxOps.size y = x.dim then .ok () else .error .DimensionException

/-- Modelled from the spec: `DimensionException::check(const TubeVector&, const
TubeVector&)`, missing from the sources: fails when the two chains differ in
dimension. -/
def DimensionException.checkTube (x1 x2 : TubeVector β) : Except Exception Unit :=
  if x1.dim = x2.dim then .ok () else .error .DimensionException

/-- Modelled from the spec: `StructureException::check(const TubeVector&, const
TubeVector&)`, missing from the sources: fails when the two chains do not share their
slicing (slice count and slice domains). -/
def StructureException.check (x1 x2 : TubeVector β) : Except Exception Unit :=
  if x1.nbSlices = x2.nbSlices ∧
      x1.m_v_slices.map (fun s => s.domain) = x2.m_v_slices.map (fun s => s.domain) then .ok ()
  else .error .StructureException

/-- The loop of `TubeVector::operator=`: `n` iterations are left, `i` is the loop
variable, `slices` the vector built so far. -/
def TubeVector.assignLoop (x : TubeVector β) :
    ℕ → ℕ → List (TubeSlice β) → Except Exception (List (TubeSlice β))
  | 0, _, slices => .ok slices
  | n + 1, i, slices =>
    match x.getSliceAt i with
    | .error e => .error e
    | .ok s => TubeVector.assignLoop x n (i + 1) (slices ++ [s.copy])

/-- `TubeVector::operator=`: the chain assigned from `x`. -/
def TubeVector.assign (x : TubeVector β) : Except Exception (TubeVector β) :=
  match TubeVector.assignLoop x x.nbSlices 0 [] with
  | .error e => .error e
  | .ok slices => .ok ⟨slices⟩

/-- `TubeVector::TubeVector(const TubeVector&)`. -/
def TubeVector.copy (x : TubeVector β) : Except Exception (TubeVector β) :=
  TubeVector.assign x

/-- The loop of `TubeVector::operator==` on the two chains, from the current pair of
slices on. -/
def TubeVector.eqLoop [DecidableEq β] :
    List (TubeSlice β) → List (TubeSlice β) → Except Exception Bool
  | [], _ => .ok true
  | _ :: _, [] => .error .NullPointer
  | slice :: rest, slice_x :: rest_x =>
    if slice.ne slice_x then .ok false else TubeVector.eqLoop rest rest_x

/-- `TubeVector::operator==`. -/
def TubeVector.operatorEq [DecidableEq β] (a x : TubeVector β) : Except Exception Bool :=
  match DimensionException.checkTube a x with
  | .error e => .error e
  | .ok _ =>
    if x.nbSlices ≠ a.nbSlices then .ok false
    else TubeVector.eqLoop a.m_v_slices x.m_v_slices

/-- The loop of `TubeVector::operator!=`. -/
def TubeVector.neLoop [DecidableEq β] :
    List (TubeSlice β) → List (TubeSlice β) → Except Exception Bool
  | [], _ => .ok false
  | _ :: _, [] => .error .NullPointer
  | slice :: rest, slice_x :: rest_x =>
    if slice.ne slice_x then .ok true else TubeVector.neLoop rest rest_x

/-- `TubeVector::operator!=`. -/
def TubeVector.operatorNe [DecidableEq β] (a x : TubeVector β) : Except Exception Bool :=
  match DimensionException.checkTube a x with
  | .error e => .error e
  | .ok _ =>
    if x.nbSlices ≠ a.nbSlices then .ok true
    else TubeVector.neLoop a.m_v_slices x.m_v_slices

/-- The loop of `TubeVector::isSubset`. -/
def TubeVector.isSubsetLoop [SemilatticeSup β] [DecidableRel (α := β) (· ≤ ·)] :
    List (TubeSlice β) → List (TubeSlice β) → Except Exception Bool
  | [], _ => .ok false
  | _ :: _, [] => .error .NullPointer
  | slice :: rest, slice_x :: rest_x =>
    if slice.isSubset slice_x then .ok true else TubeVector.isSubsetLoop rest rest_x

/-- `TubeVector::isSubset`. -/
def TubeVector.isSubset [SemilatticeSup β] [DecidableRel (α := β) (· ≤ ·)]
    (a x : TubeVector β) : Except Exception Bool :=
  match DimensionException.checkTube a x with
  | .error e => .error e
  | .ok _ =>
    match StructureException.check a x with
    | .error e => .error e
    | .ok _ => TubeVector.isSubsetLoop a.m_v_slices x.m_v_slices

/-- The subset test as the specification words it: every slice is a subset of the
corresponding slice of the other chain. -/
def TubeVector.isSubsetSpec [SemilatticeSup β] [DecidableRel (α := β) (· ≤ ·)]
    (a x : TubeVector β) : Bool :=
  (a.m_v_slices.zip x.m_v_slices).all (fun p => p.1.isSubset p.2)

/-- `TubeVector::isEmpty`: the walk stops at the first empty slice. -/
def TubeVector.isEmpty [Bot β] [DecidableEq β] (x : TubeVector β) : Bool :=
  x.m_v_slices.any (fun slice => slice.isEmpty)

/-- `TubeVector::set(const IntervalVector&)`. -/
def TubeVector.set [BoxOps β] (x : TubeVector β) (y : β) : Except Exception (TubeVector β) :=
  match DimensionException.checkBox x y with
  | .error e => .error e
  | .ok _ => .ok ⟨x.m_v_slices.map (fun slice => slice.set y)⟩

/-- `TubeVector::setEmpty`. -/
def TubeVector.setEmpty [BoxOps β] [Bot β] (x : TubeVector β) :
    Except Exception (TubeVector β) :=
  x.set ⊥

/-- `TubeVector::inflate`: a first walk over the envelopes, a second one over the
gates, where only the first slice has its input gate inflated. -/
def TubeVector.inflate [BoxOps β] (x : TubeVector β) (rad : ℚ) : TubeVector β :=
  let e : β := BoxOps.symmetric x.dim rad
  let slices := x.m_v_slices.map
    (fun slice => slice.setEnvelope (BoxOps.add slice.codomain e))
  match slices with
  | [] => ⟨[]⟩
  | first_slice :: rest =>
    ⟨((first_slice.setInputGate (BoxOps.add first_slice.inputGate e)).setOutputGate
        (BoxOps.add first_slice.outputGate e)) ::
      rest.map (fun slice => slice.setOutputGate (BoxOps.add slice.outputGate e))⟩

/-! ### Gates at a time, assignment over an interval, inversion -/

mutual

/-- `TubeVector::set(const IntervalVector&, double)`. The body ends with the call
`sample(t, y)`. `none`: the calls are still nested after `fuel` of them. -/
def TubeVector.setTime [BoxOps β] :
    ℕ → TubeVector β → β → ℚ → Option (Except Exception (TubeVector β))
  | 0, _, _, _ => none
  | fuel + 1, x, y, t =>
    match DimensionException.checkBox x y with
    | .error e => some (.error e)
    | .ok _ =>
      match DomainException.check x t with
      | .error e => some (.error e)
      | .ok _ => TubeVector.sampleGate fuel x t y

/-- `TubeVector::sample(double, const IntervalVector&)`. The body ends with the call
`set(gate, t)`, which the overloads resolve to `set(const IntervalVector&, double)`.
`none`: the calls are still nested after `fuel` of them. -/
def TubeVector.sampleGate [BoxOps β] :
    ℕ → TubeVector β → ℚ → β → Option (Except Exception (TubeVector β))
  | 0, _, _, _ => none
  | fuel + 1, x, t, gate =>
    match DomainException.check x t with
    | .error e => some (.error e)
    | .ok _ =>
      match DimensionException.checkBox x gate with
      | .error e => some (.error e)
      | .ok _ =>
        match x.sample t with
        | .error e => some (.error e)
        | .ok x' => TubeVector.setTime fuel x' gate t

end

/-- `Interval::operator&` on two non-empty time intervals; `none` is the empty
interval. -/
def Interval.inter (a b : Interval) : Option Interval :=
  if max a.lb b.lb ≤ min a.ub b.ub then some ⟨max a.lb b.lb, min a.ub b.ub⟩ else none

/-- `Interval::operator&` when the left operand may be empty. -/
def Interval.interOpt (a : Option Interval) (b : Interval) : Option Interval :=
  match a with
  | none => none
  | some a => Interval.inter a b

/-- `Interval::is_degenerated` on a possibly empty interval: the empty interval counts
as degenerate. -/
def Interval.is_degenerated_opt : Option Interval → Bool
  | none => true
  | some a => a.is_degenerated

/-- `Interval::operator|=`: the hull of two possibly empty time intervals. -/
def Interval.hull : Option Interval → Option Interval → Option Interval
  | none, b => b
  | a, none => a
  | some a, some b => some ⟨min a.lb b.lb, max a.ub b.ub⟩

/-- Inclusion of possibly empty time intervals. -/
def Interval.subset : Option Interval → Option Interval → Prop
  | none, _ => True
  | some _, none => False
  | some a, some b => b.lb ≤ a.lb ∧ a.ub ≤ b.ub

/-- The `for` loop of `TubeVector::set(const IntervalVector&, const Interval&)`: `i` is
the loop variable, `slice` the index of the slice the pointer `slice` designates (a
pointer past the last slice is null). `none`: the loop is still running after `fuel`
iterations. -/
def TubeVector.setIntervalLoop (y : β) (t : Interval) :
    ℕ → TubeVector β → ℕ → ℕ → Option (Except Exception (TubeVector β))
  | 0, _, _, _ => none
  | fuel + 1, x, i, slice =>
    match x.input2index t.ub with
    | .error e => some (.error e)
    | .ok last =>
      if i ≤ last then
        match x.m_v_slices[slice]? with
        | none => some (.ok x)
        | some s =>
          if Interval.is_degenerated_opt (Interval.inter t s.domain) then
            TubeVector.setIntervalLoop y t fuel x (i + 1) slice
          else
            TubeVector.setIntervalLoop y t fuel
              ⟨x.m_v_slices.modify (fun r => r.set y) slice⟩ (i + 1) (slice + 1)
      else some (.ok x)

/-- `TubeVector::set(const IntervalVector&, const Interval&)`. -/
def TubeVector.setInterval [BoxOps β] (fuel : ℕ) (x : TubeVector β) (y : β) (t : Interval) :
    Option (Except Exception (TubeVector β)) :=
  match DimensionException.checkBox x y with
  | .error e => some (.error e)
  | .ok _ =>
    match DomainException.checkInterval x t with
    | .error e => some (.error e)
    | .ok _ =>
      if t.is_degenerated then TubeVector.setTime fuel x y t.lb
      else
        match TubeVector.sampleGate fuel x t.lb y with
        | none => none
        | some (.error e) => some (.error e)
        | some (.ok x1) =>
          match TubeVector.sampleGate fuel x1 t.ub y with
          | none => none
          | some (.error e) => some (.error e)
          | some (.ok x2) =>
            match x2.input2index t.lb with
            | .error e => some (.error e)
            | .ok i =>
              match x2.getSliceAt i with
              | .error e => some (.error e)
              | .ok _ => TubeVector.setIntervalLoop y t fuel x2 i i

/-- The `while` loop of the scalar `TubeVector::invert`: the list holds `slice` and its
successors, `invert` is the union built so far. `TubeSlice_invert` is
`TubeSlice::invert`, the local inversion of one slice, which is missing from the
sources. -/
def TubeVector.invertLoop (TubeSlice_invert : TubeSlice β → β → Interval → Option Interval)
    (y : β) (intersection : Interval) :
    List (TubeSlice β) → Option Interval → Option Interval
  | [], invert => invert
  | slice :: rest, invert =>
    if slice.domain.lb ≤ intersection.ub then
      TubeVector.invertLoop TubeSlice_invert y intersection rest
        (Interval.hull invert (TubeSlice_invert slice y intersection))
    else invert

/-- `TubeVector::invert(const IntervalVector&, const Interval&)`, the scalar overload.
The search domain is a bounded interval or the empty one. -/
def TubeVector.invert [BoxOps β]
    (TubeSlice_invert : TubeSlice β → β → Interval → Option Interval)
    (x : TubeVector β) (y : β) (search_domain : Option Interval) :
    Except Exception (Option Interval) :=
  match DimensionException.checkBox x y with
  | .error e => .error e
  | .ok _ =>
    match Interval.interOpt search_domain x.domain with
    | none => .ok none
    | some intersection =>
      match x.getSlice intersection.lb, x.input2index intersection.lb with
      | .error e, _ => .error e
      | _, .error e => .error e
      | .ok _, .ok slice =>
        .ok (TubeVector.invertLoop TubeSlice_invert y intersection
          (x.m_v_slices.drop slice) none)

/-- Modelled from the spec: the sum of two one-dimensional boxes of the external
interval library. -/
def Box1.add : Box1 → Box1 → Box1
  | .empty, _ => .empty
  | _, .empty => .empty
  | .all, _ => .all
  | _, .all => .all
  | .bounded a b, .bounded c d => .bounded (a + c) (b + d)

/-- The boxes of dimension one: `Interval(-rad, rad)` is the empty interval when
`rad < 0`, its bounds being in the wrong order. -/
instance : BoxOps Box1 where
  size _ := 1
  add := Box1.add
  symmetric _ rad := if 0 ≤ rad then .bounded (-rad) rad else .empty

instance : DecidableRel (α := Box1) (· ≤ ·) :=
  fun a b => decidable_of_iff (a ⊔ b = b) sup_eq_right

/-! ### Windows of an inversion, evaluation, bisection -/

/-- Membership of a time in a possibly empty time interval. -/
def Interval.mem (t : ℚ) : Option Interval → Prop
  | none => False
  | some a => a.lb ≤ t ∧ t ≤ a.ub

/-- The hull of the intervals of a vector. -/
def Interval.hullAll (v : List (Option Interval)) : Option Interval :=
  v.foldl Interval.hull none

/-- An interval lies before another one: both are non-empty and the first ends before
the second begins. -/
def Interval.before : Option Interval → Option Interval → Prop
  | some a, some b => a.ub < b.lb
  | _, _ => False

/-- The `while` loop of the vector overload of `TubeVector::invert`: the list holds
`slice` and its successors, the state is the running union `invert` and the vector
`v_t`. -/
def TubeVector.invertVectorLoop
    (TubeSlice_invert : TubeSlice β → β → Interval → Option Interval)
    (y : β) (intersection : Interval) :
    List (TubeSlice β) → Option Interval × List (Option Interval) →
      Option Interval × List (Option Interval)
  | [], state => state
  | slice :: rest, (invert, v_t) =>
    if slice.domain.lb ≤ intersection.ub then
      let local_invert := TubeSlice_invert slice y intersection
      if local_invert.isNone ∧ invert.isSome then
        TubeVector.invertVectorLoop TubeSlice_invert y intersection rest
          (none, v_t ++ [invert])
      else
        TubeVector.invertVectorLoop TubeSlice_invert y intersection rest
          (Interval.hull invert local_invert, v_t)
    else (invert, v_t)

/-- `std::vector::clear`. -/
def vector_clear {α : Type} (_ : List α) : List α := []

/-- `TubeVector::invert(const IntervalVector&, vector<Interval>&, const Interval&)`: the
argument `v_t` is the vector before the call, the result is the vector after it. -/
def TubeVector.invertVector [BoxOps β]
    (TubeSlice_invert : TubeSlice β → β → Interval → Option Interval)
    (x : TubeVector β) (y : β) (v_t : List (Option Interval))
    (search_domain : Option Interval) :
    Except Exception (List (Option Interval)) :=
  match DimensionException.checkBox x y with
  | .error e => .error e
  | .ok _ =>
    let v_t := vector_clear v_t
    match Interval.interOpt search_domain x.domain with
    | none => .ok v_t
    | some intersection =>
      match x.getSlice intersection.lb, x.input2index intersection.lb with
      | .error e, _ => .error e
      | _, .error e => .error e
      | .ok _, .ok slice =>
        let state := TubeVector.invertVectorLoop TubeSlice_invert y intersection
          (x.m_v_slices.drop slice) (none, v_t)
        if state.1.isSome then .ok (state.2 ++ [state.1]) else .ok state.2

/-- The slices that the loops of `invert` scan: from the slice of index `i`, as long
as the slice begins no later than `intersection` ends. -/
def TubeVector.scanned (x : TubeVector β) (intersection : Interval) (i : ℕ) :
    List (TubeSlice β) :=
  (x.m_v_slices.drop i).takeWhile (fun s => decide (s.domain.lb ≤ intersection.ub))

/-- The unions of the runs of a cut list of local inversions, the first run being
added to a window that is already open. -/
def Interval.hullRuns (acc : Option Interval) :
    List (List (Option Interval)) → List (Option Interval)
  | [] => [acc]
  | r :: rs => r.foldl Interval.hull acc :: rs.map (fun run => run.foldl Interval.hull none)

/-- The windows as the specification words them: the local inversions of the scanned
slices are cut at the empty ones, each maximal run of non-empty ones is unioned, and
the runs holding no slice are left out. -/
def TubeVector.invertWindowsSpec (local_inverts : List (Option Interval)) :
    List (Option Interval) :=
  ((local_inverts.splitOnP (fun o => o.isNone)).map
      (fun run => run.foldl Interval.hull none)).filter (fun o => o.isSome)

/-- The `while` loop of `TubeVector::eval`. `TubeSlice_eval` is `TubeSlice::eval`, the
local evaluation of one slice, which is missing from the sources. -/
def TubeVector.evalLoop [SemilatticeSup β] (TubeSlice_eval : TubeSlice β → Interval → β × β)
    (intersection : Interval) : List (TubeSlice β) → β × β → β × β
  | [], enclosed_bounds => enclosed_bounds
  | slice :: rest, enclosed_bounds =>
    if slice.domain.lb ≤ intersection.ub then
      let local_eval := TubeSlice_eval slice intersection
      TubeVector.evalLoop TubeSlice_eval intersection rest
        (enclosed_bounds.1 ⊔ local_eval.1, enclosed_bounds.2 ⊔ local_eval.2)
    else enclosed_bounds

/-- `TubeVector::eval`. The test made before the walk is `t.is_empty()`. When `t` is not
empty and `intersection` is, `intersection.lb()` is not a time: the lookup
`getSlice(intersection.lb())` fails its domain check. -/
def TubeVector.eval [SemilatticeSup β] [OrderBot β]
    (TubeSlice_eval : TubeSlice β → Interval → β × β)
    (x : TubeVector β) (t : Option Interval) : Except Exception (β × β) :=
  let enclosed_bounds : β × β := (⊥, ⊥)
  let intersection := Interval.interOpt t x.domain
  match t with
  | none => .ok enclosed_bounds
  | some _ =>
    match intersection with
    | none => .error .DomainException
    | some intersection =>
      match x.getSlice intersection.lb, x.input2index intersection.lb with
      | .error e, _ => .error e
      | _, .error e => .error e
      | .ok _, .ok slice =>
        .ok (TubeVector.evalLoop TubeSlice_eval intersection
          (x.m_v_slices.drop slice) enclosed_bounds)

/-- `TubeVector::bisect`. `LargestFirst_bisect ratio` is the bisector of the external
interval library, `none` being its `NoBisectableVariableException`. `none` as a result:
a call made by `bisect` is still running after `fuel` nested calls. -/
def TubeVector.bisect [BoxOps β] (LargestFirst_bisect : ℚ → β → Option (β × β))
    (fuel : ℕ) (x : TubeVector β) (t : ℚ) (ratio : ℚ) :
    Option (Except Exception (TubeVector β × TubeVector β)) :=
  match DomainException.check x t with
  | .error e => some (.error e)
  | .ok _ =>
    match x.copy, x.copy with
    | .error e, _ => some (.error e)
    | _, .error e => some (.error e)
    | .ok first, .ok second =>
      match x.operatorBracketTime t with
      | .error e => some (.error e)
      | .ok box =>
        match LargestFirst_bisect ratio box with
        | none => some (.error .NotBisectable)
        | some p_codomain =>
          match TubeVector.setTime fuel first p_codomain.1 t with
          | none => none
          | some (.error e) => some (.error e)
          | some (.ok first) =>
            match TubeVector.setTime fuel second p_codomain.2 t with
            | none => none
            | some (.error e) => some (.error e)
            | some (.ok second) => some (.ok (first, second))

/-! ### Compound assignment operators of `Tube` -/

/-- The body of the `do ... while` loops of the compound operators: envelope and input
gate of the slice are combined with the two operands by `f`. -/
def Tube.updateSlice (f : β → β → β) (s : TubeSlice β) (envelope gate : β) : TubeSlice β :=
  (s.setEnvelope (f s.codomain envelope)).setInputGate (f s.inputGate gate)

/-- The `do ... while(s->next_slice() != NULL)` loop of `Tube::f(const Interval&)`, from
the slice `s` on, followed by the update of the output gate of the last slice. -/
def Tube.scalarLoop (f : β → β → β) (x : β) : TubeSlice β → List (TubeSlice β) →
    List (TubeSlice β)
  | s, [] =>
    let s := Tube.updateSlice f s x x
    [s.setOutputGate (f s.outputGate x)]
  | s, next :: rest => Tube.updateSlice f s x x :: Tube.scalarLoop f x next rest

/-- Modelled from the spec: the class `Tube` (tubex_Tube.h and tubex_Slice.h are
missing) is the chain of the data model, with the slices and the lookups of
`TubeVector`. `Tube::f(const Interval& x)`, for `f` one of the six compound operators:
`f a b` is the value of `Interval(a).f(b)`. -/
def Tube.assignScalar (f : β → β → β) (a : TubeVector β) (x : β) :
    Except Exception (TubeVector β) :=
  match a.m_v_slices with
  | [] => .error .NullPointer
  | first_slice :: rest => .ok ⟨Tube.scalarLoop f x first_slice rest⟩

/-- The lockstep loop of `Tube::f(const Tube&)`, taken when both chains have the same
slicing. -/
def Tube.lockstepLoop (f : β → β → β) :
    TubeSlice β → List (TubeSlice β) → TubeSlice β → List (TubeSlice β) →
      Except Exception (List (TubeSlice β))
  | s, [], s_x, _ =>
    let s := Tube.updateSlice f s s_x.codomain s_x.inputGate
    .ok [s.setOutputGate (f s.outputGate s_x.outputGate)]
  | _, _ :: _, _, [] => .error .NullPointer
  | s, next :: rest, s_x, next_x :: rest_x =>
    match Tube.lockstepLoop f next rest next_x rest_x with
    | .error e => .error e
    | .ok slices => .ok (Tube.updateSlice f s s_x.codomain s_x.inputGate :: slices)

/-- The loop of `Tube::f(const Tube&)` taken when the slicings differ: the right-hand
chain `x` is queried over the domain of each slice and at its lower bound, and at the
upper bound of the last slice. The queries `x(const Interval&)` and `x(double)` are the
range and point queries of the chain. -/
def Tube.queryLoop [SemilatticeSup β] [OrderBot β] (f : β → β → β) (x : TubeVector β) :
    TubeSlice β → List (TubeSlice β) → Except Exception (List (TubeSlice β))
  | s, [] =>
    match x.operatorBracketInterval s.domain with
    | .error e => .error e
    | .ok envelope =>
      match x.operatorBracketTime s.domain.lb with
      | .error e => .error e
      | .ok gate =>
        let s := Tube.updateSlice f s envelope gate
        match x.operatorBracketTime s.domain.ub with
        | .error e => .error e
        | .ok output_gate => .ok [s.setOutputGate (f s.outputGate output_gate)]
  | s, next :: rest =>
    match x.operatorBracketInterval s.domain with
    | .error e => .error e
    | .ok envelope =>
      match x.operatorBracketTime s.domain.lb with
      | .error e => .error e
      | .ok gate =>
        match Tube.queryLoop f x next rest with
        | .error e => .error e
        | .ok slices => .ok (Tube.updateSlice f s envelope gate :: slices)

/-- The `do ... while(s->next_slice() != NULL)` loop of `Tube::f(const Trajectory&)`,
from the slice `s` on, followed by the update of the output gate of the last slice. The
trajectory `x` is evaluated over the domain of each slice and at its bounds. -/
def Tube.trajectoryLoop (f : β → β → β) (x : Interval → β) :
    TubeSlice β → List (TubeSlice β) → List (TubeSlice β)
  | s, [] =>
    let s := Tube.updateSlice f s (x s.domain) (x ⟨s.domain.lb, s.domain.lb⟩)
    [s.setOutputGate (f s.outputGate (x ⟨s.domain.ub, s.domain.ub⟩))]
  | s, next :: rest =>
    Tube.updateSlice f s (x s.domain) (x ⟨s.domain.lb, s.domain.lb⟩)
      :: Tube.trajectoryLoop f x next rest

/-- Modelled from the spec: `Tube::f(const Trajectory& x)`, for `f` one of the six
compound operators. The class `Trajectory` is external: `Trajectory_domain` is
`x.domain()` and `Trajectory_eval` is the evaluation `x(const Interval&)`. -/
def Tube.assignTrajectory (f : β → β → β) (a : TubeVector β) (Trajectory_domain : Interval)
    (Trajectory_eval : Interval → β) : Except Exception (TubeVector β) :=
  if a.domain = Trajectory_domain then
    match a.m_v_slices with
    | [] => .error .NullPointer
    | first_slice :: rest => .ok ⟨Tube.trajectoryLoop f Trajectory_eval first_slice rest⟩
  else .error .AssertionFailed

/-- The slicing of a chain: the time domains of its slices, in order. -/
def TubeVector.slicing (x : TubeVector β) : List Interval :=
  x.m_v_slices.map (fun s => s.domain)

/-- Modelled from the spec: `Tube::same_slicing`, missing from the sources: same slice
count and same slice domains. -/
def Tube.same_slicing (a x : TubeVector β) : Bool :=
  decide (a.nbSlices = x.nbSlices ∧
    a.m_v_slices.map (fun s => s.domain) = x.m_v_slices.map (fun s => s.domain))

/-- The lockstep branch of `Tube::f(const Tube&)`. -/
def Tube.assignTubeLockstep (f : β → β → β) (a x : TubeVector β) :
    Except Exception (TubeVector β) :=
  match a.m_v_slices, x.m_v_slices with
  | [], _ => .error .NullPointer
  | _ :: _, [] => .error .NullPointer
  | first_slice :: rest, first_slice_x :: rest_x =>
    match Tube.lockstepLoop f first_slice rest first_slice_x rest_x with
    | .error e => .error e
    | .ok slices => .ok ⟨slices⟩

/-- The query branch of `Tube::f(const Tube&)`. -/
def Tube.assignTubeQuery [SemilatticeSup β] [OrderBot β] (f : β → β → β)
    (a x : TubeVector β) : Except Exception (TubeVector β) :=
  match a.m_v_slices with
  | [] => .error .NullPointer
  | first_slice :: rest =>
    match Tube.queryLoop f x first_slice rest with
    | .error e => .error e
    | .ok slices => .ok ⟨slices⟩

/-- `Tube::f(const Tube& x)`, for `f` one of the six compound operators. -/
def Tube.assignTube [SemilatticeSup β] [OrderBot β] (f : β → β → β) (a x : TubeVector β) :
    Except Exception (TubeVector β) :=
  if a.domain = x.domain then
    if Tube.same_slicing a x then Tube.assignTubeLockstep f a x
    else Tube.assignTubeQuery f a x
  else .error .AssertionFailed

/-- Modelled from the spec: two one-dimensional boxes of the external interval library
have a common point. -/
def Box1.intersects : Box1 → Box1 → Bool
  | .empty, _ => false
  | _, .empty => false
  | .all, _ => true
  | _, .all => true
  | .bounded a b, .bounded c d => decide (max a c ≤ min b d)

/-- Modelled from the spec: the bisector of the external interval library in dimension
one: a bounded interval of positive width is cut at the given ratio, nothing else can
be bisected. -/
def Box1.bisect (ratio : ℚ) : Box1 → Option (Box1 × Box1)
  | .bounded a b =>
    if a < b then some (.bounded a (a + ratio * (b - a)), .bounded (a + ratio * (b - a)) b)
    else none
  | _ => none

/-- A local inversion for the one-dimensional examples: the part of the search interval
lying in the slice when the envelope or a gate of the slice meets `y`, the empty
interval otherwise. -/
def Box1.sliceInvert (s : TubeSlice Box1) (y : Box1) (d : Interval) : Option Interval :=
  if Box1.intersects s.codomain y ∨ Box1.intersects s.inputGate y ∨
      Box1.intersects s.outputGate y then Interval.inter d s.domain
  else none

/-- A one-slice chain over `[0, 10]` with the envelope `[0, 10]`. -/
def wideChain : TubeVector Box1 :=
  ⟨[{ domain := ⟨0, 10⟩, codomain := .bounded 0 10, inputGate := .bounded 0 10,
      outputGate := .bounded 0 10, dim := 1 }]⟩

/-- A one-slice chain over `[0, 10]` whose envelope and gates are the degenerate box
`[3, 3]`. -/
def pointChain : TubeVector Box1 :=
  ⟨[{ domain := ⟨0, 10⟩, codomain := .bounded 3 3, inputGate := .bounded 3 3,
      outputGate := .bounded 3 3, dim := 1 }]⟩

/-- Four slices over `[0, 8]` whose envelopes and gates are `[0, 1]`, `[5, 6]`, `[0, 1]`
and `[0, 1]`. -/
def windowChain : TubeVector Box1 :=
  ⟨[{ domain := ⟨0, 2⟩, codomain := .bounded 0 1, inputGate := .bounded 0 1,
      outputGate := .bounded 0 1, dim := 1 },
    { domain := ⟨2, 4⟩, codomain := .bounded 5 6, inputGate := .bounded 5 6,
      outputGate := .bounded 5 6, dim := 1 },
    { domain := ⟨4, 6⟩, codomain := .bounded 0 1, inputGate := .bounded 0 1,
      outputGate := .bounded 0 1, dim := 1 },
    { domain := ⟨6, 8⟩, codomain := .bounded 0 1, inputGate := .bounded 0 1,
      outputGate := .bounded 0 1, dim := 1 }]⟩

/-- Two slices `[0, 2]` and `[2, 4]` holding `[5, 6]` everywhere, except for the gate at
time `2`, the input gate of the second slice, which is `[0, 1]`. -/
def pinnedChain : TubeVector Box1 :=
  ⟨[{ domain := ⟨0, 2⟩, codomain := .bounded 5 6, inputGate := .bounded 5 6,
      outputGate := .bounded 5 6, dim := 1 },
    { domain := ⟨2, 4⟩, codomain := .bounded 5 6, inputGate := .bounded 0 1,
      outputGate := .bounded 5 6, dim := 1 }]⟩

/-! ## The example chains -/

theorem exampleChain_wellFormed : exampleChain.WellFormed := by
  refine ⟨by decide, ?_, ?_⟩
  · intro s hs
    simp only [exampleChain, List.mem_cons, List.mem_singleton, List.not_mem_nil,
      or_false] at hs
    rcases hs with rfl | rfl | rfl | rfl | rfl <;> norm_num [TubeSlice.new]
  · simp [exampleChain, TubeSlice.new]

theorem windowChain_wellFormed : windowChain.WellFormed := by
  refine ⟨by decide, ?_, ?_⟩
  · intro s hs
    simp only [windowChain, List.mem_cons, List.mem_singleton, List.not_mem_nil,
      or_false] at hs
    rcases hs with rfl | rfl | rfl | rfl <;> norm_num
  · simp [windowChain]

theorem wideChain_wellFormed : wideChain.WellFormed := by
  refine ⟨by decide, ?_, ?_⟩
  · intro s hs
    simp only [wideChain, List.mem_singleton] at hs
    subst hs
    norm_num
  · simp [wideChain]

theorem gateChain_wellFormed : gateChain.WellFormed := by
  refine ⟨by decide, ?_, ?_⟩
  · intro s hs
    simp only [gateChain, List.mem_singleton] at hs
    subst hs
    norm_num
  · simp [gateChain]

theorem twoSliceChain_wellFormed : twoSliceChain.WellFormed := by
  refine ⟨by decide, ?_, ?_⟩
  · intro s hs
    simp only [twoSliceChain, List.mem_cons, List.mem_singleton, List.not_mem_nil,
      or_false] at hs
    rcases hs with rfl | rfl <;> norm_num
  · simp [twoSliceChain]

/-! ## Construction by timestep -/

/-- When the sum `ub + timestep` rounds back to `ub`, below the end of the domain, the
loop of the constructor does not end: every iteration appends the degenerate slice
`[ub, ub]`. -/
theorem TubeVector.sliceLoop_stuck [Top β] (domain : Interval) (timestep : ℚ) (dim : ℕ)
    (ub : ℚ) (hadd : Double.add ub timestep = ub) (hlt : ub < domain.ub) :
    ∀ (fuel : ℕ) (acc : List (TubeSlice β)),
      TubeVector.sliceLoop domain timestep dim fuel ub acc = none
  | 0, _ => by rw [TubeVector.sliceLoop]
  | fuel + 1, acc => by
    rw [TubeVector.sliceLoop]
    simp only [hadd, min_eq_left hlt.le, hlt, if_true]
    exact TubeVector.sliceLoop_stuck domain timestep dim ub hadd hlt fuel _

/-- The constructor does not return for the domain `[10^16, 10^16 + 4]` and the timestep
`1`: doubles are two apart at `10^16`, and `10^16 + 1` rounds to `10^16`. -/
theorem ofTimestep_stuck_example :
    ∀ fuel : ℕ,
      (TubeVector.ofTimestep fuel ⟨10000000000000000, 10000000000000004⟩ 1 1 :
        Option (Except Exception (TubeVector Box1))) = none := by
  intro fuel
  have hloop := TubeVector.sliceLoop_stuck (β := Box1) ⟨10000000000000000, 10000000000000004⟩
    1 1 10000000000000000 (by decide!) (by decide!) fuel []
  have h1 : DomainException.checkDomain ⟨10000000000000000, 10000000000000004⟩ = .ok () := by
    decide!
  have h2 : DomainException.checkTimestep 1 = .ok () := by decide!
  have h3 : DimensionException.checkDim 1 = .ok () := by decide!
  simp only [TubeVector.ofTimestep, h1, h2, h3, if_neg (show (1 : ℚ) ≠ 0 by norm_num), hloop]

/-- The rounding on known values: `0.1`, `0.1 + 0.2`, a tie at `10^16`, a tie at `1`, and
an exact sum. -/
theorem Double.round_example :
    Double.round (1 / 10) = 3602879701896397 / 36028797018963968 ∧
    Double.add (Double.round (1 / 10)) (Double.round (2 / 10))
      = 1351079888211149 / 4503599627370496 ∧
    Double.add 10000000000000000 1 = 10000000000000000 ∧
    Double.add 10000000000000000 3 = 10000000000000004 ∧
    Double.add 1 (1 / 9007199254740992) = 1 ∧
    Double.add (1 / 2) (1 / 4) = 3 / 4 := by
  decide!

/-- The chain of the running example: `[0, 10]` cut by timestep `2` in dimension `1`
is the five slices `[0,2]`, `[2,4]`, `[4,6]`, `[6,8]`, `[8,10]`. -/
theorem ofTimestep_example :
    (TubeVector.ofTimestep 5 ⟨0, 10⟩ 2 1 : Option (Except Exception (TubeVector Box1)))
      = some (.ok exampleChain) := by
  decide!

/-! ## Time lookup -/

/-- On a chain with at least one slice `domain()` is read off the first and the last
slice. -/
theorem TubeVector.exists_first_last (x : TubeVector β) (h : 0 < x.nbSlices) :
    ∃ first last, x.m_v_slices.head? = some first ∧ x.m_v_slices.getLast? = some last ∧
      x.domain = ⟨first.domain.lb, last.domain.ub⟩ := by
  obtain ⟨l⟩ := x
  cases l with
  | nil => simp [TubeVector.nbSlices] at h
  | cons a rest =>
    refine ⟨a, (a :: rest).getLast (by simp), rfl, List.getLast?_eq_getLast _ _, ?_⟩
    simp [TubeVector.domain, List.getLast?_eq_getLast]

/-- In a contiguous list of non-degenerate slices, an earlier slice ends no later than
a later slice begins. -/
theorem TubeVector.pairwise_of_contiguous :
    ∀ (l : List (TubeSlice β)), l.Chain' (fun a b => a.domain.ub = b.domain.lb) →
      (∀ s ∈ l, s.domain.lb < s.domain.ub) →
      l.Pairwise (fun a b => a.domain.ub ≤ b.domain.lb)
  | [], _, _ => List.Pairwise.nil
  | [_], _, _ => by simp
  | a :: b :: rest, hc, hnd => by
    have hc2 := List.chain'_cons.mp hc
    have ih := TubeVector.pairwise_of_contiguous (b :: rest) hc2.2
      (fun s hs => hnd s (List.mem_cons_of_mem _ hs))
    refine List.pairwise_cons.mpr ⟨?_, ih⟩
    intro c hc'
    rcases List.mem_cons.mp hc' with rfl | hmem
    · exact hc2.1.le
    · have h1 := (List.pairwise_cons.mp ih).1 c hmem
      have h2 := hnd b (by simp)
      linarith [hc2.1]

/-- The scan of `input2index` stops at the first slice whose half-open domain holds
`t`. -/
theorem TubeVector.input2indexLoop_append (t : ℚ) :
    ∀ (pre : List (TubeSlice β)) (s : TubeSlice β) (post : List (TubeSlice β)) (k : ℕ),
      (∀ p ∈ pre, ¬ (p.domain.lb ≤ t ∧ t < p.domain.ub)) →
      s.domain.lb ≤ t → t < s.domain.ub →
      TubeVector.input2indexLoop t (pre ++ s :: post) k = .ok (k + pre.length)
  | [], s, post, k, _, h1, h2 => by simp [TubeVector.input2indexLoop, h1, h2]
  | p :: pre, s, post, k, hpre, h1, h2 => by
    have hp := hpre p (by simp)
    have ih := TubeVector.input2indexLoop_append t pre s post (k + 1)
      (fun q hq => hpre q (List.mem_cons_of_mem _ hq)) h1 h2
    rw [List.cons_append, TubeVector.input2indexLoop, if_neg hp, ih, List.length_cons,
      Nat.add_assoc, Nat.add_comm 1]

/-- A time between the start of the first slice and the end of the last one lies in
the half-open domain of some slice of a contiguous list. -/
theorem TubeVector.exists_slice_of_mem :
    ∀ (l : List (TubeSlice β)) (first last : TubeSlice β) (t : ℚ),
      l.head? = some first → l.getLast? = some last →
      l.Chain' (fun a b => a.domain.ub = b.domain.lb) →
      first.domain.lb ≤ t → t < last.domain.ub →
      ∃ pre s post, l = pre ++ s :: post ∧ s.domain.lb ≤ t ∧ t < s.domain.ub
  | [], _, _, _, h, _, _, _, _ => by simp at h
  | [a], first, last, t, hf, hl, _, h1, h2 => by
    simp only [List.head?_cons, Option.some.injEq] at hf
    simp only [List.getLast?_singleton, Option.some.injEq] at hl
    subst hf
    exact ⟨[], a, [], rfl, h1, by rw [hl]; exact h2⟩
  | a :: b :: rest, first, last, t, hf, hl, hc, h1, h2 => by
    simp only [List.head?_cons, Option.some.injEq] at hf
    subst hf
    by_cases hin : t < a.domain.ub
    · exact ⟨[], a, b :: rest, rfl, h1, hin⟩
    · have hc2 := List.chain'_cons.mp hc
      rw [List.getLast?_cons_cons] at hl
      obtain ⟨pre, s, post, hdec, hs1, hs2⟩ := TubeVector.exists_slice_of_mem (b :: rest) b
        last t rfl hl hc2.2 (by rw [← hc2.1]; exact not_lt.mp hin) h2
      exact ⟨a :: pre, s, post, by rw [hdec]; rfl, hs1, hs2⟩

/-- Slices before a given one end before it begins, slices after it begin after it
ends. -/
theorem TubeVector.bounds_of_append {pre post : List (TubeSlice β)} {s : TubeSlice β}
    (hc : (pre ++ s :: post).Chain' (fun a b => a.domain.ub = b.domain.lb))
    (hnd : ∀ r ∈ pre ++ s :: post, r.domain.lb < r.domain.ub) :
    (∀ p ∈ pre, p.domain.ub ≤ s.domain.lb) ∧ (∀ q ∈ post, s.domain.ub ≤ q.domain.lb) := by
  have hp := TubeVector.pairwise_of_contiguous _ hc hnd
  rw [List.pairwise_append] at hp
  exact ⟨fun p hp' => hp.2.2 p hp' s (by simp), fun q hq => (List.pairwise_cons.mp hp.2.1).1 q hq⟩

/-- Every slice of a well-formed chain lies inside `domain()`. -/
theorem TubeVector.slice_within_domain (x : TubeVector β) (hwf : x.WellFormed)
    {pre post : List (TubeSlice β)} {s : TubeSlice β}
    (hdec : x.m_v_slices = pre ++ s :: post) :
    x.domain.lb ≤ s.domain.lb ∧ s.domain.ub ≤ x.domain.ub := by
  obtain ⟨hpos, hnd, hc⟩ := hwf
  obtain ⟨first, last, hf, hl, hdom⟩ := x.exists_first_last hpos
  rw [hdec] at hnd hc hf hl
  obtain ⟨hpre, hpost⟩ := TubeVector.bounds_of_append hc hnd
  rw [hdom]
  constructor
  · cases pre with
    | nil => simp at hf; rw [hf]
    | cons p pre =>
      simp at hf
      subst hf
      have := hpre p (by simp)
      have := hnd p (by simp)
      simp only
      linarith
  · rw [List.getLast?_append, List.getLast?_cons] at hl
    cases hq : post.getLast? with
    | none => simp [hq] at hl; rw [hl]
    | some q =>
      simp [hq] at hl
      subst hl
      have hmem : q ∈ post := List.mem_of_getLast?_eq_some hq
      have := hpost q hmem
      have := hnd q (by simp [hmem])
      simp only
      linarith

/-- Lookup of a time strictly below `domain().ub` in a well-formed chain: the result is
the position of the slice whose half-open domain holds the time. -/
theorem TubeVector.input2index_of_append (x : TubeVector β) (t : ℚ) (hwf : x.WellFormed)
    {pre post : List (TubeSlice β)} {s : TubeSlice β}
    (hdec : x.m_v_slices = pre ++ s :: post) (h1 : s.domain.lb ≤ t) (h2 : t < s.domain.ub) :
    x.input2index t = .ok pre.length := by
  obtain ⟨hlb, hub⟩ := x.slice_within_domain hwf hdec
  obtain ⟨hpos, hnd, hc⟩ := hwf
  rw [hdec] at hnd hc
  obtain ⟨hpre, hpost⟩ := TubeVector.bounds_of_append hc hnd
  have hcheck : x.domain.lb ≤ t ∧ t ≤ x.domain.ub := ⟨by linarith, by linarith⟩
  have hne : t ≠ x.domain.ub := by intro h; linarith
  simp only [TubeVector.input2index, DomainException.check, hcheck, and_self, if_true, hne,
    if_false, hdec]
  rw [TubeVector.input2indexLoop_append t pre s post 0 ?_ h1 h2]
  · simp
  · intro p hp hcon
    have := hpre p hp
    linarith [hcon.2]

/-- Lookup of `domain().ub` resolves to the last slice. -/
theorem TubeVector.input2index_ub (x : TubeVector β) (hwf : x.WellFormed) :
    x.input2index x.domain.ub = .ok (x.nbSlices - 1) := by
  obtain ⟨first, last, hf, hl, hdom⟩ := x.exists_first_last hwf.1
  obtain ⟨init, hinit⟩ := List.getLast?_eq_some_iff.mp hl
  have hdec : x.m_v_slices = init ++ last :: [] := hinit
  obtain ⟨hlb, _⟩ := x.slice_within_domain hwf hdec
  have hlast := hwf.2.1 last (by simp [hinit])
  have hle : x.domain.lb ≤ x.domain.ub := by
    have : x.domain.ub = last.domain.ub := by rw [hdom]
    linarith
  simp [TubeVector.input2index, DomainException.check, hle]

/-- C2: on a well-formed chain, for a time `t` inside `domain()`, `input2index(t)`
returns an index below `nbSlices()`; when `t < domain().ub` it is the one index whose
slice satisfies `lb ≤ t < ub`, and when `t = domain().ub` it is `nbSlices() - 1`. The
scan never runs off the end of the loop. -/
theorem C2_input2index_unique_slice (x : TubeVector β) (t : ℚ) (hwf : x.WellFormed)
    (ht : x.domain.lb ≤ t ∧ t ≤ x.domain.ub) :
    ∃ i, x.input2index t = .ok i ∧ i < x.nbSlices ∧
      (t < x.domain.ub →
        (∃ s, x.m_v_slices[i]? = some s ∧ s.domain.lb ≤ t ∧ t < s.domain.ub) ∧
        ∀ j s, x.m_v_slices[j]? = some s → s.domain.lb ≤ t → t < s.domain.ub → j = i) ∧
      (t = x.domain.ub → i = x.nbSlices - 1) := by
  by_cases hub : t = x.domain.ub
  · subst hub
    refine ⟨x.nbSlices - 1, x.input2index_ub hwf, ?_, ?_, fun _ => rfl⟩
    · have := hwf.1; omega
    · intro h; exact absurd h (lt_irrefl _)
  · have hlt : t < x.domain.ub := lt_of_le_of_ne ht.2 hub
    obtain ⟨first, last, hf, hl, hdom⟩ := x.exists_first_last hwf.1
    obtain ⟨pre, s, post, hdec, h1, h2⟩ := TubeVector.exists_slice_of_mem x.m_v_slices first
      last t hf hl hwf.2.2 (by have := ht.1; rw [hdom] at this; exact this)
      (by rw [hdom] at hlt; exact hlt)
    have hwf2 := hwf
    obtain ⟨_, hnd, hc⟩ := hwf2
    rw [hdec] at hnd hc
    obtain ⟨hpre, hpost⟩ := TubeVector.bounds_of_append hc hnd
    refine ⟨pre.length, x.input2index_of_append t hwf hdec h1 h2, ?_, ?_, fun h => absurd h hub⟩
    · simp [TubeVector.nbSlices, hdec]
    · intro _
      refine ⟨⟨s, by rw [hdec, List.getElem?_append_right (le_refl _)]; simp, h1, h2⟩, ?_⟩
      intro j s' hj hs1 hs2
      rw [hdec] at hj
      rcases Nat.lt_trichotomy j pre.length with hlt' | heq | hgt
      · rw [List.getElem?_append_left hlt'] at hj
        have := hpre s' (List.getElem?_mem hj)
        linarith
      · exact heq
      · rw [List.getElem?_append_right hgt.le] at hj
        obtain ⟨m, hm⟩ : ∃ m, j - pre.length = m + 1 := ⟨j - pre.length - 1, by omega⟩
        rw [hm, List.getElem?_cons_succ] at hj
        have := hpost s' (List.getElem?_mem hj)
        linarith

/-- Witness for C2: time `5` in the running example is found in slice `2`. -/
theorem C2_input2index_unique_slice_witness :
    ∃ i, exampleChain.input2index 5 = .ok i ∧ i < exampleChain.nbSlices ∧
      ((5 : ℚ) < exampleChain.domain.ub →
        (∃ s, exampleChain.m_v_slices[i]? = some s ∧ s.domain.lb ≤ 5 ∧ 5 < s.domain.ub) ∧
        ∀ j s, exampleChain.m_v_slices[j]? = some s → s.domain.lb ≤ 5 → 5 < s.domain.ub →
          j = i) ∧
      ((5 : ℚ) = exampleChain.domain.ub → i = exampleChain.nbSlices - 1) :=
  C2_input2index_unique_slice exampleChain 5 exampleChain_wellFormed (by decide!)

theorem TubeVector.getElem?_append_cons {α : Type} (pre post : List α) (s : α) :
    (pre ++ s :: post)[pre.length]? = some s := by
  rw [List.getElem?_append_right (le_refl _)]; simp

theorem TubeVector.getSliceAt_of_append (x : TubeVector β) {pre post : List (TubeSlice β)}
    {s : TubeSlice β} (hdec : x.m_v_slices = pre ++ s :: post) :
    x.getSliceAt pre.length = .ok s := by
  simp only [TubeVector.getSliceAt, DomainException.checkIndex, TubeVector.nbSlices, hdec,
    TubeVector.getElem?_append_cons]
  simp

/-- Lookup on a well-formed chain: a time of `domain()` is found in a slice `s` that
holds it, and it can be the upper bound of `s` only when `s` is the last slice. Both
`input2index` and `getSlice` answer with that slice. -/
theorem TubeVector.lookup (x : TubeVector β) (t : ℚ) (hwf : x.WellFormed)
    (ht : x.domain.lb ≤ t ∧ t ≤ x.domain.ub) :
    ∃ pre s post, x.m_v_slices = pre ++ s :: post ∧ x.input2index t = .ok pre.length ∧
      x.getSlice t = .ok s ∧ s.domain.lb ≤ t ∧
      (t < s.domain.ub ∨ (t = s.domain.ub ∧ post = [] ∧ t = x.domain.ub)) := by
  have hcheck : DomainException.check x t = .ok () := by simp [DomainException.check, ht]
  obtain ⟨first, last, hf, hl, hdom⟩ := x.exists_first_last hwf.1
  by_cases hub : t = x.domain.ub
  · obtain ⟨init, hinit⟩ := List.getLast?_eq_some_iff.mp hl
    have hidx : x.input2index t = .ok init.length := by
      rw [hub, x.input2index_ub hwf]
      simp [TubeVector.nbSlices, hinit]
    have hlast := hwf.2.1 last (by simp [hinit])
    have hub2 : t = last.domain.ub := by rw [hub, hdom]
    refine ⟨init, last, [], hinit, hidx, ?_, by linarith, Or.inr ⟨hub2, rfl, hub⟩⟩
    simp only [TubeVector.getSlice, hcheck, hidx]
    exact x.getSliceAt_of_append hinit
  · have hlt : t < x.domain.ub := lt_of_le_of_ne ht.2 hub
    obtain ⟨pre, s, post, hdec, h1, h2⟩ := TubeVector.exists_slice_of_mem x.m_v_slices first
      last t hf hl hwf.2.2 (by have := ht.1; rw [hdom] at this; exact this)
      (by rw [hdom] at hlt; exact hlt)
    have hidx := x.input2index_of_append t hwf hdec h1 h2
    refine ⟨pre, s, post, hdec, hidx, ?_, h1, Or.inl h2⟩
    simp only [TubeVector.getSlice, hcheck, hidx]
    exact x.getSliceAt_of_append hdec

/-- The result of the scan is the position of a scanned slice. -/
theorem TubeVector.input2indexLoop_lt (t : ℚ) :
    ∀ (l : List (TubeSlice β)) (k i : ℕ), TubeVector.input2indexLoop t l k = .ok i →
      k ≤ i ∧ i < k + l.length
  | [], _, _, h => by simp [TubeVector.input2indexLoop] at h
  | s :: rest, k, i, h => by
    rw [TubeVector.input2indexLoop] at h
    split_ifs at h with hs
    · simp only [Except.ok.injEq] at h
      subst h
      simp
    · have := TubeVector.input2indexLoop_lt t rest (k + 1) i h
      simp only [List.length_cons]
      omega

/-- The scan never raises an exception of its own. -/
theorem TubeVector.input2indexLoop_ne_domain (t : ℚ) :
    ∀ (l : List (TubeSlice β)) (k : ℕ),
      TubeVector.input2indexLoop t l k ≠ .error .DomainException
  | [], _ => by simp [TubeVector.input2indexLoop]
  | s :: rest, k => by
    rw [TubeVector.input2indexLoop]
    split_ifs
    · simp
    · exact TubeVector.input2indexLoop_ne_domain t rest (k + 1)

/-- C3: on a chain with at least one slice, `input2index(t)` fails with the
out-of-domain error exactly when `t` is outside `domain()`, and so does `getSlice(t)`.
Both are functions of the chain and the time alone: they return no chain, so nothing
is modified whether or not the error is raised. -/
theorem C3_lookup_domain_error_iff (x : TubeVector β) (t : ℚ) (hpos : 0 < x.nbSlices) :
    (x.input2index t = .error .DomainException ↔ ¬ (x.domain.lb ≤ t ∧ t ≤ x.domain.ub)) ∧
    (x.getSlice t = .error .DomainException ↔ ¬ (x.domain.lb ≤ t ∧ t ≤ x.domain.ub)) := by
  by_cases ht : x.domain.lb ≤ t ∧ t ≤ x.domain.ub
  · have hcheck : DomainException.check x t = .ok () := by simp [DomainException.check, ht]
    have hidx : x.input2index t ≠ .error .DomainException := by
      simp only [TubeVector.input2index, hcheck]
      split_ifs
      · simp
      · exact TubeVector.input2indexLoop_ne_domain t _ 0
    refine ⟨⟨fun h => absurd h hidx, fun h => absurd ht h⟩, ⟨fun h => ?_, fun h => absurd ht h⟩⟩
    exfalso
    simp only [TubeVector.getSlice, hcheck] at h
    cases hi : x.input2index t with
    | error e =>
      rw [hi] at h
      simp only [Except.error.injEq] at h
      exact hidx (by rw [hi, h])
    | ok i =>
      rw [hi] at h
      have hlt : i < x.nbSlices := by
        simp only [TubeVector.input2index, hcheck] at hi
        split_ifs at hi
        · simp only [Except.ok.injEq] at hi; omega
        · have := TubeVector.input2indexLoop_lt t _ 0 i hi
          simpa [TubeVector.nbSlices] using this.2
      have hlt2 : i < x.m_v_slices.length := hlt
      simp [TubeVector.getSliceAt, DomainException.checkIndex, hlt,
        List.getElem?_eq_getElem hlt2] at h
  · have hcheck : DomainException.check x t = .error .DomainException := by
      simp [DomainException.check, ht]
    simp [TubeVector.input2index, TubeVector.getSlice, hcheck, ht]

/-- Witness for C3: time `11` is outside the running example's domain `[0, 10]`. -/
theorem C3_lookup_domain_error_iff_witness :
    (exampleChain.input2index 11 = .error .DomainException ↔
      ¬ (exampleChain.domain.lb ≤ 11 ∧ 11 ≤ exampleChain.domain.ub)) ∧
    (exampleChain.getSlice 11 = .error .DomainException ↔
      ¬ (exampleChain.domain.lb ≤ 11 ∧ 11 ≤ exampleChain.domain.ub)) :=
  C3_lookup_domain_error_iff exampleChain 11 (by decide)

/-! ## Sampling -/

theorem TubeVector.insertIdx_append {α : Type} (c : α) :
    ∀ (pre l : List α) (k : ℕ),
      (pre ++ l).insertIdx (pre.length + k) c = pre ++ l.insertIdx k c
  | [], l, k => by simp
  | p :: pre, l, k => by
    have ih := TubeVector.insertIdx_append c pre l k
    have : (p :: pre).length + k = (pre.length + k) + 1 := by simp; omega
    rw [this, List.cons_append, List.insertIdx_succ_cons, ih, List.cons_append]

theorem TubeVector.modify_append {α : Type} (f : α → α) :
    ∀ (pre l : List α) (k : ℕ),
      (pre ++ l).modify f (pre.length + k) = pre ++ l.modify f k
  | [], l, k => by simp
  | p :: pre, l, k => by
    have ih := TubeVector.modify_append f pre l k
    have : (p :: pre).length + k = (pre.length + k) + 1 := by simp; omega
    rw [this, List.cons_append, List.modify_succ_cons, ih, List.cons_append]

/-- What `sample(t)` does, once the slice holding `t` is known: nothing when `t` is one
of its bounds, otherwise the slice is replaced by its two halves. -/
theorem TubeVector.sample_of_lookup (x : TubeVector β) (t : ℚ)
    (ht : x.domain.lb ≤ t ∧ t ≤ x.domain.ub)
    {pre post : List (TubeSlice β)} {s : TubeSlice β}
    (hdec : x.m_v_slices = pre ++ s :: post)
    (hidx : x.input2index t = .ok pre.length) (hget : x.getSlice t = .ok s) :
    x.sample t = .ok (if s.domain.lb = t ∨ s.domain.ub = t then x
      else ⟨pre ++ TubeVector.leftHalf s t :: TubeVector.rightHalf s t :: post⟩) := by
  have hcheck : DomainException.check x t = .ok () := by simp [DomainException.check, ht]
  simp only [TubeVector.sample, hcheck, hget, hidx]
  split_ifs with hb
  · rfl
  · have h1 := TubeVector.insertIdx_append s.copy pre (s :: post) 1
    have h2 := TubeVector.modify_append (fun r : TubeSlice β => r.setDomain ⟨t, s.domain.ub⟩)
      pre (s :: s.copy :: post) 1
    have h3 := TubeVector.modify_append (fun r : TubeSlice β => r.setDomain ⟨r.domain.lb, t⟩)
      pre (s :: s.copy.setDomain ⟨t, s.domain.ub⟩ :: post) 0
    have h4 := TubeVector.modify_append (fun r : TubeSlice β => r.setOutputGate r.codomain)
      pre (s.setDomain ⟨s.domain.lb, t⟩ :: s.copy.setDomain ⟨t, s.domain.ub⟩ :: post) 0
    simp only [List.insertIdx_succ_cons, List.insertIdx_zero, List.modify_succ_cons,
      List.modify_zero_cons, Nat.add_zero] at h1 h2 h3 h4
    simp only [hdec, Nat.add_sub_cancel, h1, h2, h3, h4]
    rfl

theorem TubeVector.decomp_of_getElem? {α : Type} {l : List α} {i : ℕ} {s : α}
    (hs : l[i]? = some s) :
    l = l.take i ++ s :: l.drop (i + 1) ∧ (l.take i).length = i := by
  obtain ⟨hlt, hget⟩ := List.getElem?_eq_some.mp hs
  refine ⟨?_, by simp [List.length_take]; omega⟩
  rw [← hget, List.getElem_cons_drop, List.take_append_drop]

/-- A split strictly inside slice `i`: the slice is replaced by its two halves. -/
theorem TubeVector.sample_interior (x : TubeVector β) (t : ℚ) (i : ℕ) (s : TubeSlice β)
    (hwf : x.WellFormed) (hs : x.m_v_slices[i]? = some s) (h1 : s.domain.lb < t)
    (h2 : t < s.domain.ub) :
    x.sample t = .ok ⟨x.m_v_slices.take i ++ TubeVector.leftHalf s t ::
      TubeVector.rightHalf s t :: x.m_v_slices.drop (i + 1)⟩ := by
  obtain ⟨hdec, hlen⟩ := TubeVector.decomp_of_getElem? hs
  obtain ⟨hlb, hub⟩ := x.slice_within_domain hwf hdec
  have ht : x.domain.lb ≤ t ∧ t ≤ x.domain.ub := ⟨by linarith, by linarith⟩
  have hcheck : DomainException.check x t = .ok () := by simp [DomainException.check, ht]
  have hidx := x.input2index_of_append t hwf hdec h1.le h2
  have hget : x.getSlice t = .ok s := by
    simp only [TubeVector.getSlice, hcheck, hidx]
    exact x.getSliceAt_of_append hdec
  rw [x.sample_of_lookup t ht hdec hidx hget, if_neg]
  intro h
  rcases h with h | h <;> linarith

/-- C4: on a well-formed chain, `sample(t)` at a time that already bounds a slice
returns the chain as it was: same slices, same domains, envelopes and gates. -/
theorem C4_sample_boundary_noop (x : TubeVector β) (t : ℚ) (hwf : x.WellFormed)
    (hb : ∃ r ∈ x.m_v_slices, r.domain.lb = t ∨ r.domain.ub = t) :
    x.sample t = .ok x := by
  obtain ⟨r, hr, hrt⟩ := hb
  obtain ⟨pre0, post0, hdec0⟩ := List.append_of_mem hr
  obtain ⟨hlb0, hub0⟩ := x.slice_within_domain hwf hdec0
  have hrnd := hwf.2.1 r hr
  have ht : x.domain.lb ≤ t ∧ t ≤ x.domain.ub := by
    rcases hrt with h | h <;> exact ⟨by linarith, by linarith⟩
  obtain ⟨pre, s, post, hdec, hidx, hget, hs1, hs2⟩ := x.lookup t hwf ht
  rw [x.sample_of_lookup t ht hdec hidx hget, if_pos]
  rcases hs2 with hs2 | ⟨hs2, -, -⟩
  · left
    obtain ⟨_, hnd, hc⟩ := hwf
    rw [hdec] at hnd hc hr
    obtain ⟨hpre, hpost⟩ := TubeVector.bounds_of_append hc hnd
    rcases List.mem_append.mp hr with hmem | hmem
    · have := hpre r hmem
      rcases hrt with h | h <;> linarith
    · rcases List.mem_cons.mp hmem with heq | hmem
      · subst heq
        rcases hrt with h | h
        · exact h
        · linarith
      · have := hpost r hmem
        rcases hrt with h | h <;> linarith
  · right; exact hs2.symm

/-- Witness for C4: `4` already bounds slices of the running example. -/
theorem C4_sample_boundary_noop_witness : exampleChain.sample 4 = .ok exampleChain :=
  C4_sample_boundary_noop exampleChain 4 exampleChain_wellFormed
    ⟨TubeSlice.new ⟨4, 6⟩ 1, by decide!, Or.inl rfl⟩

/-- C5: on a well-formed chain, `sample(t)` with `t` strictly inside slice `i` of
domain `[l, u]` returns a chain with one more slice: slice `i` is now `[l, t]`, the
new slice `i + 1` is `[t, u]`, both carry the envelope of the old slice `i` (so their
union is that envelope), and the slices before and after are the old ones, in order. -/
theorem C5_sample_interior_split [SemilatticeSup β] (x : TubeVector β) (t : ℚ) (i : ℕ)
    (s : TubeSlice β) (hwf : x.WellFormed) (hs : x.m_v_slices[i]? = some s)
    (h1 : s.domain.lb < t) (h2 : t < s.domain.ub) :
    ∃ x' left right, x.sample t = .ok x' ∧ x'.nbSlices = x.nbSlices + 1 ∧
      x'.m_v_slices = x.m_v_slices.take i ++ left :: right :: x.m_v_slices.drop (i + 1) ∧
      x'.m_v_slices[i]? = some left ∧ x'.m_v_slices[i + 1]? = some right ∧
      left.domain = ⟨s.domain.lb, t⟩ ∧ right.domain = ⟨t, s.domain.ub⟩ ∧
      left.codomain = s.codomain ∧ right.codomain = s.codomain ∧
      left.codomain ⊔ right.codomain = s.codomain := by
  obtain ⟨hdec, hlen⟩ := TubeVector.decomp_of_getElem? hs
  refine ⟨_, TubeVector.leftHalf s t, TubeVector.rightHalf s t,
    x.sample_interior t i s hwf hs h1 h2, ?_, rfl, ?_, ?_, rfl, rfl, rfl, rfl, ?_⟩
  · have hl : x.nbSlices = (x.m_v_slices.take i ++ s :: x.m_v_slices.drop (i + 1)).length := by
      rw [← hdec]; rfl
    simp only [TubeVector.nbSlices, List.length_append, List.length_cons] at hl ⊢
    omega
  · have := TubeVector.getElem?_append_cons (x.m_v_slices.take i)
      (TubeVector.rightHalf s t :: x.m_v_slices.drop (i + 1)) (TubeVector.leftHalf s t)
    rw [hlen] at this
    exact this
  · have := TubeVector.getElem?_append_cons (x.m_v_slices.take i ++ [TubeVector.leftHalf s t])
      (x.m_v_slices.drop (i + 1)) (TubeVector.rightHalf s t)
    simp only [List.length_append, hlen, List.length_singleton, List.append_assoc,
      List.singleton_append] at this
    exact this
  · simp [TubeVector.leftHalf, TubeVector.rightHalf, TubeSlice.setDomain,
      TubeSlice.setOutputGate, TubeSlice.copy]

/-- Witness for C5: `sample(5)` on the running example splits slice `2`, `[4, 6]`. -/
theorem C5_sample_interior_split_witness :
    ∃ x' left right, exampleChain.sample 5 = .ok x' ∧
      x'.nbSlices = exampleChain.nbSlices + 1 ∧
      x'.m_v_slices = exampleChain.m_v_slices.take 2 ++ left :: right ::
        exampleChain.m_v_slices.drop (2 + 1) ∧
      x'.m_v_slices[2]? = some left ∧ x'.m_v_slices[2 + 1]? = some right ∧
      left.domain = ⟨(TubeSlice.new ⟨4, 6⟩ 1 : TubeSlice Box1).domain.lb, 5⟩ ∧
      right.domain = ⟨5, (TubeSlice.new ⟨4, 6⟩ 1 : TubeSlice Box1).domain.ub⟩ ∧
      left.codomain = (TubeSlice.new ⟨4, 6⟩ 1 : TubeSlice Box1).codomain ∧
      right.codomain = (TubeSlice.new ⟨4, 6⟩ 1 : TubeSlice Box1).codomain ∧
      left.codomain ⊔ right.codomain = (TubeSlice.new ⟨4, 6⟩ 1 : TubeSlice Box1).codomain :=
  C5_sample_interior_split exampleChain 5 2 (TubeSlice.new ⟨4, 6⟩ 1) exampleChain_wellFormed
    (by decide!) (by decide!) (by decide!)

/-- The running example after `sample(5)`: six slices, `[4, 6]` replaced by `[4, 5]`
and `[5, 6]`. -/
theorem sample_example :
    (exampleChain.sample 5).map (fun x => x.m_v_slices.map (fun s => s.domain))
      = .ok [⟨0, 2⟩, ⟨2, 4⟩, ⟨4, 5⟩, ⟨5, 6⟩, ⟨6, 8⟩, ⟨8, 10⟩] := by
  decide!

/-- Replacing a slice by its two halves keeps the list well-formed, keeps the first
lower bound and the last upper bound, and keeps the first slice's dimension. -/
theorem TubeVector.split_wellFormed (pre post : List (TubeSlice β)) (s : TubeSlice β)
    (t : ℚ) (h1 : s.domain.lb < t) (h2 : t < s.domain.ub)
    (hwf : TubeVector.WellFormed ⟨pre ++ s :: post⟩) :
    TubeVector.WellFormed
      ⟨pre ++ TubeVector.leftHalf s t :: TubeVector.rightHalf s t :: post⟩ := by
  obtain ⟨_, hnd, hc⟩ := hwf
  simp only at hnd hc
  refine ⟨by simp [TubeVector.nbSlices], ?_, ?_⟩
  · intro r hr
    simp only [List.mem_append, List.mem_cons] at hr
    rcases hr with hr | rfl | rfl | hr
    · exact hnd r (by simp [hr])
    · exact h1
    · exact h2
    · exact hnd r (by simp [hr])
  · rw [List.chain'_append] at hc ⊢
    obtain ⟨hc1, hc2, hc3⟩ := hc
    rw [List.chain'_cons'] at hc2
    refine ⟨hc1, ?_, ?_⟩
    · rw [List.chain'_cons]
      refine ⟨rfl, ?_⟩
      rw [List.chain'_cons']
      exact ⟨hc2.1, hc2.2⟩
    · intro a ha b hb
      simp only [List.head?_cons, Option.mem_def, Option.some.injEq] at hb
      subst hb
      exact hc3 a ha s (by simp)

theorem TubeVector.split_domain (pre post : List (TubeSlice β)) (s : TubeSlice β) (t : ℚ) :
    TubeVector.domain ⟨pre ++ TubeVector.leftHalf s t :: TubeVector.rightHalf s t :: post⟩
      = TubeVector.domain ⟨pre ++ s :: post⟩ := by
  have hlast : (pre ++ TubeVector.leftHalf s t :: TubeVector.rightHalf s t :: post).getLast?.map
      (fun r => r.domain.ub) = (pre ++ s :: post).getLast?.map (fun r => r.domain.ub) := by
    simp only [List.getLast?_append, List.getLast?_cons_cons]
    simp only [List.getLast?_cons]
    cases post.getLast? <;> rfl
  have hhead : (pre ++ TubeVector.leftHalf s t :: TubeVector.rightHalf s t :: post).head?.map
      (fun r => r.domain.lb) = (pre ++ s :: post).head?.map (fun r => r.domain.lb) := by
    cases pre <;> rfl
  simp only [TubeVector.domain]
  cases ha : (pre ++ TubeVector.leftHalf s t :: TubeVector.rightHalf s t :: post).head? <;>
  cases hb : (pre ++ TubeVector.leftHalf s t :: TubeVector.rightHalf s t :: post).getLast? <;>
  cases hc : (pre ++ s :: post).head? <;>
  cases hd : (pre ++ s :: post).getLast? <;>
  simp_all

theorem TubeVector.split_uniformDim (pre post : List (TubeSlice β)) (s : TubeSlice β)
    (t : ℚ) (hdim : TubeVector.UniformDim ⟨pre ++ s :: post⟩) :
    TubeVector.UniformDim
      ⟨pre ++ TubeVector.leftHalf s t :: TubeVector.rightHalf s t :: post⟩ := by
  have hd : TubeVector.dim ⟨pre ++ TubeVector.leftHalf s t :: TubeVector.rightHalf s t :: post⟩
      = TubeVector.dim ⟨pre ++ s :: post⟩ := by
    cases pre <;> rfl
  intro r hr
  rw [hd]
  simp only [List.mem_append, List.mem_cons] at hr
  rcases hr with hr | rfl | rfl | hr
  · exact hdim r (by simp [hr])
  · exact hdim s (by simp)
  · exact hdim s (by simp)
  · exact hdim r (by simp [hr])

/-- C6: `sample(t)` keeps the structural invariants: on a chain whose slices are
non-degenerate, contiguous and of one dimension, for `t` in `domain()`, the call
returns a chain with the same three properties and the same `domain()`. -/
theorem C6_sample_preserves_invariants (x : TubeVector β) (t : ℚ) (hwf : x.WellFormed)
    (hdim : x.UniformDim) (ht : x.domain.lb ≤ t ∧ t ≤ x.domain.ub) :
    ∃ x', x.sample t = .ok x' ∧ x'.WellFormed ∧ x'.UniformDim ∧ x'.domain = x.domain := by
  obtain ⟨pre, s, post, hdec, hidx, hget, hs1, hs2⟩ := x.lookup t hwf ht
  have hx : x = ⟨pre ++ s :: post⟩ := by cases x; simp only at hdec; rw [hdec]
  by_cases hb : s.domain.lb = t ∨ s.domain.ub = t
  · exact ⟨x, by rw [x.sample_of_lookup t ht hdec hidx hget, if_pos hb], hwf, hdim, rfl⟩
  · have h1 : s.domain.lb < t := lt_of_le_of_ne hs1 (fun h => hb (Or.inl h))
    have h2 : t < s.domain.ub := by
      rcases hs2 with h | ⟨h, -, -⟩
      · exact h
      · exact absurd (Or.inr h.symm) hb
    refine ⟨_, by rw [x.sample_of_lookup t ht hdec hidx hget, if_neg hb], ?_, ?_, ?_⟩
    · exact TubeVector.split_wellFormed pre post s t h1 h2 (hx ▸ hwf)
    · exact TubeVector.split_uniformDim pre post s t (hx ▸ hdim)
    · rw [TubeVector.split_domain, ← hx]

/-- Witness for C6: `sample(5)` on the running example. -/
theorem C6_sample_preserves_invariants_witness :
    ∃ x', exampleChain.sample 5 = .ok x' ∧ x'.WellFormed ∧ x'.UniformDim ∧
      x'.domain = exampleChain.domain :=
  C6_sample_preserves_invariants exampleChain 5 exampleChain_wellFormed (by decide!)
    (by decide!)

/-- What `sample(t)` leaves at the new boundary: after `sample(t)` with `t` strictly
inside slice `i` of envelope `E`, the output gate of the left half is `E`; the new right
half keeps the input gate, the envelope and the output gate that slice `i` had before
the call. -/
theorem TubeVector.sample_interior_gates (x : TubeVector β) (t : ℚ) (i : ℕ)
    (s : TubeSlice β) (hwf : x.WellFormed) (hs : x.m_v_slices[i]? = some s)
    (h1 : s.domain.lb < t) (h2 : t < s.domain.ub) :
    ∃ x' left right, x.sample t = .ok x' ∧ x'.m_v_slices[i]? = some left ∧
      x'.m_v_slices[i + 1]? = some right ∧ left.outputGate = s.codomain ∧
      right.inputGate = s.inputGate ∧ right.codomain = s.codomain ∧
      right.outputGate = s.outputGate := by
  obtain ⟨hdec, hlen⟩ := TubeVector.decomp_of_getElem? hs
  refine ⟨_, TubeVector.leftHalf s t, TubeVector.rightHalf s t,
    x.sample_interior t i s hwf hs h1 h2, ?_, ?_, rfl, rfl, rfl, rfl⟩
  · have := TubeVector.getElem?_append_cons (x.m_v_slices.take i)
      (TubeVector.rightHalf s t :: x.m_v_slices.drop (i + 1)) (TubeVector.leftHalf s t)
    rw [hlen] at this
    exact this
  · have := TubeVector.getElem?_append_cons (x.m_v_slices.take i ++ [TubeVector.leftHalf s t])
      (x.m_v_slices.drop (i + 1)) (TubeVector.rightHalf s t)
    simp only [List.length_append, hlen, List.length_singleton, List.append_assoc,
      List.singleton_append] at this
    exact this

/-- The loop of `operator[](const Interval&)` started at index `k` on the slices
`mid ++ rest` and stopped at index `k + mid.length` accumulates the envelopes of
`mid`. -/
theorem TubeVector.unionLoop_append [SemilatticeSup β] [OrderBot β] :
    ∀ (mid rest : List (TubeSlice β)) (k : ℕ) (acc : β),
      TubeVector.unionLoop (k + mid.length) (mid ++ rest) k acc
        = mid.foldl (fun codomain slice => codomain ⊔ slice.codomain) acc
  | [], [], k, acc => by simp [TubeVector.unionLoop]
  | [], r :: rest, k, acc => by simp [TubeVector.unionLoop]
  | m :: mid, rest, k, acc => by
    have ih := TubeVector.unionLoop_append mid rest (k + 1) (acc ⊔ m.codomain)
    have hne : k ≠ k + (m :: mid).length := by simp
    have hlen : k + (m :: mid).length = k + 1 + mid.length := by simp; omega
    rw [List.cons_append, TubeVector.unionLoop, if_neg hne, hlen, ih, List.foldl_cons]

/-- The range query on a well-formed chain, for a non-degenerate interval inside
`domain()`: the union of the envelopes of the slices whose domain overlaps the interval
on more than a point. -/
theorem TubeVector.operatorBracketInterval_eq [SemilatticeSup β] [OrderBot β]
    (x : TubeVector β) (t : Interval) (hwf : x.WellFormed) (hnd : t.lb < t.ub)
    (ht : x.domain.lb ≤ t.lb ∧ t.ub ≤ x.domain.ub) :
    x.operatorBracketInterval t = .ok
      ((x.m_v_slices.filter (fun s => decide (s.domain.lb < t.ub ∧ t.lb < s.domain.ub))).foldl
        (fun codomain slice => codomain ⊔ slice.codomain) ⊥) := by
  have hcheck : DomainException.checkInterval x t = .ok () := by
    simp [DomainException.checkInterval, ht.1, ht.2, hnd.le]
  have hdeg : t.is_degenerated = false := by simp [Interval.is_degenerated, hnd.ne]
  obtain ⟨preA, sA, postA, hdecA, hidxA, hgetA, hA1, hA2⟩ :=
    x.lookup t.lb hwf ⟨ht.1, by linarith⟩
  obtain ⟨preB, sB, postB, hdecB, hidxB, hgetB, hB1, hB2⟩ :=
    x.lookup t.ub hwf ⟨by linarith, ht.2⟩
  have hA3 : t.lb < sA.domain.ub := by
    rcases hA2 with h | ⟨-, -, h⟩
    · exact h
    · linarith
  have hwf2 := hwf
  obtain ⟨_, hnondeg, hc⟩ := hwf2
  have hboundsA := TubeVector.bounds_of_append (hdecA ▸ hc) (hdecA ▸ hnondeg)
  have hboundsB := TubeVector.bounds_of_append (hdecB ▸ hc) (hdecB ▸ hnondeg)
  have hsA := hnondeg sA (by simp [hdecA])
  have hsB := hnondeg sB (by simp [hdecB])
  -- the slices starting before `t.ub`, and the others
  obtain ⟨T, B, hTB, hT, hB, hlen⟩ : ∃ T B : List (TubeSlice β), x.m_v_slices = T ++ B ∧
      (∀ r ∈ T, r.domain.lb < t.ub) ∧ (∀ r ∈ B, t.ub ≤ r.domain.lb) ∧
      T.length = (if sB.domain.lb ≠ t.ub then preB.length + 1 else preB.length) := by
    by_cases hlb : sB.domain.lb = t.ub
    · refine ⟨preB, sB :: postB, hdecB, ?_, ?_, by simp [hlb]⟩
      · intro r hr
        have := hboundsB.1 r hr
        have := hnondeg r (by simp [hdecB, hr])
        linarith
      · intro r hr
        rcases List.mem_cons.mp hr with rfl | hr
        · exact hlb.ge
        · have := hboundsB.2 r hr
          linarith
    · refine ⟨preB ++ [sB], postB, by simp [hdecB], ?_, ?_, by simp [hlb]⟩
      · intro r hr
        rcases List.mem_append.mp hr with hr | hr
        · have := hboundsB.1 r hr
          have := hnondeg r (by simp [hdecB, hr])
          linarith
        · simp only [List.mem_singleton] at hr
          subst hr
          exact lt_of_le_of_ne hB1 hlb
      · intro r hr
        rcases hB2 with h | ⟨-, h, -⟩
        · have := hboundsB.2 r hr
          linarith
        · rw [h] at hr; simp at hr
  -- the slices from `sA` on, up to the first one starting at or after `t.ub`
  obtain ⟨M, hT2, hD⟩ : ∃ M, T = preA ++ M ∧ sA :: postA = M ++ B := by
    have heq : preA ++ sA :: postA = T ++ B := by rw [← hdecA, hTB]
    rcases List.append_eq_append_iff.mp heq with ⟨a', h1, h2⟩ | ⟨c', h1, h2⟩
    · exact ⟨a', h1, h2⟩
    · cases c' with
      | nil =>
        simp only [List.append_nil, List.nil_append] at h1 h2
        exact ⟨[], by simp [h1], by simp [h2]⟩
      | cons c c' =>
        exfalso
        simp only [List.cons_append] at h2
        have : sA ∈ B := by rw [h2]; simp
        have := hB sA this
        linarith
  have hstop : (if sB.domain.lb ≠ t.ub then preB.length + 1 else preB.length)
      = preA.length + M.length := by
    rw [← hlen, hT2, List.length_append]
  have hdrop : x.m_v_slices.drop preA.length = M ++ B := by
    rw [hdecA, List.drop_left, hD]
  have hfilter : x.m_v_slices.filter
      (fun s => decide (s.domain.lb < t.ub ∧ t.lb < s.domain.ub)) = M := by
    rw [hTB, hT2, List.filter_append, List.filter_append]
    have h1 : preA.filter (fun s => decide (s.domain.lb < t.ub ∧ t.lb < s.domain.ub)) = [] := by
      rw [List.filter_eq_nil_iff]
      intro r hr
      have := hboundsA.1 r hr
      simp only [decide_eq_true_eq, not_and, not_lt]
      intro _
      linarith
    have h2 : M.filter (fun s => decide (s.domain.lb < t.ub ∧ t.lb < s.domain.ub)) = M := by
      rw [List.filter_eq_self]
      intro r hr
      have hrT : r ∈ T := by rw [hT2]; simp [hr]
      have hrD : r ∈ sA :: postA := by rw [hD]; simp [hr]
      simp only [decide_eq_true_eq]
      refine ⟨hT r hrT, ?_⟩
      rcases List.mem_cons.mp hrD with rfl | hr'
      · exact hA3
      · have := hboundsA.2 r hr'
        have := hnondeg r (by simp [hdecA, hr'])
        linarith
    have h3 : B.filter (fun s => decide (s.domain.lb < t.ub ∧ t.lb < s.domain.ub)) = [] := by
      rw [List.filter_eq_nil_iff]
      intro r hr
      have := hB r hr
      simp only [decide_eq_true_eq, not_and, not_lt]
      intro h
      linarith
    rw [h1, h2, h3]
    simp
  simp only [TubeVector.operatorBracketInterval, hcheck, hdeg, hgetA, hidxA, hgetB, hidxB]
  rw [hfilter]
  simp only [Bool.false_eq_true, if_false, hstop, hdrop]
  rw [TubeVector.unionLoop_append]

/-- Replacing a slice by two slices carrying its envelope does not change a union of
selected envelopes, as long as the slice is selected exactly when one of the two
is. -/
theorem TubeVector.foldl_filter_split [SemilatticeSup β] [OrderBot β]
    (P : TubeSlice β → Bool) (pre post : List (TubeSlice β)) (s left right : TubeSlice β)
    (hl : left.codomain = s.codomain) (hr : right.codomain = s.codomain)
    (hP : P s = (P left || P right)) (acc : β) :
    ((pre ++ left :: right :: post).filter P).foldl
        (fun codomain slice => codomain ⊔ slice.codomain) acc
      = ((pre ++ s :: post).filter P).foldl
        (fun codomain slice => codomain ⊔ slice.codomain) acc := by
  simp only [List.filter_append, List.foldl_append, List.filter_cons, hP]
  cases P left <;> cases P right <;> simp [hl, hr, sup_assoc]

/-- C8: on a well-formed chain, for `t` in `domain()` and a non-degenerate interval `q`
inside `domain()`, the range query `operator[](q)` returns a box, and returns the same
box on the chain produced by `sample(t)`; `codomain()` is the same on both chains. -/
theorem C8_sample_preserves_range_queries [SemilatticeSup β] [OrderBot β]
    (x : TubeVector β) (t : ℚ) (q : Interval) (hwf : x.WellFormed)
    (ht : x.domain.lb ≤ t ∧ t ≤ x.domain.ub)
    (hq : x.domain.lb ≤ q.lb ∧ q.lb < q.ub ∧ q.ub ≤ x.domain.ub) :
    ∃ x' box, x.sample t = .ok x' ∧ x.operatorBracketInterval q = .ok box ∧
      x'.operatorBracketInterval q = .ok box ∧ x'.codomain = x.codomain := by
  obtain ⟨pre, s, post, hdec, hidx, hget, hs1, hs2⟩ := x.lookup t hwf ht
  have hx : x = ⟨pre ++ s :: post⟩ := by cases x; simp only at hdec; rw [hdec]
  have hbefore := x.operatorBracketInterval_eq q hwf hq.2.1 ⟨hq.1, hq.2.2⟩
  by_cases hb : s.domain.lb = t ∨ s.domain.ub = t
  · exact ⟨x, _, by rw [x.sample_of_lookup t ht hdec hidx hget, if_pos hb], hbefore, hbefore,
      rfl⟩
  · have h1 : s.domain.lb < t := lt_of_le_of_ne hs1 (fun h => hb (Or.inl h))
    have h2 : t < s.domain.ub := by
      rcases hs2 with h | ⟨h, -, -⟩
      · exact h
      · exact absurd (Or.inr h.symm) hb
    have hwf' : TubeVector.WellFormed
        ⟨pre ++ TubeVector.leftHalf s t :: TubeVector.rightHalf s t :: post⟩ :=
      TubeVector.split_wellFormed pre post s t h1 h2 (hx ▸ hwf)
    have hdom' : TubeVector.domain
        ⟨pre ++ TubeVector.leftHalf s t :: TubeVector.rightHalf s t :: post⟩ = x.domain := by
      rw [TubeVector.split_domain, ← hx]
    have hafter := TubeVector.operatorBracketInterval_eq
      ⟨pre ++ TubeVector.leftHalf s t :: TubeVector.rightHalf s t :: post⟩ q hwf' hq.2.1
      (by rw [hdom']; exact ⟨hq.1, hq.2.2⟩)
    refine ⟨_, _, by rw [x.sample_of_lookup t ht hdec hidx hget, if_neg hb], hbefore, ?_, ?_⟩
    · rw [hafter, hdec]
      congr 1
      refine TubeVector.foldl_filter_split
        (fun r => decide (r.domain.lb < q.ub ∧ q.lb < r.domain.ub)) pre post s
        (TubeVector.leftHalf s t) (TubeVector.rightHalf s t) rfl rfl ?_ ⊥
      simp only [TubeVector.leftHalf, TubeVector.rightHalf, TubeSlice.setDomain,
        TubeSlice.setOutputGate, TubeSlice.copy]
      rw [Bool.eq_iff_iff]
      simp only [Bool.or_eq_true, decide_eq_true_eq]
      constructor
      · intro ⟨ha, hb'⟩
        by_cases hc : q.lb < t
        · exact Or.inl ⟨ha, hc⟩
        · exact Or.inr ⟨by linarith [not_lt.mp hc, hq.2.1], hb'⟩
      · rintro (⟨ha, hb'⟩ | ⟨ha, hb'⟩)
        · exact ⟨ha, by linarith⟩
        · exact ⟨by linarith, hb'⟩
    · have := TubeVector.foldl_filter_split (fun _ => true) pre post s
        (TubeVector.leftHalf s t) (TubeVector.rightHalf s t) rfl rfl rfl (⊥ : β)
      simp only [List.filter_true] at this
      simp only [TubeVector.codomain, hdec]
      exact this

/-- Witness for C8: `sample(5)` on the running example, queried over `[3, 7]`. -/
theorem C8_sample_preserves_range_queries_witness :
    ∃ x' box, exampleChain.sample 5 = .ok x' ∧
      exampleChain.operatorBracketInterval ⟨3, 7⟩ = .ok box ∧
      x'.operatorBracketInterval ⟨3, 7⟩ = .ok box ∧ x'.codomain = exampleChain.codomain :=
  C8_sample_preserves_range_queries exampleChain 5 ⟨3, 7⟩ exampleChain_wellFormed
    (by decide!) (by decide!)

/-- C9, as stated, fails: on the chain `[0, 2]`, `[2, 4]` with envelopes `[0, 1]` and
`[5, 6]`, the query over `[2, 4]` returns `[5, 6]`, the envelope of the second slice
alone, although the first slice's domain meets `[2, 4]` (at `2`) and does not start at
`4`: the union the claim describes is `[0, 6]`. -/
theorem C9_counterexample :
    twoSliceChain.operatorBracketInterval ⟨2, 4⟩ = .ok (Box1.bounded 5 6) ∧
    twoSliceChain.operatorBracketIntervalSpec ⟨2, 4⟩ = Box1.bounded 0 6 ∧
    twoSliceChain.operatorBracketInterval ⟨2, 4⟩
      ≠ .ok (twoSliceChain.operatorBracketIntervalSpec ⟨2, 4⟩) := by
  decide!

/-- C9, amended: on a well-formed chain, for a non-degenerate interval `t` inside
`domain()`, `operator[](t)` is the union of the envelopes of the slices whose domain
overlaps `t` on more than a point (a slice that only touches `t`, from above at `t.ub`
or from below at `t.lb`, is left out); for a degenerate `t` the result is that of the
point form `operator[](t.lb)`. -/
theorem C9_operatorBracketInterval_union [SemilatticeSup β] [OrderBot β]
    (x : TubeVector β) (t : Interval) (hwf : x.WellFormed)
    (ht : x.domain.lb ≤ t.lb ∧ t.lb ≤ t.ub ∧ t.ub ≤ x.domain.ub) :
    (t.lb < t.ub → x.operatorBracketInterval t = .ok
      ((x.m_v_slices.filter
          (fun s => decide (s.domain.lb < t.ub ∧ t.lb < s.domain.ub))).foldl
        (fun codomain slice => codomain ⊔ slice.codomain) ⊥)) ∧
    (t.lb = t.ub → x.operatorBracketInterval t = x.operatorBracketTime t.lb) := by
  refine ⟨fun hnd => x.operatorBracketInterval_eq t hwf hnd ⟨ht.1, ht.2.2⟩, fun hdeg => ?_⟩
  have hcheck : DomainException.checkInterval x t = .ok () := by
    simp [DomainException.checkInterval, ht]
  simp [TubeVector.operatorBracketInterval, hcheck, Interval.is_degenerated, hdeg]

/-- Witness for C9 (amended): the query over `[2, 4]` on the two-slice chain. -/
theorem C9_operatorBracketInterval_union_witness :
    ((2 : ℚ) < 4 → twoSliceChain.operatorBracketInterval ⟨2, 4⟩ = .ok
      ((twoSliceChain.m_v_slices.filter
          (fun s => decide (s.domain.lb < 4 ∧ 2 < s.domain.ub))).foldl
        (fun codomain slice => codomain ⊔ slice.codomain) ⊥)) ∧
    ((2 : ℚ) = 4 → twoSliceChain.operatorBracketInterval ⟨2, 4⟩
      = twoSliceChain.operatorBracketTime 2) :=
  C9_operatorBracketInterval_union twoSliceChain ⟨2, 4⟩ twoSliceChain_wellFormed (by decide!)

/-- C10: on a well-formed chain the range query over the whole `domain()` returns
`codomain()`, the union of all envelopes. -/
theorem C10_operatorBracket_domain_eq_codomain [SemilatticeSup β] [OrderBot β]
    (x : TubeVector β) (hwf : x.WellFormed) :
    x.operatorBracketInterval x.domain = .ok x.codomain := by
  obtain ⟨first, last, hf, hl, hdom⟩ := x.exists_first_last hwf.1
  have hall : ∀ s ∈ x.m_v_slices, x.domain.lb < s.domain.ub ∧ s.domain.lb < x.domain.ub := by
    intro s hs
    obtain ⟨pre, post, hdec⟩ := List.append_of_mem hs
    obtain ⟨h1, h2⟩ := x.slice_within_domain hwf hdec
    have := hwf.2.1 s hs
    exact ⟨by linarith, by linarith⟩
  have hnd : x.domain.lb < x.domain.ub := by
    have hmem : first ∈ x.m_v_slices := List.mem_of_mem_head? hf
    obtain ⟨h1, h2⟩ := hall first hmem
    have := hwf.2.1 first hmem
    have hlb : x.domain.lb = first.domain.lb := by rw [hdom]
    linarith
  rw [x.operatorBracketInterval_eq x.domain hwf hnd ⟨le_refl _, le_refl _⟩, List.filter_eq_self.mpr]
  · rfl
  · intro s hs
    obtain ⟨h1, h2⟩ := hall s hs
    simp [h1, h2]

/-- Witness for C10: the two-slice chain. -/
theorem C10_operatorBracket_domain_eq_codomain_witness :
    twoSliceChain.operatorBracketInterval twoSliceChain.domain = .ok twoSliceChain.codomain :=
  C10_operatorBracket_domain_eq_codomain twoSliceChain twoSliceChain_wellFormed

/-! ## Assignment of values -/

/-- The union of envelopes that are all `y`, started from `acc`, is `acc ⊔ y` as soon as
there is one slice. -/
theorem TubeVector.foldl_const [SemilatticeSup β] (y : β) :
    ∀ (l : List (TubeSlice β)) (acc : β), (∀ s ∈ l, s.codomain = y) → l ≠ [] →
      l.foldl (fun codomain slice => codomain ⊔ slice.codomain) acc = acc ⊔ y
  | [], _, _, h => absurd rfl h
  | [s], acc, hall, _ => by simp [hall s (by simp)]
  | s :: r :: rest, acc, hall, _ => by
    have ih := TubeVector.foldl_const y (r :: rest) (acc ⊔ s.codomain)
      (fun q hq => hall q (List.mem_cons_of_mem _ hq)) (by simp)
    rw [List.foldl_cons, ih, hall s (by simp), sup_assoc, sup_idem]

/-- C11: on a chain with at least one slice and for a box `y` of the chain's dimension,
`set(y)` returns a chain in which every envelope is `y`, with the same slice count and
the same slice domains, and whose `codomain()` is `y` (also when `y` is the empty
box). -/
theorem C11_set_overwrites_envelopes [SemilatticeSup β] [OrderBot β] [BoxOps β]
    (x : TubeVector β) (y : β) (hpos : 0 < x.nbSlices) (hy : BoxOps.size y = x.dim) :
    ∃ x', x.set y = .ok x' ∧ (∀ s ∈ x'.m_v_slices, s.codomain = y) ∧
      x'.nbSlices = x.nbSlices ∧
      x'.m_v_slices.map (fun s => s.domain) = x.m_v_slices.map (fun s => s.domain) ∧
      x'.codomain = y := by
  have hall : ∀ s ∈ x.m_v_slices.map (fun slice => slice.set y), s.codomain = y := by
    intro s hs
    obtain ⟨r, _, rfl⟩ := List.mem_map.mp hs
    rfl
  refine ⟨⟨x.m_v_slices.map (fun slice => slice.set y)⟩, ?_, hall, ?_, ?_, ?_⟩
  · simp [TubeVector.set, DimensionException.checkBox, hy]
  · simp [TubeVector.nbSlices]
  · simp only [List.map_map]
    rfl
  · have hne : x.m_v_slices.map (fun slice => slice.set y) ≠ [] := by
      intro h
      have hlen := congrArg List.length h
      simp only [List.length_map, List.length_nil] at hlen
      have : x.nbSlices = 0 := hlen
      omega
    simp only [TubeVector.codomain]
    rw [TubeVector.foldl_const y _ ⊥ hall hne, bot_sup_eq]

/-- Witness for C11: `set([1, 2])` on the running example. -/
theorem C11_set_overwrites_envelopes_witness :
    ∃ x', exampleChain.set (Box1.bounded 1 2) = .ok x' ∧
      (∀ s ∈ x'.m_v_slices, s.codomain = Box1.bounded 1 2) ∧
      x'.nbSlices = exampleChain.nbSlices ∧
      x'.m_v_slices.map (fun s => s.domain) = exampleChain.m_v_slices.map (fun s => s.domain) ∧
      x'.codomain = Box1.bounded 1 2 :=
  C11_set_overwrites_envelopes exampleChain (Box1.bounded 1 2) (by decide) rfl

/-- The first slice's dimension is not changed by a split. -/
theorem TubeVector.split_dim (pre post : List (TubeSlice β)) (s : TubeSlice β) (t : ℚ) :
    TubeVector.dim ⟨pre ++ TubeVector.leftHalf s t :: TubeVector.rightHalf s t :: post⟩
      = TubeVector.dim ⟨pre ++ s :: post⟩ := by
  cases pre <;> rfl

/-- On a well-formed chain `sample(t)` succeeds for every `t` of `domain()`, and its
result is well-formed with the same `domain()` and the same `dim()`. -/
theorem TubeVector.sample_keeps (x : TubeVector β) (t : ℚ) (hwf : x.WellFormed)
    (ht : x.domain.lb ≤ t ∧ t ≤ x.domain.ub) :
    ∃ x', x.sample t = .ok x' ∧ x'.WellFormed ∧ x'.domain = x.domain ∧ x'.dim = x.dim := by
  obtain ⟨pre, s, post, hdec, hidx, hget, hs1, hs2⟩ := x.lookup t hwf ht
  have hx : x = ⟨pre ++ s :: post⟩ := by cases x; simp only at hdec; rw [hdec]
  by_cases hb : s.domain.lb = t ∨ s.domain.ub = t
  · exact ⟨x, by rw [x.sample_of_lookup t ht hdec hidx hget, if_pos hb], hwf, rfl, rfl⟩
  · have h1 : s.domain.lb < t := lt_of_le_of_ne hs1 (fun h => hb (Or.inl h))
    have h2 : t < s.domain.ub := by
      rcases hs2 with h | ⟨h, -, -⟩
      · exact h
      · exact absurd (Or.inr h.symm) hb
    refine ⟨_, by rw [x.sample_of_lookup t ht hdec hidx hget, if_neg hb], ?_, ?_, ?_⟩
    · exact TubeVector.split_wellFormed pre post s t h1 h2 (hx ▸ hwf)
    · rw [TubeVector.split_domain, ← hx]
    · rw [TubeVector.split_dim, ← hx]

/-- Neither `set(y, t)` nor `sample(t, y)` returns: on a well-formed chain, for `t` in
`domain()` and `y` of the chain's dimension, every check passes, `sample(t)` succeeds,
and each of the two functions ends by calling the other with the same arguments. -/
theorem TubeVector.setTime_sampleGate_none [BoxOps β] (y : β) (t : ℚ) :
    ∀ (fuel : ℕ) (x : TubeVector β), x.WellFormed → x.domain.lb ≤ t ∧ t ≤ x.domain.ub →
      BoxOps.size y = x.dim →
      TubeVector.setTime fuel x y t = none ∧ TubeVector.sampleGate fuel x t y = none
  | 0, _, _, _, _ => ⟨by rw [TubeVector.setTime], by rw [TubeVector.sampleGate]⟩
  | fuel + 1, x, hwf, ht, hy => by
    obtain ⟨x', hs, hwf', hdom', hdim'⟩ := x.sample_keeps t hwf ht
    have ih := TubeVector.setTime_sampleGate_none y t fuel x hwf ht hy
    have ih' := TubeVector.setTime_sampleGate_none y t fuel x' hwf' (by rw [hdom']; exact ht)
      (by rw [hdim']; exact hy)
    have hc1 : DimensionException.checkBox x y = .ok () := by
      simp [DimensionException.checkBox, hy]
    have hc2 : DomainException.check x t = .ok () := by simp [DomainException.check, ht]
    constructor
    · rw [TubeVector.setTime]
      simp only [hc1, hc2]
      exact ih.2
    · rw [TubeVector.sampleGate]
      simp only [hc1, hc2, hs]
      exact ih'.1

/-- C12 fails on the code: on the running example, `set([1, 2], 5)` and
`sample(5, [1, 2])` never return, whatever the number of nested calls allowed:
`set(y, t)` calls `sample(t, y)`, which samples and calls `set(gate, t)` again. -/
theorem C12_set_at_time_never_returns :
    ∀ fuel : ℕ, TubeVector.setTime fuel exampleChain (Box1.bounded 1 2) 5 = none ∧
      TubeVector.sampleGate fuel exampleChain 5 (Box1.bounded 1 2) = none :=
  fun fuel => TubeVector.setTime_sampleGate_none (Box1.bounded 1 2) 5 fuel exampleChain
    exampleChain_wellFormed (by decide!) rfl

/-- C13 fails on the code: on the running example, `set([1, 2], [3, 7])` never returns,
whatever the number of nested calls allowed: its first step past the checks is the call
`sample(3, [1, 2])`, which does not return. -/
theorem C13_set_interval_never_returns :
    ∀ fuel : ℕ, TubeVector.setInterval fuel exampleChain (Box1.bounded 1 2) ⟨3, 7⟩ = none := by
  intro fuel
  have h := (TubeVector.setTime_sampleGate_none (Box1.bounded 1 2) 3 fuel exampleChain
    exampleChain_wellFormed (by decide!) rfl).2
  have hc1 : DimensionException.checkBox exampleChain (Box1.bounded 1 2) = .ok () := rfl
  have hc2 : DomainException.checkInterval exampleChain ⟨3, 7⟩ = .ok () := by decide!
  have hdeg : Interval.is_degenerated ⟨3, 7⟩ = false := by decide!
  simp only [TubeVector.setInterval, hc1, hc2, hdeg, h]
  rfl

/-! ## Inflation -/

/-- C14: `inflate(r)`, with `e` the box `[-r, r]` in each dimension, keeps the slice
count and every slice domain, replaces every envelope by `envelope + e` and every output
gate by `output gate + e`, replaces the input gate of the first slice by
`input gate + e`, and leaves the input gate of every other slice as it was. -/
theorem C14_inflate_frame [BoxOps β] (x : TubeVector β) (r : ℚ) :
    (x.inflate r).nbSlices = x.nbSlices ∧
    ∀ (i : ℕ) (s : TubeSlice β), x.m_v_slices[i]? = some s →
      ∃ s', (x.inflate r).m_v_slices[i]? = some s' ∧ s'.domain = s.domain ∧
        s'.codomain = BoxOps.add s.codomain (BoxOps.symmetric x.dim r) ∧
        s'.outputGate = BoxOps.add s.outputGate (BoxOps.symmetric x.dim r) ∧
        s'.inputGate =
          (if i = 0 then BoxOps.add s.inputGate (BoxOps.symmetric x.dim r) else s.inputGate) := by
  obtain ⟨l⟩ := x
  cases l with
  | nil => exact ⟨rfl, fun i s h => by simp at h⟩
  | cons first rest =>
    refine ⟨by simp [TubeVector.inflate, TubeVector.nbSlices], ?_⟩
    intro i s hs
    cases i with
    | zero =>
      simp only [List.getElem?_cons_zero, Option.some.injEq] at hs
      subst hs
      exact ⟨((first.setEnvelope (BoxOps.add first.codomain (BoxOps.symmetric
        (TubeVector.dim ⟨first :: rest⟩) r))).setInputGate
        (BoxOps.add first.inputGate (BoxOps.symmetric
          (TubeVector.dim ⟨first :: rest⟩) r))).setOutputGate
        (BoxOps.add first.outputGate (BoxOps.symmetric (TubeVector.dim ⟨first :: rest⟩) r)),
        by simp [TubeVector.inflate, TubeSlice.setEnvelope], rfl, rfl, rfl, rfl⟩
    | succ i =>
      simp only [List.getElem?_cons_succ] at hs
      refine ⟨(s.setEnvelope (BoxOps.add s.codomain (BoxOps.symmetric
        (TubeVector.dim ⟨first :: rest⟩) r))).setOutputGate
        (BoxOps.add s.outputGate (BoxOps.symmetric (TubeVector.dim ⟨first :: rest⟩) r)),
        ?_, rfl, rfl, rfl, by simp [TubeSlice.setOutputGate, TubeSlice.setEnvelope]⟩
      simp only [TubeVector.inflate, List.map_cons, List.getElem?_cons_succ, List.map_map,
        List.getElem?_map, hs, Option.map_some', Function.comp]
      rfl

/-- Witness for C14: `inflate(1)` on the one-slice chain over `[0, 2]`. -/
theorem C14_inflate_frame_witness :
    (gateChain.inflate 1).nbSlices = gateChain.nbSlices ∧
    ∀ (i : ℕ) (s : TubeSlice Box1), gateChain.m_v_slices[i]? = some s →
      ∃ s', (gateChain.inflate 1).m_v_slices[i]? = some s' ∧ s'.domain = s.domain ∧
        s'.codomain = BoxOps.add s.codomain (BoxOps.symmetric gateChain.dim 1) ∧
        s'.outputGate = BoxOps.add s.outputGate (BoxOps.symmetric gateChain.dim 1) ∧
        s'.inputGate =
          (if i = 0 then BoxOps.add s.inputGate (BoxOps.symmetric gateChain.dim 1)
            else s.inputGate) :=
  C14_inflate_frame gateChain 1

/-- The chain `[0, 2]`, `[2, 4]` with envelopes `[0, 1]`, `[5, 6]` after `inflate(1)`:
envelopes and output gates grow by `[-1, 1]`, the input gate of the second slice does
not. -/
theorem inflate_example :
    twoSliceChain.inflate 1 =
      ⟨[{ domain := ⟨0, 2⟩, codomain := .bounded (-1) 2, inputGate := .bounded (-1) 2,
          outputGate := .bounded (-1) 2, dim := 1 },
        { domain := ⟨2, 4⟩, codomain := .bounded 4 7, inputGate := .bounded 5 6,
          outputGate := .bounded 4 7, dim := 1 }]⟩ := by
  decide!

/-- A negative radius: `Interval(-rad, rad)` is the empty interval, and adding it
empties the envelopes. -/
theorem inflate_negative_example :
    (BoxOps.symmetric 1 (-1) : Box1) = Box1.empty ∧
    ((flatChain.inflate (-1)).m_v_slices.map (fun s => s.codomain)) = [Box1.empty, Box1.empty] := by
  decide!

/-! ## Comparisons and copies -/

theorem TubeSlice.ne_self [DecidableEq β] (s : TubeSlice β) : s.ne s = false := by
  simp [TubeSlice.ne]

theorem TubeVector.eqLoop_self [DecidableEq β] :
    ∀ l : List (TubeSlice β), TubeVector.eqLoop l l = .ok true
  | [] => rfl
  | s :: rest => by
    rw [TubeVector.eqLoop, TubeSlice.ne_self]
    exact TubeVector.eqLoop_self rest

/-- A chain compares equal to itself. -/
theorem TubeVector.operatorEq_self [DecidableEq β] (x : TubeVector β) :
    x.operatorEq x = .ok true := by
  simp [TubeVector.operatorEq, DimensionException.checkTube, TubeVector.eqLoop_self]

/-- The two comparison loops on chains of one length: they answer, with opposite
results, and the equality loop answers `true` exactly when no pair of corresponding
slices differs. -/
theorem TubeVector.eqLoop_neLoop [DecidableEq β] :
    ∀ l1 l2 : List (TubeSlice β), l1.length = l2.length →
      ∃ b : Bool, TubeVector.eqLoop l1 l2 = .ok b ∧ TubeVector.neLoop l1 l2 = .ok (!b) ∧
        (b = true ↔ ∀ p ∈ l1.zip l2, p.1.ne p.2 = false)
  | [], l2, _ => ⟨true, by rw [TubeVector.eqLoop], by rw [TubeVector.neLoop]; rfl, by simp⟩
  | s :: rest, [], h => by simp at h
  | s :: rest, sx :: restx, h => by
    have hlen : rest.length = restx.length := by simpa using h
    obtain ⟨b, h1, h2, h3⟩ := TubeVector.eqLoop_neLoop rest restx hlen
    by_cases hne : s.ne sx = true
    · refine ⟨false, by rw [TubeVector.eqLoop, if_pos hne],
        by rw [TubeVector.neLoop, if_pos hne]; rfl, ?_⟩
      simp only [Bool.false_eq_true, List.zip_cons_cons, List.mem_cons, false_iff, not_forall]
      exact ⟨(s, sx), Or.inl rfl, by simp [hne]⟩
    · refine ⟨b, by rw [TubeVector.eqLoop, if_neg hne, h1],
        by rw [TubeVector.neLoop, if_neg hne, h2], ?_⟩
      rw [h3]
      simp only [List.zip_cons_cons, List.mem_cons]
      constructor
      · rintro hall p (rfl | hp)
        · simpa using hne
        · exact hall p hp
      · intro hall p hp
        exact hall p (Or.inr hp)

/-- Whatever the fuel, a chain returned by the constructor loop starts with the slices
already built, followed by a slice of the requested dimension. -/
theorem TubeVector.sliceLoop_some [Top β] (domain : Interval) (timestep : ℚ) (dim : ℕ) :
    ∀ (fuel : ℕ) (ub : ℚ) (acc slices : List (TubeSlice β)),
      TubeVector.sliceLoop domain timestep dim fuel ub acc = some slices →
      ∃ s rest, slices = acc ++ s :: rest ∧ s.dim = dim
  | 0, _, _, _, h => by simp [TubeVector.sliceLoop] at h
  | fuel + 1, ub, acc, slices, h => by
    rw [TubeVector.sliceLoop] at h
    split_ifs at h with hlt
    · obtain ⟨s, rest, hs, _⟩ := TubeVector.sliceLoop_some domain timestep dim fuel _ _ _ h
      exact ⟨_, s :: rest, by rw [hs, List.append_assoc]; rfl, rfl⟩
    · simp only [Option.some.injEq] at h
      exact ⟨_, [], h.symm, rfl⟩

/-- A chain returned by the constructor has at least one slice and the requested
dimension. -/
theorem TubeVector.ofTimestep_ok [Top β] {fuel : ℕ} {domain : Interval} {timestep : ℚ}
    {dim : ℕ} {x : TubeVector β}
    (h : TubeVector.ofTimestep fuel domain timestep dim = some (.ok x)) :
    ∃ s rest, x.m_v_slices = s :: rest ∧ s.dim = dim := by
  simp only [TubeVector.ofTimestep] at h
  split at h
  · simp at h
  · split at h
    · simp at h
    · split at h
      · simp at h
      · split at h
        · simp at h
        · rename_i slices hloop
          simp only [Option.some.injEq, Except.ok.injEq] at h
          obtain ⟨s, rest, hs, hd⟩ := TubeVector.sliceLoop_some _ _ _ _ _ _ _ hloop
          exact ⟨s, rest, by rw [← h]; simpa using hs, hd⟩

/-- Inflating a chain whose first envelope is changed by the inflation gives a chain
that compares unequal to the original, in both directions and under both operators. -/
theorem TubeVector.inflate_ne [DecidableEq β] [BoxOps β] (s : TubeSlice β)
    (rest : List (TubeSlice β)) (r : ℚ)
    (hne : BoxOps.add s.codomain (BoxOps.symmetric s.dim r) ≠ s.codomain) :
    (TubeVector.inflate ⟨s :: rest⟩ r).operatorEq ⟨s :: rest⟩ = .ok false ∧
    (TubeVector.inflate ⟨s :: rest⟩ r).operatorNe ⟨s :: rest⟩ = .ok true ∧
    TubeVector.operatorEq ⟨s :: rest⟩ (TubeVector.inflate ⟨s :: rest⟩ r) = .ok false ∧
    TubeVector.operatorNe ⟨s :: rest⟩ (TubeVector.inflate ⟨s :: rest⟩ r) = .ok true := by
  have hne' : ¬ s.codomain = BoxOps.add s.codomain (BoxOps.symmetric s.dim r) :=
    fun h => hne h.symm
  refine ⟨?_, ?_, ?_, ?_⟩ <;>
  simp [TubeVector.operatorEq, TubeVector.operatorNe, DimensionException.checkTube,
    TubeVector.inflate, TubeVector.dim, TubeVector.nbSlices, TubeVector.eqLoop,
    TubeVector.neLoop, TubeSlice.ne, TubeSlice.setEnvelope, TubeSlice.setInputGate,
    TubeSlice.setOutputGate, hne, hne']

/-- C15: take the chain `x` built by `TubeVector(domain, timestep, dim)`, which is the
same for two constructions with the same parameters, and a box `y` of dimension `dim`.
The chain obtained by `set(y)` compares equal to the chain obtained by the same call
on the second construction. When `y + [-r, r]` differs from `y`, which is the case for
a non-empty bounded `y` and `r > 0`, the chain further inflated by `r` compares unequal
to the other one: `operator==` is false and `operator!=` is true. -/
theorem C15_equal_after_set_unequal_after_inflate [Top β] [DecidableEq β] [BoxOps β]
    (fuel : ℕ) (domain : Interval) (timestep : ℚ) (dim : ℕ) (y : β) (r : ℚ)
    (x : TubeVector β)
    (hbuild : TubeVector.ofTimestep fuel domain timestep dim = some (.ok x))
    (hy : BoxOps.size y = dim)
    (hne : BoxOps.add y (BoxOps.symmetric dim r) ≠ y) :
    ∃ x1, x.set y = .ok x1 ∧ x1.operatorEq x1 = .ok true ∧
      x1.operatorNe x1 = .ok false ∧
      (x1.inflate r).operatorEq x1 = .ok false ∧ (x1.inflate r).operatorNe x1 = .ok true ∧
      x1.operatorEq (x1.inflate r) = .ok false ∧ x1.operatorNe (x1.inflate r) = .ok true := by
  obtain ⟨s, rest, hx, hd⟩ := TubeVector.ofTimestep_ok hbuild
  have hxdim : x.dim = dim := by simp [TubeVector.dim, hx, hd]
  have hset : x.set y = .ok ⟨s.set y :: rest.map (fun slice => slice.set y)⟩ := by
    simp [TubeVector.set, DimensionException.checkBox, hy, hxdim, hx]
  have hinf := TubeVector.inflate_ne (s.set y) (rest.map (fun slice => slice.set y)) r
    (by simpa [TubeSlice.set, hd] using hne)
  refine ⟨_, hset, TubeVector.operatorEq_self _, ?_, hinf.1, hinf.2.1, hinf.2.2.1, hinf.2.2.2⟩
  obtain ⟨b, h1, h2, -, -⟩ : ∃ b : Bool,
      TubeVector.eqLoop (s.set y :: rest.map (fun slice => slice.set y))
        (s.set y :: rest.map (fun slice => slice.set y)) = .ok b ∧
      TubeVector.neLoop (s.set y :: rest.map (fun slice => slice.set y))
        (s.set y :: rest.map (fun slice => slice.set y)) = .ok (!b) ∧ True ∧ True := by
    obtain ⟨b, h1, h2, _⟩ := TubeVector.eqLoop_neLoop
      (s.set y :: rest.map (fun slice => slice.set y))
      (s.set y :: rest.map (fun slice => slice.set y)) rfl
    exact ⟨b, h1, h2, trivial, trivial⟩
  rw [TubeVector.eqLoop_self] at h1
  simp only [Except.ok.injEq] at h1
  subst h1
  simp only [TubeVector.operatorNe, DimensionException.checkTube, ne_eq, not_true_eq_false,
    if_true, if_false, h2]
  rfl

/-- In dimension one, inflating a non-empty bounded box by a positive radius changes
it. -/
theorem Box1.add_symmetric_ne (y : Box1) (dim : ℕ) (r : ℚ) (hempty : y ≠ Box1.empty)
    (hbounded : y ≠ Box1.all) (hr : 0 < r) :
    BoxOps.add y (BoxOps.symmetric dim r : Box1) ≠ y := by
  cases y with
  | empty => exact absurd rfl hempty
  | all => exact absurd rfl hbounded
  | bounded a b =>
    have hs : (BoxOps.symmetric dim r : Box1) = Box1.bounded (-r) r := if_pos hr.le
    rw [hs]
    show Box1.bounded (a + -r) (b + r) ≠ Box1.bounded a b
    intro h
    simp only [Box1.bounded.injEq] at h
    linarith [h.2]

/-- Witness for C15: the running example, `y = [1, 2]` and `r = 1`. -/
theorem C15_equal_after_set_unequal_after_inflate_witness :
    ∃ x1, exampleChain.set (Box1.bounded 1 2) = .ok x1 ∧ x1.operatorEq x1 = .ok true ∧
      x1.operatorNe x1 = .ok false ∧
      (x1.inflate 1).operatorEq x1 = .ok false ∧ (x1.inflate 1).operatorNe x1 = .ok true ∧
      x1.operatorEq (x1.inflate 1) = .ok false ∧ x1.operatorNe (x1.inflate 1) = .ok true :=
  C15_equal_after_set_unequal_after_inflate 5 ⟨0, 10⟩ 2 1 (Box1.bounded 1 2) 1 exampleChain
    ofTimestep_example rfl
    (Box1.add_symmetric_ne (Box1.bounded 1 2) 1 1 (by decide) (by decide) (by norm_num))

theorem TubeSlice.copy_eq (s : TubeSlice β) : s.copy = s := rfl

/-- The copy loop appends copies of the slices from index `i` on. -/
theorem TubeVector.assignLoop_eq (x : TubeVector β) :
    ∀ (n i : ℕ) (acc : List (TubeSlice β)), i + n = x.nbSlices →
      TubeVector.assignLoop x n i acc = .ok (acc ++ x.m_v_slices.drop i)
  | 0, i, acc, h => by
    have : x.m_v_slices.length ≤ i := by simp only [TubeVector.nbSlices] at h; omega
    rw [TubeVector.assignLoop, List.drop_of_length_le this, List.append_nil]
  | n + 1, i, acc, h => by
    have hlt : i < x.m_v_slices.length := by simp only [TubeVector.nbSlices] at h; omega
    have hget : x.getSliceAt i = .ok (x.m_v_slices[i]) := by
      simp [TubeVector.getSliceAt, DomainException.checkIndex, TubeVector.nbSlices, hlt,
        List.getElem?_eq_getElem hlt]
    rw [TubeVector.assignLoop, hget]
    simp only
    rw [TubeVector.assignLoop_eq x n (i + 1) _ (by omega), TubeSlice.copy_eq,
      List.append_assoc, List.singleton_append, List.getElem_cons_drop]

/-- Assignment returns a chain with the slices of its source. -/
theorem TubeVector.assign_eq (x : TubeVector β) : x.assign = .ok x := by
  simp [TubeVector.assign, TubeVector.assignLoop_eq x x.nbSlices 0 [] (by simp)]

/-- C16: for a well-formed chain `x`, `operator=` and the copy constructor return one
and the same chain; it has the slice count of `x`, the same slice domains, envelopes and
gates in the same order, it is well-formed with the `domain()` of `x`, and it compares
equal to `x`. -/
theorem C16_copy_equals_source [DecidableEq β] (x : TubeVector β) (hwf : x.WellFormed) :
    ∃ c, x.assign = .ok c ∧ x.copy = .ok c ∧ c.nbSlices = x.nbSlices ∧
      c.m_v_slices.map (fun s => s.domain) = x.m_v_slices.map (fun s => s.domain) ∧
      c.m_v_slices.map (fun s => s.codomain) = x.m_v_slices.map (fun s => s.codomain) ∧
      c.m_v_slices.map (fun s => s.inputGate) = x.m_v_slices.map (fun s => s.inputGate) ∧
      c.m_v_slices.map (fun s => s.outputGate) = x.m_v_slices.map (fun s => s.outputGate) ∧
      c.WellFormed ∧ c.domain = x.domain ∧ c.operatorEq x = .ok true :=
  ⟨x, x.assign_eq, x.assign_eq, rfl, rfl, rfl, rfl, rfl, hwf, rfl, x.operatorEq_self⟩

/-- Witness for C16: the copy of the two-slice chain. -/
theorem C16_copy_equals_source_witness :
    ∃ c, twoSliceChain.assign = .ok c ∧ twoSliceChain.copy = .ok c ∧
      c.nbSlices = twoSliceChain.nbSlices ∧
      c.m_v_slices.map (fun s => s.domain) = twoSliceChain.m_v_slices.map (fun s => s.domain) ∧
      c.m_v_slices.map (fun s => s.codomain)
        = twoSliceChain.m_v_slices.map (fun s => s.codomain) ∧
      c.m_v_slices.map (fun s => s.inputGate)
        = twoSliceChain.m_v_slices.map (fun s => s.inputGate) ∧
      c.m_v_slices.map (fun s => s.outputGate)
        = twoSliceChain.m_v_slices.map (fun s => s.outputGate) ∧
      c.WellFormed ∧ c.domain = twoSliceChain.domain ∧ c.operatorEq twoSliceChain = .ok true :=
  C16_copy_equals_source twoSliceChain twoSliceChain_wellFormed

/-- C17: for two chains of one dimension, `operator==` and `operator!=` both answer, and
with opposite results; chains with different slice counts are unequal, and chains with
the same slice count are equal exactly when no pair of corresponding slices differs. -/
theorem C17_operatorNe_negates_operatorEq [DecidableEq β] (a x : TubeVector β)
    (hdim : a.dim = x.dim) :
    ∃ b : Bool, a.operatorEq x = .ok b ∧ a.operatorNe x = .ok (!b) ∧
      (a.nbSlices ≠ x.nbSlices → b = false) ∧
      (a.nbSlices = x.nbSlices →
        (b = true ↔ ∀ p ∈ a.m_v_slices.zip x.m_v_slices, p.1.ne p.2 = false)) := by
  have hc : DimensionException.checkTube a x = .ok () := by
    simp [DimensionException.checkTube, hdim]
  by_cases hn : x.nbSlices = a.nbSlices
  · obtain ⟨b, h1, h2, h3⟩ := TubeVector.eqLoop_neLoop a.m_v_slices x.m_v_slices hn.symm
    refine ⟨b, ?_, ?_, fun h => absurd hn.symm h, fun _ => h3⟩
    · simp only [TubeVector.operatorEq, hc, hn, ne_eq, not_true_eq_false, if_false, h1]
    · simp only [TubeVector.operatorNe, hc, hn, ne_eq, not_true_eq_false, if_false, h2]
  · refine ⟨false, ?_, ?_, fun _ => rfl, fun h => absurd h.symm hn⟩
    · simp only [TubeVector.operatorEq, hc, ne_eq, hn, not_false_eq_true, if_true]
    · simp only [TubeVector.operatorNe, hc, ne_eq, hn, not_false_eq_true, if_true]
      rfl

/-- Witness for C17: the running example against the two-slice chain. -/
theorem C17_operatorNe_negates_operatorEq_witness :
    ∃ b : Bool, exampleChain.operatorEq twoSliceChain = .ok b ∧
      exampleChain.operatorNe twoSliceChain = .ok (!b) ∧
      (exampleChain.nbSlices ≠ twoSliceChain.nbSlices → b = false) ∧
      (exampleChain.nbSlices = twoSliceChain.nbSlices →
        (b = true ↔
          ∀ p ∈ exampleChain.m_v_slices.zip twoSliceChain.m_v_slices, p.1.ne p.2 = false)) :=
  C17_operatorNe_negates_operatorEq exampleChain twoSliceChain rfl

/-- C18 fails on the code: the chains `twoSliceChain` (envelopes `[0, 1]`, `[5, 6]`) and
`flatChain` (envelopes `[0, 1]`, `[0, 1]`) share their slicing and dimension;
`isSubset` answers `true` because the first slice is a subset of its counterpart,
although the second slice is not, and although `codomain()` of the first chain,
`[0, 6]`, is not inside `codomain()` of the second, `[0, 1]`. -/
theorem C18_isSubset_true_on_first_subset_slice :
    StructureException.check twoSliceChain flatChain = .ok () ∧
    twoSliceChain.isSubset flatChain = .ok true ∧
    twoSliceChain.isSubsetSpec flatChain = false ∧
    ¬ (twoSliceChain.codomain ≤ flatChain.codomain) := by
  decide!

/-- What the loop of `isSubset` computes on chains of one length: whether some slice is
a subset of its counterpart. -/
theorem TubeVector.isSubsetLoop_eq_any [SemilatticeSup β] [DecidableRel (α := β) (· ≤ ·)] :
    ∀ l1 l2 : List (TubeSlice β), l1.length = l2.length →
      TubeVector.isSubsetLoop l1 l2 = .ok ((l1.zip l2).any (fun p => p.1.isSubset p.2))
  | [], _, _ => by simp [TubeVector.isSubsetLoop]
  | s :: rest, [], h => by simp at h
  | s :: rest, sx :: restx, h => by
    have ih := TubeVector.isSubsetLoop_eq_any rest restx (by simpa using h)
    rw [TubeVector.isSubsetLoop]
    split_ifs with hs
    · simp [hs]
    · simp [hs, ih]

/-- C19: `isEmpty()` is true exactly when some slice of the chain is empty. On a chain
with at least one slice: after `setEmpty()` the chain is empty and its `codomain()` is
the empty box; after `set(y)` with a non-empty `y` of the chain's dimension it is not
empty. -/
theorem C19_isEmpty_iff_some_slice_empty [SemilatticeSup β] [OrderBot β] [DecidableEq β]
    [BoxOps β] (x : TubeVector β) (y : β) (hpos : 0 < x.nbSlices)
    (hbot : BoxOps.size (⊥ : β) = x.dim) (hy : BoxOps.size y = x.dim) (hne : y ≠ ⊥) :
    (x.isEmpty = true ↔ ∃ s ∈ x.m_v_slices, s.isEmpty = true) ∧
    (∃ x', x.setEmpty = .ok x' ∧ x'.isEmpty = true ∧ x'.codomain = ⊥) ∧
    (∃ x', x.set y = .ok x' ∧ x'.isEmpty = false) := by
  obtain ⟨s0, rest, hx⟩ : ∃ s0 rest, x.m_v_slices = s0 :: rest := by
    cases hl : x.m_v_slices with
    | nil => simp [TubeVector.nbSlices, hl] at hpos
    | cons a l => exact ⟨a, l, rfl⟩
  refine ⟨by simp [TubeVector.isEmpty], ?_, ?_⟩
  · refine ⟨⟨x.m_v_slices.map (fun slice => slice.set ⊥)⟩, ?_, ?_, ?_⟩
    · simp [TubeVector.setEmpty, TubeVector.set, DimensionException.checkBox, hbot]
    · simp [TubeVector.isEmpty, hx, TubeSlice.isEmpty, TubeSlice.set]
    · simp only [TubeVector.codomain]
      rw [TubeVector.foldl_const ⊥ _ ⊥ ?_ (by simp [hx]), bot_sup_eq]
      intro s hs
      obtain ⟨r, _, rfl⟩ := List.mem_map.mp hs
      rfl
  · refine ⟨⟨x.m_v_slices.map (fun slice => slice.set y)⟩, ?_, ?_⟩
    · simp [TubeVector.set, DimensionException.checkBox, hy]
    · simp [TubeVector.isEmpty, TubeSlice.isEmpty, TubeSlice.set, hne]

/-- Witness for C19: the running example with `y = [1, 2]`. -/
theorem C19_isEmpty_iff_some_slice_empty_witness :
    (exampleChain.isEmpty = true ↔ ∃ s ∈ exampleChain.m_v_slices, s.isEmpty = true) ∧
    (∃ x', exampleChain.setEmpty = .ok x' ∧ x'.isEmpty = true ∧ x'.codomain = ⊥) ∧
    (∃ x', exampleChain.set (Box1.bounded 1 2) = .ok x' ∧ x'.isEmpty = false) :=
  C19_isEmpty_iff_some_slice_empty exampleChain (Box1.bounded 1 2) (by decide) rfl rfl
    (by decide)

/-! ## Inversion -/

theorem Interval.subset_hull {a b : Option Interval} {d : Interval}
    (ha : Interval.subset a (some d)) (hb : Interval.subset b (some d)) :
    Interval.subset (Interval.hull a b) (some d) := by
  cases a with
  | none => cases b <;> simpa [Interval.hull] using hb
  | some a =>
    cases b with
    | none => simpa [Interval.hull] using ha
    | some b =>
      simp only [Interval.subset, Interval.hull] at ha hb ⊢
      exact ⟨le_min ha.1 hb.1, max_le ha.2 hb.2⟩

/-- The union built by the inversion loop stays inside the interval searched when every
local inversion does. -/
theorem TubeVector.invertLoop_subset
    (TubeSlice_invert : TubeSlice β → β → Interval → Option Interval) (y : β)
    (intersection : Interval)
    (hlocal : ∀ s, Interval.subset (TubeSlice_invert s y intersection) (some intersection)) :
    ∀ (l : List (TubeSlice β)) (acc : Option Interval),
      Interval.subset acc (some intersection) →
      Interval.subset (TubeVector.invertLoop TubeSlice_invert y intersection l acc)
        (some intersection)
  | [], acc, h => by rw [TubeVector.invertLoop]; exact h
  | s :: rest, acc, h => by
    rw [TubeVector.invertLoop]
    split_ifs
    · exact TubeVector.invertLoop_subset TubeSlice_invert y intersection hlocal rest _
        (Interval.subset_hull h (hlocal s))
    · exact h

/-- C20: on a well-formed chain, for a box `y` of the chain's dimension and a local
inversion that answers inside the interval it is asked to search, the scalar
`invert(y, searchDomain)` returns an interval contained in `searchDomain ∩ domain()`;
when that intersection is empty it returns the empty interval, without raising an
error. -/
theorem C20_invert_within_search_domain [BoxOps β]
    (TubeSlice_invert : TubeSlice β → β → Interval → Option Interval)
    (x : TubeVector β) (y : β) (search_domain : Option Interval)
    (hlocal : ∀ s y d, Interval.subset (TubeSlice_invert s y d) (some d))
    (hwf : x.WellFormed) (hy : BoxOps.size y = x.dim) :
    ∃ r, x.invert TubeSlice_invert y search_domain = .ok r ∧
      Interval.subset r (Interval.interOpt search_domain x.domain) ∧
      (Interval.interOpt search_domain x.domain = none → r = none) := by
  have hc : DimensionException.checkBox x y = .ok () := by
    simp [DimensionException.checkBox, hy]
  cases hi : Interval.interOpt search_domain x.domain with
  | none =>
    exact ⟨none, by simp [TubeVector.invert, hc, hi], trivial, fun _ => rfl⟩
  | some d =>
    have hd : x.domain.lb ≤ d.lb ∧ d.lb ≤ x.domain.ub := by
      cases search_domain with
      | none => simp [Interval.interOpt] at hi
      | some sd =>
        simp only [Interval.interOpt, Interval.inter] at hi
        split_ifs at hi with hle
        simp only [Option.some.injEq] at hi
        subst hi
        exact ⟨le_max_right _ _, le_trans hle (min_le_right _ _)⟩
    obtain ⟨pre, s, post, hdec, hidx, hget, -, -⟩ := x.lookup d.lb hwf hd
    refine ⟨TubeVector.invertLoop TubeSlice_invert y d (x.m_v_slices.drop pre.length) none,
      by simp only [TubeVector.invert, hc, hi, hget, hidx], ?_, fun h => by simp at h⟩
    exact TubeVector.invertLoop_subset TubeSlice_invert y d (fun s => hlocal s y d) _ none
      trivial

theorem Interval.inter_subset_left (a b : Interval) :
    Interval.subset (Interval.inter a b) (some a) := by
  simp only [Interval.inter]
  split_ifs
  · exact ⟨le_max_left _ _, min_le_left _ _⟩
  · trivial

/-- Witness for C20: the two-slice chain searched over `[1, 3]`, with the local
inversion that answers the part of the search interval lying in the slice. -/
theorem C20_invert_within_search_domain_witness :
    ∃ r, twoSliceChain.invert (fun s _ d => Interval.inter d s.domain) (Box1.bounded 0 1)
        (some ⟨1, 3⟩) = .ok r ∧
      Interval.subset r (Interval.interOpt (some ⟨1, 3⟩) twoSliceChain.domain) ∧
      (Interval.interOpt (some ⟨1, 3⟩) twoSliceChain.domain = none → r = none) :=
  C20_invert_within_search_domain (fun s _ d => Interval.inter d s.domain) twoSliceChain
    (Box1.bounded 0 1) (some ⟨1, 3⟩) (fun s _ d => Interval.inter_subset_left d s.domain)
    twoSliceChain_wellFormed rfl

/-- Lookup is monotone along the list: the slice found for a later time is not before
the slice found for an earlier time. -/
theorem TubeVector.lookup_mono {l pre1 post1 pre2 post2 : List (TubeSlice β)}
    {s1 s2 : TubeSlice β} {t1 t2 : ℚ}
    (hc : l.Chain' (fun a b => a.domain.ub = b.domain.lb))
    (hnd : ∀ r ∈ l, r.domain.lb < r.domain.ub)
    (h1 : l = pre1 ++ s1 :: post1) (h2 : l = pre2 ++ s2 :: post2)
    (hs1 : s1.domain.lb ≤ t1) (hs2 : t2 < s2.domain.ub ∨ post2 = []) (ht : t1 ≤ t2) :
    ∃ mid, pre2 = pre1 ++ mid ∧ s1 :: post1 = mid ++ s2 :: post2 := by
  have heq : pre1 ++ s1 :: post1 = pre2 ++ s2 :: post2 := by rw [← h1, h2]
  rcases List.append_eq_append_iff.mp heq with ⟨a', ha1, ha2⟩ | ⟨c', hc1, hc2⟩
  · exact ⟨a', ha1, ha2⟩
  · cases c' with
    | nil =>
      simp only [List.append_nil, List.nil_append] at hc1 hc2
      exact ⟨[], by simp [hc1], by simp [hc2]⟩
    | cons c c' =>
      exfalso
      simp only [List.cons_append, List.cons.injEq] at hc2
      obtain ⟨rfl, hpost⟩ := hc2
      have hmem : s1 ∈ post2 := by rw [hpost]; simp
      have hb := (TubeVector.bounds_of_append (h2 ▸ hc) (h2 ▸ hnd)).2 s1 hmem
      rcases hs2 with h | h
      · linarith
      · rw [h] at hmem; simp at hmem

theorem Interval.mem_hull_left {t : ℚ} {a : Option Interval} (b : Option Interval)
    (h : Interval.mem t a) : Interval.mem t (Interval.hull a b) := by
  cases a with
  | none => exact absurd h (by simp [Interval.mem])
  | some a =>
    cases b with
    | none => exact h
    | some b => exact ⟨le_trans (min_le_left _ _) h.1, le_trans h.2 (le_max_left _ _)⟩

theorem Interval.mem_hull_right {t : ℚ} (a : Option Interval) {b : Option Interval}
    (h : Interval.mem t b) : Interval.mem t (Interval.hull a b) := by
  cases b with
  | none => exact absurd h (by simp [Interval.mem])
  | some b =>
    cases a with
    | none => exact h
    | some a => exact ⟨le_trans (min_le_right _ _) h.1, le_trans h.2 (le_max_right _ _)⟩

/-- A time already in the running union stays in the result of the inversion loop. -/
theorem TubeVector.invertLoop_mem_acc
    (TubeSlice_invert : TubeSlice β → β → Interval → Option Interval) (y : β)
    (d : Interval) (t : ℚ) :
    ∀ (l : List (TubeSlice β)) (acc : Option Interval), Interval.mem t acc →
      Interval.mem t (TubeVector.invertLoop TubeSlice_invert y d l acc)
  | [], _, h => by rw [TubeVector.invertLoop]; exact h
  | s :: rest, acc, h => by
    rw [TubeVector.invertLoop]
    split_ifs
    · exact TubeVector.invertLoop_mem_acc TubeSlice_invert y d t rest _
        (Interval.mem_hull_left _ h)
    · exact h

/-- A time in the local inversion of a slice the loop reaches is in the result. -/
theorem TubeVector.invertLoop_mem_of_slice
    (TubeSlice_invert : TubeSlice β → β → Interval → Option Interval) (y : β)
    (d : Interval) (t : ℚ) (s0 : TubeSlice β) (post : List (TubeSlice β))
    (hs0 : s0.domain.lb ≤ d.ub) (hmem : Interval.mem t (TubeSlice_invert s0 y d)) :
    ∀ (mid : List (TubeSlice β)) (acc : Option Interval),
      (∀ m ∈ mid, m.domain.lb ≤ d.ub) →
      Interval.mem t (TubeVector.invertLoop TubeSlice_invert y d (mid ++ s0 :: post) acc)
  | [], acc, _ => by
    rw [List.nil_append, TubeVector.invertLoop, if_pos hs0]
    exact TubeVector.invertLoop_mem_acc TubeSlice_invert y d t post _
      (Interval.mem_hull_right _ hmem)
  | m :: mid, acc, hmid => by
    rw [List.cons_append, TubeVector.invertLoop, if_pos (hmid m (by simp))]
    exact TubeVector.invertLoop_mem_of_slice TubeSlice_invert y d t s0 post hs0 hmem mid _
      (fun r hr => hmid r (List.mem_cons_of_mem _ hr))

/-- C21: `invert` is sound. Take a notion `intersects` of two boxes meeting and a local
inversion that is sound for it: it holds every time of the slice and of the interval
searched at which the value of the slice meets `y`. Then on a well-formed chain, for
`y` of the chain's dimension and a time `t0` of `searchDomain ∩ domain()` at which
`operator[](t0)` meets `y`, `invert(y, searchDomain)` returns an interval holding
`t0`. -/
theorem C21_invert_sound [BoxOps β] (intersects : β → β → Prop)
    (TubeSlice_invert : TubeSlice β → β → Interval → Option Interval)
    (x : TubeVector β) (y : β) (search_domain : Option Interval) (d : Interval) (t0 : ℚ)
    (v : β)
    (hlocal : ∀ (s : TubeSlice β) (d : Interval) (t : ℚ), s.domain.lb ≤ t → t ≤ s.domain.ub →
      d.lb ≤ t → t ≤ d.ub → intersects (s.operatorBracket t) y →
      Interval.mem t (TubeSlice_invert s y d))
    (hwf : x.WellFormed) (hy : BoxOps.size y = x.dim)
    (hd : Interval.interOpt search_domain x.domain = some d)
    (ht0 : d.lb ≤ t0 ∧ t0 ≤ d.ub)
    (hv : x.operatorBracketTime t0 = .ok v) (hint : intersects v y) :
    ∃ r, x.invert TubeSlice_invert y search_domain = .ok r ∧ Interval.mem t0 r := by
  have hc : DimensionException.checkBox x y = .ok () := by
    simp [DimensionException.checkBox, hy]
  have hdom : x.domain.lb ≤ d.lb ∧ d.ub ≤ x.domain.ub := by
    cases search_domain with
    | none => simp [Interval.interOpt] at hd
    | some sd =>
      simp only [Interval.interOpt, Interval.inter] at hd
      split_ifs at hd with hle
      simp only [Option.some.injEq] at hd
      subst hd
      exact ⟨le_max_right _ _, min_le_right _ _⟩
  have hin0 : x.domain.lb ≤ t0 ∧ t0 ≤ x.domain.ub := ⟨by linarith, by linarith⟩
  obtain ⟨preA, sA, postA, hdecA, hidxA, hgetA, hA1, -⟩ :=
    x.lookup d.lb hwf ⟨hdom.1, by linarith⟩
  obtain ⟨pre0, s0, post0, hdec0, hidx0, hget0, h01, h02⟩ := x.lookup t0 hwf hin0
  have hv0 : v = s0.operatorBracket t0 := by
    have hcheck : DomainException.check x t0 = .ok () := by
      simp [DomainException.check, hin0]
    simp only [TubeVector.operatorBracketTime, hcheck, hget0, Except.ok.injEq] at hv
    exact hv.symm
  obtain ⟨mid, hmid1, hmid2⟩ := TubeVector.lookup_mono hwf.2.2 hwf.2.1 hdecA hdec0 hA1
    (h02.imp id (fun h => h.2.1)) ht0.1
  have h0ub : t0 ≤ s0.domain.ub := by
    rcases h02 with h | ⟨h, -, -⟩
    · exact h.le
    · exact h.le
  have hb0 := TubeVector.bounds_of_append (hdec0 ▸ hwf.2.2) (hdec0 ▸ hwf.2.1)
  have hmem := hlocal s0 d t0 h01 h0ub ht0.1 ht0.2 (hv0 ▸ hint)
  refine ⟨TubeVector.invertLoop TubeSlice_invert y d (x.m_v_slices.drop preA.length) none,
    by simp only [TubeVector.invert, hc, hd, hgetA, hidxA], ?_⟩
  have hdrop : x.m_v_slices.drop preA.length = mid ++ s0 :: post0 := by
    rw [hdecA, List.drop_left, hmid2]
  rw [hdrop]
  refine TubeVector.invertLoop_mem_of_slice TubeSlice_invert y d t0 s0 post0 (by linarith)
    hmem mid none ?_
  intro m hm
  have hmpre : m ∈ pre0 := by rw [hmid1]; simp [hm]
  have := hb0.1 m hmpre
  have := hwf.2.1 m (by rw [hdec0]; simp [hmpre])
  linarith

theorem Interval.mem_inter {t : ℚ} {a b : Interval} (ha : a.lb ≤ t ∧ t ≤ a.ub)
    (hb : b.lb ≤ t ∧ t ≤ b.ub) : Interval.mem t (Interval.inter a b) := by
  have h : max a.lb b.lb ≤ min a.ub b.ub :=
    le_trans (max_le ha.1 hb.1) (le_min ha.2 hb.2)
  simp only [Interval.inter, if_pos h, Interval.mem]
  exact ⟨max_le ha.1 hb.1, le_min ha.2 hb.2⟩

/-- The local inversion of the one-dimensional examples is sound. -/
theorem Box1.sliceInvert_sound (y : Box1) (s : TubeSlice Box1) (d : Interval) (t : ℚ)
    (h1 : s.domain.lb ≤ t) (h2 : t ≤ s.domain.ub) (h3 : d.lb ≤ t) (h4 : t ≤ d.ub)
    (h : Box1.intersects (s.operatorBracket t) y = true) :
    Interval.mem t (Box1.sliceInvert s y d) := by
  have hcond : Box1.intersects s.codomain y = true ∨ Box1.intersects s.inputGate y = true ∨
      Box1.intersects s.outputGate y = true := by
    simp only [TubeSlice.operatorBracket] at h
    split_ifs at h
    · exact Or.inr (Or.inl h)
    · exact Or.inr (Or.inr h)
    · exact Or.inl h
  simp only [Box1.sliceInvert, if_pos hcond]
  exact Interval.mem_inter ⟨h3, h4⟩ ⟨h1, h2⟩

theorem pinnedChain_wellFormed : pinnedChain.WellFormed := by
  refine ⟨by decide, ?_, ?_⟩
  · intro s hs
    simp only [pinnedChain, List.mem_cons, List.mem_singleton, List.not_mem_nil,
      or_false] at hs
    rcases hs with rfl | rfl <;> norm_num
  · simp [pinnedChain]

/-- Witness for C21: the chain holding `[5, 6]` except for the gate `[0, 1]` at time `2`,
inverted for `y = [0, 1]` over `[0, 4]`: the result holds `2`. -/
theorem C21_invert_sound_witness :
    ∃ r, pinnedChain.invert Box1.sliceInvert (Box1.bounded 0 1) (some ⟨0, 4⟩) = .ok r ∧
      Interval.mem 2 r :=
  C21_invert_sound (fun a b => Box1.intersects a b = true) Box1.sliceInvert pinnedChain
    (Box1.bounded 0 1) (some ⟨0, 4⟩) ⟨0, 4⟩ 2 (Box1.bounded 0 1)
    (Box1.sliceInvert_sound (Box1.bounded 0 1)) pinnedChain_wellFormed rfl (by decide!)
    (by norm_num) (by decide!) (by decide!)

/-- The inversion of the example above: the window `[2, 4]`. -/
theorem invert_example :
    pinnedChain.invert Box1.sliceInvert (Box1.bounded 0 1) (some ⟨0, 4⟩) = .ok (some ⟨2, 4⟩) := by
  decide!

theorem Interval.hull_none_right (a : Option Interval) : Interval.hull a none = a := by
  cases a <;> rfl

theorem Interval.hull_assoc (a b c : Option Interval) :
    Interval.hull (Interval.hull a b) c = Interval.hull a (Interval.hull b c) := by
  cases a <;> cases b <;> cases c <;> simp [Interval.hull, min_assoc, max_assoc]

theorem Interval.hullAll_append (v : List (Option Interval)) (a : Option Interval) :
    Interval.hullAll (v ++ [a]) = Interval.hull (Interval.hullAll v) a := by
  simp [Interval.hullAll, List.foldl_append]

theorem Interval.hull_isSome_left {a : Option Interval} (b : Option Interval)
    (h : a.isSome = true) : (Interval.hull a b).isSome = true := by
  cases a with
  | none => simp at h
  | some a => cases b <;> rfl

theorem Interval.foldl_hull_isSome :
    ∀ (v : List (Option Interval)) (a : Option Interval), a.isSome = true →
      (v.foldl Interval.hull a).isSome = true
  | [], _, h => h
  | e :: rest, a, h => by
    rw [List.foldl_cons]
    exact Interval.foldl_hull_isSome rest _ (Interval.hull_isSome_left e h)

/-- The two inversion loops walk the same slices: the hull of the windows emitted so
far and of the running window is the running union of the scalar loop. -/
theorem TubeVector.invertVectorLoop_hull
    (TubeSlice_invert : TubeSlice β → β → Interval → Option Interval) (y : β)
    (d : Interval) :
    ∀ (l : List (TubeSlice β)) (acc : Option Interval) (v : List (Option Interval)),
      Interval.hull
          (Interval.hullAll (TubeVector.invertVectorLoop TubeSlice_invert y d l (acc, v)).2)
          (TubeVector.invertVectorLoop TubeSlice_invert y d l (acc, v)).1
        = TubeVector.invertLoop TubeSlice_invert y d l
            (Interval.hull (Interval.hullAll v) acc)
  | [], acc, v => by rw [TubeVector.invertVectorLoop, TubeVector.invertLoop]
  | s :: rest, acc, v => by
    rw [TubeVector.invertVectorLoop, TubeVector.invertLoop]
    by_cases hcond : s.domain.lb ≤ d.ub
    · rw [if_pos hcond, if_pos hcond]
      dsimp only
      by_cases hclose : (TubeSlice_invert s y d).isNone = true ∧ acc.isSome = true
      · rw [if_pos hclose,
          TubeVector.invertVectorLoop_hull TubeSlice_invert y d rest none (v ++ [acc]),
          Interval.hullAll_append, Interval.hull_none_right]
        have hnone : TubeSlice_invert s y d = none := by
          have := hclose.1
          cases h : TubeSlice_invert s y d with
          | none => rfl
          | some a => simp [h] at this
        rw [hnone, Interval.hull_none_right]
      · rw [if_neg hclose,
          TubeVector.invertVectorLoop_hull TubeSlice_invert y d rest _ v, Interval.hull_assoc]
    · rw [if_neg hcond, if_neg hcond]

/-- The loop of the vector overload emits non-empty intervals only. -/
theorem TubeVector.invertVectorLoop_isSome
    (TubeSlice_invert : TubeSlice β → β → Interval → Option Interval) (y : β)
    (d : Interval) :
    ∀ (l : List (TubeSlice β)) (acc : Option Interval) (v : List (Option Interval)),
      (∀ e ∈ v, e.isSome = true) →
      ∀ e ∈ (TubeVector.invertVectorLoop TubeSlice_invert y d l (acc, v)).2, e.isSome = true
  | [], acc, v, hv => by rw [TubeVector.invertVectorLoop]; exact hv
  | s :: rest, acc, v, hv => by
    rw [TubeVector.invertVectorLoop]
    by_cases hcond : s.domain.lb ≤ d.ub
    · rw [if_pos hcond]
      dsimp only
      by_cases hclose : (TubeSlice_invert s y d).isNone = true ∧ acc.isSome = true
      · rw [if_pos hclose]
        refine TubeVector.invertVectorLoop_isSome TubeSlice_invert y d rest none _ ?_
        intro e he
        rcases List.mem_append.mp he with he | he
        · exact hv e he
        · simp only [List.mem_singleton] at he
          rw [he]; exact hclose.2
      · rw [if_neg hclose]
        exact TubeVector.invertVectorLoop_isSome TubeSlice_invert y d rest _ v hv
    · rw [if_neg hcond]
      exact hv

/-- What the two overloads of `invert` return on a well-formed chain, in terms of
their loops. -/
theorem TubeVector.invert_both [BoxOps β]
    (TubeSlice_invert : TubeSlice β → β → Interval → Option Interval)
    (x : TubeVector β) (y : β) (v_t : List (Option Interval))
    (search_domain : Option Interval) (d : Interval)
    (hwf : x.WellFormed) (hy : BoxOps.size y = x.dim)
    (hd : Interval.interOpt search_domain x.domain = some d) :
    ∃ pre s post, x.m_v_slices = pre ++ s :: post ∧ s.domain.lb ≤ d.lb ∧
      x.input2index d.lb = .ok pre.length ∧
      x.invert TubeSlice_invert y search_domain
        = .ok (TubeVector.invertLoop TubeSlice_invert y d (s :: post) none) ∧
      x.invertVector TubeSlice_invert y v_t search_domain
        = .ok (if (TubeVector.invertVectorLoop TubeSlice_invert y d (s :: post)
              (none, [])).1.isSome = true
            then (TubeVector.invertVectorLoop TubeSlice_invert y d (s :: post) (none, [])).2
              ++ [(TubeVector.invertVectorLoop TubeSlice_invert y d (s :: post)
                (none, [])).1]
            else (TubeVector.invertVectorLoop TubeSlice_invert y d (s :: post)
              (none, [])).2) := by
  have hc : DimensionException.checkBox x y = .ok () := by
    simp [DimensionException.checkBox, hy]
  have hdom : x.domain.lb ≤ d.lb ∧ d.lb ≤ x.domain.ub := by
    cases search_domain with
    | none => simp [Interval.interOpt] at hd
    | some sd =>
      simp only [Interval.interOpt, Interval.inter] at hd
      split_ifs at hd with hle
      simp only [Option.some.injEq] at hd
      subst hd
      exact ⟨le_max_right _ _, le_trans hle (min_le_right _ _)⟩
  obtain ⟨pre, s, post, hdec, hidx, hget, hs1, -⟩ := x.lookup d.lb hwf hdom
  have hdrop : x.m_v_slices.drop pre.length = s :: post := by rw [hdec, List.drop_left]
  refine ⟨pre, s, post, hdec, hs1, hidx, ?_, ?_⟩
  · simp only [TubeVector.invert, hc, hd, hget, hidx, hdrop]
  · simp only [TubeVector.invertVector, hc, hd, hget, hidx, hdrop, vector_clear]
    split_ifs <;> rfl

/-- C29: on a well-formed chain, for `y` of the chain's dimension, both overloads of
`invert` answer; the hull of the intervals of the vector overload is the interval of
the scalar overload, and the vector is empty exactly when that interval is. -/
theorem C29_invert_vector_hull_eq_scalar [BoxOps β]
    (TubeSlice_invert : TubeSlice β → β → Interval → Option Interval)
    (x : TubeVector β) (y : β) (v_t : List (Option Interval))
    (search_domain : Option Interval)
    (hwf : x.WellFormed) (hy : BoxOps.size y = x.dim) :
    ∃ v r, x.invertVector TubeSlice_invert y v_t search_domain = .ok v ∧
      x.invert TubeSlice_invert y search_domain = .ok r ∧
      Interval.hullAll v = r ∧ (v = [] ↔ r = none) := by
  have hc : DimensionException.checkBox x y = .ok () := by
    simp [DimensionException.checkBox, hy]
  cases hd : Interval.interOpt search_domain x.domain with
  | none =>
    exact ⟨[], none, by simp [TubeVector.invertVector, hc, hd, vector_clear],
      by simp [TubeVector.invert, hc, hd], rfl, by simp⟩
  | some d =>
    obtain ⟨pre, s, post, -, -, -, hscalar, hvector⟩ :=
      TubeVector.invert_both TubeSlice_invert x y v_t search_domain d hwf hy hd
    have hhull := TubeVector.invertVectorLoop_hull TubeSlice_invert y d (s :: post) none []
    have hsome := TubeVector.invertVectorLoop_isSome TubeSlice_invert y d (s :: post) none []
      (by simp)
    generalize TubeVector.invertVectorLoop TubeSlice_invert y d (s :: post) (none, []) = st
      at hhull hsome hvector
    have hhull' : Interval.hull (Interval.hullAll st.2) st.1
        = TubeVector.invertLoop TubeSlice_invert y d (s :: post) none := hhull
    have hall : Interval.hullAll (if st.1.isSome = true then st.2 ++ [st.1] else st.2)
        = TubeVector.invertLoop TubeSlice_invert y d (s :: post) none := by
      rw [← hhull']
      split_ifs with h
      · exact Interval.hullAll_append _ _
      · have : st.1 = none := by
          cases h1 : st.1 with
          | none => rfl
          | some a => simp [h1] at h
        rw [this, Interval.hull_none_right]
    have hall_some : ∀ e ∈ (if st.1.isSome = true then st.2 ++ [st.1] else st.2),
        e.isSome = true := by
      intro e he
      split_ifs at he with h
      · rcases List.mem_append.mp he with he | he
        · exact hsome e he
        · simp only [List.mem_singleton] at he
          rw [he]; exact h
      · exact hsome e he
    refine ⟨_, _, hvector, hscalar, hall, ?_⟩
    rw [← hall]
    generalize (if st.1.isSome = true then st.2 ++ [st.1] else st.2) = w at hall_some
    constructor
    · intro h; rw [h]; rfl
    · intro h
      cases w with
      | nil => rfl
      | cons e rest =>
        exfalso
        have he := hall_some e (by simp)
        have hfold := Interval.foldl_hull_isSome rest (Interval.hull none e)
          (by cases e with
            | none => simp at he
            | some a => rfl)
        simp only [Interval.hullAll, List.foldl_cons] at h
        rw [h] at hfold
        simp at hfold

/-- Witness for C29: the four-slice chain inverted for `y = [0, 1]` over `[0, 8]`. -/
theorem C29_invert_vector_hull_eq_scalar_witness :
    ∃ v r, windowChain.invertVector Box1.sliceInvert (Box1.bounded 0 1) [none] (some ⟨0, 8⟩) = .ok v ∧
      windowChain.invert Box1.sliceInvert (Box1.bounded 0 1) (some ⟨0, 8⟩) = .ok r ∧
      Interval.hullAll v = r ∧ (v = [] ↔ r = none) :=
  C29_invert_vector_hull_eq_scalar Box1.sliceInvert windowChain (Box1.bounded 0 1) [none]
    (some ⟨0, 8⟩) windowChain_wellFormed rfl

/-- The windows of the example above: `[0, 2]` and `[4, 8]`, while the scalar overload
answers their hull `[0, 8]`. -/
theorem invertVector_example :
    windowChain.invertVector Box1.sliceInvert (Box1.bounded 0 1) [none] (some ⟨0, 8⟩)
      = .ok [some ⟨0, 2⟩, some ⟨4, 8⟩] ∧
    windowChain.invert Box1.sliceInvert (Box1.bounded 0 1) (some ⟨0, 8⟩)
      = .ok (some ⟨0, 8⟩) := by
  decide!

theorem Interval.before_some_iff (e : Option Interval) (b : Interval) :
    Interval.before e (some b) ↔ ∃ a, e = some a ∧ a.ub < b.lb := by
  cases e with
  | none => simp [Interval.before]
  | some a => simp [Interval.before]

theorem Interval.hullRuns_none :
    ∀ (runs : List (List (Option Interval))), runs ≠ [] →
      Interval.hullRuns none runs = runs.map (fun run => run.foldl Interval.hull none)
  | [], h => absurd rfl h
  | _ :: _, _ => rfl

/-- The loop of the vector overload, followed by the final `push_back`, emits the
unions of the runs into which the empty local inversions cut the scanned slices. -/
theorem TubeVector.invertVectorLoop_runs
    (TubeSlice_invert : TubeSlice β → β → Interval → Option Interval) (y : β)
    (d : Interval) :
    ∀ (l : List (TubeSlice β)) (acc : Option Interval) (v : List (Option Interval)),
      (if (TubeVector.invertVectorLoop TubeSlice_invert y d l (acc, v)).1.isSome = true
        then (TubeVector.invertVectorLoop TubeSlice_invert y d l (acc, v)).2
          ++ [(TubeVector.invertVectorLoop TubeSlice_invert y d l (acc, v)).1]
        else (TubeVector.invertVectorLoop TubeSlice_invert y d l (acc, v)).2)
      = v ++ (Interval.hullRuns acc
          (((l.takeWhile (fun s => decide (s.domain.lb ≤ d.ub))).map
            (fun s => TubeSlice_invert s y d)).splitOnP (fun o => o.isNone))).filter
          (fun o => o.isSome)
  | [], acc, v => by
    rw [TubeVector.invertVectorLoop]
    cases acc <;> simp [List.splitOnP_nil, Interval.hullRuns]
  | s :: rest, acc, v => by
    rw [TubeVector.invertVectorLoop]
    by_cases hcond : s.domain.lb ≤ d.ub
    · rw [if_pos hcond, List.takeWhile_cons_of_pos (by simpa using hcond), List.map_cons,
        List.splitOnP_cons]
      dsimp only
      have hne := List.splitOnP_ne_nil (fun o : Option Interval => o.isNone)
        ((rest.takeWhile (fun s => decide (s.domain.lb ≤ d.ub))).map
          (fun s => TubeSlice_invert s y d))
      by_cases hclose : (TubeSlice_invert s y d).isNone = true ∧ acc.isSome = true
      · rw [if_pos hclose, TubeVector.invertVectorLoop_runs TubeSlice_invert y d rest none _,
          if_pos hclose.1, Interval.hullRuns_none _ hne]
        simp [Interval.hullRuns, hclose.2]
      · rw [if_neg hclose, TubeVector.invertVectorLoop_runs TubeSlice_invert y d rest _ v]
        cases hloc : TubeSlice_invert s y d with
        | none =>
          have hacc : acc = none := by
            cases acc with
            | none => rfl
            | some c => exact absurd ⟨by simp [hloc], rfl⟩ hclose
          subst hacc
          have hh : Interval.hull none none = none := rfl
          rw [hh, Interval.hullRuns_none _ hne]
          simp [Interval.hullRuns]
        | some a =>
          simp only [Option.isNone_some, Bool.false_eq_true, if_false]
          generalize List.splitOnP (fun o : Option Interval => o.isNone)
            ((rest.takeWhile (fun s => decide (s.domain.lb ≤ d.ub))).map
              (fun s => TubeSlice_invert s y d)) = runs at hne
          cases runs with
          | nil => exact absurd rfl hne
          | cons r rs => simp [Interval.hullRuns, List.modifyHead]
    · rw [if_neg hcond, List.takeWhile_cons_of_neg (by simpa using hcond)]
      cases acc <;> simp [List.splitOnP_nil, Interval.hullRuns]

/-- The windows emitted by the loop of the vector overload are pairwise disjoint and in
increasing order, and the window still open lies after all of them. -/
theorem TubeVector.invertVectorLoop_ordered
    (TubeSlice_invert : TubeSlice β → β → Interval → Option Interval) (y : β)
    (d : Interval)
    (hlocal : ∀ s a, TubeSlice_invert s y d = some a →
      s.domain.lb ≤ a.lb ∧ a.ub ≤ s.domain.ub) :
    ∀ (l : List (TubeSlice β)) (acc : Option Interval) (v : List (Option Interval)),
      l.Pairwise (fun a b => a.domain.ub ≤ b.domain.lb) →
      (∀ s ∈ l, s.domain.lb < s.domain.ub) →
      v.Pairwise Interval.before →
      (∀ e ∈ v, ∀ s ∈ l, Interval.before e (some s.domain)) →
      (∀ c, acc = some c →
        (∀ e ∈ v, Interval.before e (some c)) ∧ ∀ s ∈ l, c.ub ≤ s.domain.lb) →
      (TubeVector.invertVectorLoop TubeSlice_invert y d l (acc, v)).2.Pairwise
          Interval.before ∧
        ∀ c, (TubeVector.invertVectorLoop TubeSlice_invert y d l (acc, v)).1 = some c →
          ∀ e ∈ (TubeVector.invertVectorLoop TubeSlice_invert y d l (acc, v)).2,
            Interval.before e (some c)
  | [], acc, v, _, _, h1, _, h3 => by
    rw [TubeVector.invertVectorLoop]
    exact ⟨h1, fun c hc => (h3 c hc).1⟩
  | s :: rest, acc, v, hpw, hnd, h1, h2, h3 => by
    rw [TubeVector.invertVectorLoop]
    have hpw' := List.pairwise_cons.mp hpw
    have hnd' : ∀ s ∈ rest, s.domain.lb < s.domain.ub :=
      fun q hq => hnd q (List.mem_cons_of_mem _ hq)
    by_cases hcond : s.domain.lb ≤ d.ub
    · rw [if_pos hcond]
      dsimp only
      by_cases hclose : (TubeSlice_invert s y d).isNone = true ∧ acc.isSome = true
      · rw [if_pos hclose]
        obtain ⟨c, hc⟩ := Option.isSome_iff_exists.mp hclose.2
        obtain ⟨hc1, hc2⟩ := h3 c hc
        refine TubeVector.invertVectorLoop_ordered TubeSlice_invert y d hlocal rest none
          (v ++ [acc]) hpw'.2 hnd' ?_ ?_ ?_
        · refine List.pairwise_append.mpr ⟨h1, List.pairwise_singleton _ _, ?_⟩
          intro e he e' he'
          simp only [List.mem_singleton] at he'
          rw [he', hc]
          exact hc1 e he
        · intro e he q hq
          rcases List.mem_append.mp he with he | he
          · exact h2 e he q (List.mem_cons_of_mem _ hq)
          · simp only [List.mem_singleton] at he
            rw [he, hc]
            have := hc2 s (List.mem_cons_self _ _)
            have := hnd s (List.mem_cons_self _ _)
            have := hpw'.1 q hq
            exact (Interval.before_some_iff _ _).mpr ⟨c, rfl, by linarith⟩
        · intro c' hc'
          simp at hc'
      · rw [if_neg hclose]
        refine TubeVector.invertVectorLoop_ordered TubeSlice_invert y d hlocal rest _ v
          hpw'.2 hnd' h1 (fun e he q hq => h2 e he q (List.mem_cons_of_mem _ hq)) ?_
        intro c' hc'
        cases hloc : TubeSlice_invert s y d with
        | none =>
          rw [hloc, Interval.hull_none_right] at hc'
          exact absurd ⟨by simp [hloc], by simp [hc']⟩ hclose
        | some a =>
          obtain ⟨ha1, ha2⟩ := hlocal s a hloc
          rw [hloc] at hc'
          cases acc with
          | none =>
            simp only [Interval.hull, Option.some.injEq] at hc'
            subst hc'
            refine ⟨fun e he => ?_, fun q hq => le_trans ha2 (hpw'.1 q hq)⟩
            obtain ⟨b, hb, hlt⟩ := (Interval.before_some_iff _ _).mp
              (h2 e he s (List.mem_cons_self _ _))
            exact (Interval.before_some_iff _ _).mpr ⟨b, hb, lt_of_lt_of_le hlt ha1⟩
          | some c =>
            obtain ⟨hc1, hc2⟩ := h3 c rfl
            simp only [Interval.hull, Option.some.injEq] at hc'
            subst hc'
            refine ⟨fun e he => ?_, fun q hq => ?_⟩
            · obtain ⟨b, hb, hlt⟩ := (Interval.before_some_iff _ _).mp
                (h2 e he s (List.mem_cons_self _ _))
              obtain ⟨b', hb', hlt'⟩ := (Interval.before_some_iff _ _).mp (hc1 e he)
              rw [hb] at hb'
              simp only [Option.some.injEq] at hb'
              subst hb'
              exact (Interval.before_some_iff _ _).mpr
                ⟨b, hb, lt_min hlt' (lt_of_lt_of_le hlt ha1)⟩
            · exact max_le (hc2 q (List.mem_cons_of_mem _ hq))
                (le_trans ha2 (hpw'.1 q hq))
    · rw [if_neg hcond]
      exact ⟨h1, fun c hc => (h3 c hc).1⟩

/-- C22: on a well-formed chain, for `y` of the chain's dimension and a local inversion
that answers inside the slice's domain, the vector overload of `invert` replaces the
vector by non-empty intervals, pairwise disjoint and in increasing time order; the
vector is empty when `search_domain ∩ domain()` is, and otherwise holds the unions
of the maximal runs of non-empty local inversions of the scanned slices. -/
theorem C22_invertVector_windows [BoxOps β]
    (TubeSlice_invert : TubeSlice β → β → Interval → Option Interval)
    (x : TubeVector β) (y : β) (v_t : List (Option Interval))
    (search_domain : Option Interval)
    (hlocal : ∀ s d a, TubeSlice_invert s y d = some a →
      s.domain.lb ≤ a.lb ∧ a.ub ≤ s.domain.ub)
    (hwf : x.WellFormed) (hy : BoxOps.size y = x.dim) :
    ∃ v, x.invertVector TubeSlice_invert y v_t search_domain = .ok v ∧
      (∀ e ∈ v, e.isSome = true) ∧ v.Pairwise Interval.before ∧
      (Interval.interOpt search_domain x.domain = none → v = []) ∧
      ∀ d, Interval.interOpt search_domain x.domain = some d →
        ∃ i, x.input2index d.lb = .ok i ∧
          v = TubeVector.invertWindowsSpec
            ((x.scanned d i).map (fun s => TubeSlice_invert s y d)) := by
  have hc : DimensionException.checkBox x y = .ok () := by
    simp [DimensionException.checkBox, hy]
  cases hd : Interval.interOpt search_domain x.domain with
  | none =>
    exact ⟨[], by simp [TubeVector.invertVector, hc, hd, vector_clear], by simp,
      List.Pairwise.nil, fun _ => rfl, fun d h => by simp at h⟩
  | some d =>
    obtain ⟨pre, s, post, hdec, -, hidx, -, hvector⟩ :=
      TubeVector.invert_both TubeSlice_invert x y v_t search_domain d hwf hy hd
    have hpw : (s :: post).Pairwise (fun a b => a.domain.ub ≤ b.domain.lb) := by
      have := TubeVector.pairwise_of_contiguous x.m_v_slices hwf.2.2 hwf.2.1
      rw [hdec] at this
      exact (List.pairwise_append.mp this).2.1
    have hnd : ∀ q ∈ s :: post, q.domain.lb < q.domain.ub := by
      intro q hq
      exact hwf.2.1 q (by rw [hdec]; exact List.mem_append_right _ hq)
    have hsome := TubeVector.invertVectorLoop_isSome TubeSlice_invert y d (s :: post) none []
      (by simp)
    have hord := TubeVector.invertVectorLoop_ordered TubeSlice_invert y d
      (fun q a h => hlocal q d a h) (s :: post) none [] hpw hnd List.Pairwise.nil
      (by simp) (by simp)
    have hruns := TubeVector.invertVectorLoop_runs TubeSlice_invert y d (s :: post) none []
    have hne := List.splitOnP_ne_nil (fun o : Option Interval => o.isNone)
      (((s :: post).takeWhile (fun s => decide (s.domain.lb ≤ d.ub))).map
        (fun s => TubeSlice_invert s y d))
    rw [Interval.hullRuns_none _ hne, List.nil_append] at hruns
    have hdrop : x.m_v_slices.drop pre.length = s :: post := by rw [hdec, List.drop_left]
    refine ⟨_, hvector, ?_, ?_, fun h => by simp at h, ?_⟩
    · intro e he
      split_ifs at he with h
      · rcases List.mem_append.mp he with he | he
        · exact hsome e he
        · simp only [List.mem_singleton] at he
          rw [he]; exact h
      · exact hsome e he
    · split_ifs with h
      · obtain ⟨c, hc⟩ := Option.isSome_iff_exists.mp h
        refine List.pairwise_append.mpr ⟨hord.1, List.pairwise_singleton _ _, ?_⟩
        intro e he e' he'
        simp only [List.mem_singleton] at he'
        rw [he', hc]
        exact hord.2 c hc e he
      · exact hord.1
    · intro d' hd'
      simp only [Option.some.injEq] at hd'
      subst hd'
      refine ⟨pre.length, hidx, ?_⟩
      rw [hruns, TubeVector.scanned, hdrop]
      rfl

theorem Box1.sliceInvert_within (y : Box1) (s : TubeSlice Box1) (d a : Interval)
    (h : Box1.sliceInvert s y d = some a) : s.domain.lb ≤ a.lb ∧ a.ub ≤ s.domain.ub := by
  simp only [Box1.sliceInvert, Interval.inter] at h
  split_ifs at h with h1 h2
  simp only [Option.some.injEq] at h
  subst h
  exact ⟨le_max_right _ _, min_le_right _ _⟩

/-- Witness for C22: the four-slice chain inverted for `y = [0, 1]` over `[0, 8]`, the
vector holding one stale entry before the call. -/
theorem C22_invertVector_windows_witness :
    ∃ v, windowChain.invertVector Box1.sliceInvert (Box1.bounded 0 1) [some ⟨7, 9⟩]
        (some ⟨0, 8⟩) = .ok v ∧
      (∀ e ∈ v, e.isSome = true) ∧ v.Pairwise Interval.before ∧
      (Interval.interOpt (some ⟨0, 8⟩) windowChain.domain = none → v = []) ∧
      ∀ d, Interval.interOpt (some ⟨0, 8⟩) windowChain.domain = some d →
        ∃ i, windowChain.input2index d.lb = .ok i ∧
          v = TubeVector.invertWindowsSpec
            ((windowChain.scanned d i).map (fun s => Box1.sliceInvert s (Box1.bounded 0 1) d)) :=
  C22_invertVector_windows Box1.sliceInvert windowChain (Box1.bounded 0 1) [some ⟨7, 9⟩]
    (some ⟨0, 8⟩) (fun s d a h => Box1.sliceInvert_within (Box1.bounded 0 1) s d a h)
    windowChain_wellFormed rfl

/-- The windows of the example as the specification words them: the local inversions
`[0, 2]`, empty, `[4, 6]`, `[6, 8]` give `[0, 2]` and `[4, 8]`. -/
theorem invertWindowsSpec_example :
    TubeVector.invertWindowsSpec [some ⟨0, 2⟩, none, some ⟨4, 6⟩, some ⟨6, 8⟩]
      = [some ⟨0, 2⟩, some ⟨4, 8⟩] := by
  decide!

/-! ## Evaluation over an interval -/

/-- C23 fails on the code: for a non-empty `t` that does not meet `domain()`, `eval(t)`
does not return the pair of empty boxes: the test made before the walk is
`t.is_empty()`, not `intersection.is_empty()`, so the lookup
`getSlice(intersection.lb())` is made on the empty intersection and fails its domain
check. -/
theorem C23_eval_disjoint_interval_fails [SemilatticeSup β] [OrderBot β]
    (TubeSlice_eval : TubeSlice β → Interval → β × β) (x : TubeVector β) (t : Interval)
    (h : Interval.inter t x.domain = none) :
    x.eval TubeSlice_eval (some t) = .error .DomainException ∧
      x.eval TubeSlice_eval (some t) ≠ .ok (⊥, ⊥) := by
  have he : x.eval TubeSlice_eval (some t) = .error .DomainException := by
    unfold TubeVector.eval
    dsimp only [Interval.interOpt]
    rw [h]
  rw [he]
  exact ⟨rfl, fun h' => Except.noConfusion h'⟩

/-- Witness for C23: the running example over `[0, 10]`, evaluated over `[20, 30]`. -/
theorem C23_eval_disjoint_interval_fails_witness :
    exampleChain.eval (fun s _ => (s.codomain, s.codomain)) (some ⟨20, 30⟩)
        = .error .DomainException ∧
      exampleChain.eval (fun s _ => (s.codomain, s.codomain)) (some ⟨20, 30⟩)
        ≠ .ok (⊥, ⊥) :=
  C23_eval_disjoint_interval_fails (fun s _ => (s.codomain, s.codomain)) exampleChain
    ⟨20, 30⟩ (by decide!)

/-- The sibling `invert` tests the intersection: on the same arguments it answers with
the empty interval. -/
theorem invert_disjoint_example :
    exampleChain.invert Box1.sliceInvert (Box1.bounded 0 1) (some ⟨20, 30⟩) = .ok none := by
  decide!

/-! ## Bisection -/

/-- On a well-formed chain, for `t` in `domain()`, `set(y, t)` does not return a chain:
either the dimension check fails or the calls nest without end. -/
theorem TubeVector.setTime_not_ok [BoxOps β] (fuel : ℕ) (x : TubeVector β) (y : β) (t : ℚ)
    (hwf : x.WellFormed) (ht : x.domain.lb ≤ t ∧ t ≤ x.domain.ub) :
    TubeVector.setTime fuel x y t = none ∨
      TubeVector.setTime fuel x y t = some (.error .DimensionException) := by
  by_cases hy : BoxOps.size y = x.dim
  · exact Or.inl (TubeVector.setTime_sampleGate_none y t fuel x hwf ht hy).1
  · cases fuel with
    | zero => left; rw [TubeVector.setTime]
    | succ n => right; rw [TubeVector.setTime]; simp [DimensionException.checkBox, hy]

/-- On a well-formed chain, for `t` in `domain()`: `bisect` reads the box `(*this)[t]`
of the slice found at `t`, hands it to the bisector, and calls `set` on a copy. -/
theorem TubeVector.bisect_of_mem [BoxOps β] (LargestFirst_bisect : ℚ → β → Option (β × β))
    (x : TubeVector β) (t : ℚ) (hwf : x.WellFormed)
    (ht : x.domain.lb ≤ t ∧ t ≤ x.domain.ub) :
    ∃ box, x.operatorBracketTime t = .ok box ∧ ∀ (fuel : ℕ) (ratio : ℚ),
      (LargestFirst_bisect ratio box = none →
        TubeVector.bisect LargestFirst_bisect fuel x t ratio
          = some (.error .NotBisectable)) ∧
      ∀ p, LargestFirst_bisect ratio box = some p →
        (TubeVector.setTime fuel x p.1 t = none →
          TubeVector.bisect LargestFirst_bisect fuel x t ratio = none) ∧
        (TubeVector.setTime fuel x p.1 t = some (.error .DimensionException) →
          TubeVector.bisect LargestFirst_bisect fuel x t ratio
            = some (.error .DimensionException)) := by
  have hcheck : DomainException.check x t = .ok () := by simp [DomainException.check, ht]
  obtain ⟨pre, s, post, -, -, hget, -, -⟩ := x.lookup t hwf ht
  have hob : x.operatorBracketTime t = .ok (s.operatorBracket t) := by
    simp [TubeVector.operatorBracketTime, hcheck, hget]
  refine ⟨_, hob, fun fuel ratio => ⟨fun hnone => ?_, fun p hp => ⟨fun h1 => ?_, fun h1 => ?_⟩⟩⟩
  · simp [TubeVector.bisect, hcheck, TubeVector.copy, TubeVector.assign_eq, hob, hnone]
  · simp [TubeVector.bisect, hcheck, TubeVector.copy, TubeVector.assign_eq, hob, hp, h1]
  · simp [TubeVector.bisect, hcheck, TubeVector.copy, TubeVector.assign_eq, hob, hp, h1]

/-- On a well-formed chain, for `t` in `domain()`, when the bisector cuts the box
`(*this)[t]` into two boxes of the chain's dimension, `bisect(t, ratio)` does not
return, whatever the number of nested calls allowed: its call
`p.first.set(p_codomain.first, t)` never returns. -/
theorem TubeVector.bisect_none [BoxOps β]
    (LargestFirst_bisect : ℚ → β → Option (β × β)) (x : TubeVector β) (t ratio : ℚ)
    (b : β) (p : β × β) (hwf : x.WellFormed) (ht : x.domain.lb ≤ t ∧ t ≤ x.domain.ub)
    (hb : x.operatorBracketTime t = .ok b) (hp : LargestFirst_bisect ratio b = some p)
    (hdim : BoxOps.size p.1 = x.dim) :
    ∀ fuel : ℕ, TubeVector.bisect LargestFirst_bisect fuel x t ratio = none := by
  intro fuel
  obtain ⟨box, hbox, hbis⟩ := TubeVector.bisect_of_mem LargestFirst_bisect x t hwf ht
  rw [hb] at hbox
  simp only [Except.ok.injEq] at hbox
  subst hbox
  exact ((hbis fuel ratio).2 p hp).1 (TubeVector.setTime_sampleGate_none p.1 t fuel x hwf ht hdim).1

/-- C24 fails on the code: on the one-slice chain over `[0, 10]` with the envelope
`[0, 10]`, for `t = 5` and ratio `1/2`, the box at `t` is `[0, 10]` and the bisector cuts
it into `[0, 5]` and `[5, 10]`, but `bisect(5, 1/2)` does not return, whatever the number
of nested calls allowed: its call `p.first.set(p_codomain.first, t)` never returns. -/
theorem C24_bisect_never_returns :
    wideChain.operatorBracketTime 5 = .ok (Box1.bounded 0 10) ∧
    Box1.bisect (1 / 2) (Box1.bounded 0 10) = some (Box1.bounded 0 5, Box1.bounded 5 10) ∧
    ∀ fuel : ℕ, TubeVector.bisect Box1.bisect fuel wideChain 5 (1 / 2) = none :=
  ⟨by decide!, by decide!,
    TubeVector.bisect_none Box1.bisect wideChain 5 (1 / 2) (Box1.bounded 0 10)
      (Box1.bounded 0 5, Box1.bounded 5 10) wideChain_wellFormed (by decide!) (by decide!)
      (by decide!) rfl⟩

/-- C25 fails on the code: on a well-formed chain `bisect(t, ratio)` returns no pair of
chains, for any `t`, any ratio, any bisector and any number of nested calls allowed:
either it is still running, its call of `set` never returning, or it has failed. -/
theorem C25_bisect_returns_no_pair [BoxOps β]
    (LargestFirst_bisect : ℚ → β → Option (β × β)) (fuel : ℕ) (x : TubeVector β)
    (t ratio : ℚ) (hwf : x.WellFormed) :
    TubeVector.bisect LargestFirst_bisect fuel x t ratio = none ∨
      ∃ e, TubeVector.bisect LargestFirst_bisect fuel x t ratio = some (.error e) := by
  by_cases ht : x.domain.lb ≤ t ∧ t ≤ x.domain.ub
  · obtain ⟨box, -, hbis⟩ := TubeVector.bisect_of_mem LargestFirst_bisect x t hwf ht
    cases hp : LargestFirst_bisect ratio box with
    | none => exact Or.inr ⟨_, (hbis fuel ratio).1 hp⟩
    | some p =>
      rcases TubeVector.setTime_not_ok fuel x p.1 t hwf ht with h | h
      · exact Or.inl (((hbis fuel ratio).2 p hp).1 h)
      · exact Or.inr ⟨_, ((hbis fuel ratio).2 p hp).2 h⟩
  · exact Or.inr ⟨.DomainException, by simp [TubeVector.bisect, DomainException.check, ht]⟩

/-- Witness for C25: the one-slice chain over `[0, 10]`, `t = 5`, ratio `1/2`, a hundred
nested calls allowed. -/
theorem C25_bisect_returns_no_pair_witness :
    TubeVector.bisect Box1.bisect 100 wideChain 5 (1 / 2) = none ∨
      ∃ e, TubeVector.bisect Box1.bisect 100 wideChain 5 (1 / 2) = some (.error e) :=
  C25_bisect_returns_no_pair Box1.bisect 100 wideChain 5 (1 / 2) wideChain_wellFormed

/-- C26: on a well-formed chain, `bisect(t, ratio)` fails with a domain error when `t`
is outside `domain()`; for `t` in `domain()` it fails with the "not bisectable" error
exactly when the bisector finds nothing to cut in the box `(*this)[t]`. The result of
a failing call is the error alone. -/
theorem C26_bisect_errors [BoxOps β]
    (LargestFirst_bisect : ℚ → β → Option (β × β)) (x : TubeVector β) (t ratio : ℚ)
    (hwf : x.WellFormed) :
    (¬(x.domain.lb ≤ t ∧ t ≤ x.domain.ub) →
      ∀ fuel : ℕ, TubeVector.bisect LargestFirst_bisect fuel x t ratio
        = some (.error .DomainException)) ∧
    (x.domain.lb ≤ t ∧ t ≤ x.domain.ub →
      ∃ box, x.operatorBracketTime t = .ok box ∧ ∀ fuel : ℕ,
        (TubeVector.bisect LargestFirst_bisect fuel x t ratio
            = some (.error .NotBisectable) ↔
          LargestFirst_bisect ratio box = none)) := by
  refine ⟨fun ht fuel => by simp [TubeVector.bisect, DomainException.check, ht], fun ht => ?_⟩
  obtain ⟨box, hbox, hbis⟩ := TubeVector.bisect_of_mem LargestFirst_bisect x t hwf ht
  refine ⟨box, hbox, fun fuel => ⟨fun h => ?_, (hbis fuel ratio).1⟩⟩
  cases hp : LargestFirst_bisect ratio box with
  | none => rfl
  | some p =>
    exfalso
    rcases TubeVector.setTime_not_ok fuel x p.1 t hwf ht with h1 | h1
    · rw [((hbis fuel ratio).2 p hp).1 h1] at h; simp at h
    · rw [((hbis fuel ratio).2 p hp).2 h1] at h; simp at h

theorem pointChain_wellFormed : pointChain.WellFormed := by
  refine ⟨by decide, ?_, ?_⟩
  · intro s hs
    simp only [pointChain, List.mem_singleton] at hs
    subst hs
    norm_num
  · simp [pointChain]

/-- Witness for C26: the one-slice chain over `[0, 10]` holding the degenerate box
`[3, 3]`, `t = 5`, ratio `1/2`. -/
theorem C26_bisect_errors_witness :
    (¬(pointChain.domain.lb ≤ 5 ∧ (5 : ℚ) ≤ pointChain.domain.ub) →
      ∀ fuel : ℕ, TubeVector.bisect Box1.bisect fuel pointChain 5 (1 / 2)
        = some (.error .DomainException)) ∧
    (pointChain.domain.lb ≤ 5 ∧ (5 : ℚ) ≤ pointChain.domain.ub →
      ∃ box, pointChain.operatorBracketTime 5 = .ok box ∧ ∀ fuel : ℕ,
        (TubeVector.bisect Box1.bisect fuel pointChain 5 (1 / 2)
            = some (.error .NotBisectable) ↔
          Box1.bisect (1 / 2) box = none)) :=
  C26_bisect_errors Box1.bisect pointChain 5 (1 / 2) pointChain_wellFormed

/-- The two failures of `bisect` on examples: the degenerate box `[3, 3]` is not
bisectable, and the time `11` is outside `[0, 10]`. -/
theorem bisect_example :
    TubeVector.bisect Box1.bisect 0 pointChain 5 (1 / 2) = some (.error .NotBisectable) ∧
    TubeVector.bisect Box1.bisect 0 wideChain 11 (1 / 2) = some (.error .DomainException) := by
  decide!

/-! ## Compound assignment operators -/

theorem Tube.scalarLoop_length (f : β → β → β) (x : β) :
    ∀ (rest : List (TubeSlice β)) (s : TubeSlice β),
      (Tube.scalarLoop f x s rest).length = rest.length + 1
  | [], _ => rfl
  | next :: rest, _ => by
    rw [Tube.scalarLoop, List.length_cons, Tube.scalarLoop_length f x rest next,
      List.length_cons]

/-- The scalar loop slice by slice: envelope and input gate are combined with `x`, the
output gate of the last slice too, the output gates of the other slices are kept. -/
theorem Tube.scalarLoop_getElem (f : β → β → β) (x : β) :
    ∀ (rest : List (TubeSlice β)) (s : TubeSlice β) (i : ℕ) (q : TubeSlice β),
      (s :: rest)[i]? = some q →
      ∃ q', (Tube.scalarLoop f x s rest)[i]? = some q' ∧ q'.domain = q.domain ∧
        q'.dim = q.dim ∧ q'.codomain = f q.codomain x ∧ q'.inputGate = f q.inputGate x ∧
        (i = rest.length → q'.outputGate = f q.outputGate x) ∧
        (i < rest.length → q'.outputGate = q.outputGate)
  | [], s, 0, q, h => by
    simp only [List.getElem?_cons_zero, Option.some.injEq] at h
    subst h
    exact ⟨_, rfl, rfl, rfl, rfl, rfl, fun _ => rfl, fun h => absurd h (by simp)⟩
  | [], s, i + 1, q, h => by simp at h
  | next :: rest, s, 0, q, h => by
    simp only [List.getElem?_cons_zero, Option.some.injEq] at h
    subst h
    exact ⟨Tube.updateSlice f s x x, by rw [Tube.scalarLoop, List.getElem?_cons_zero],
      rfl, rfl, rfl, rfl, fun h => absurd h (by simp), fun _ => rfl⟩
  | next :: rest, s, i + 1, q, h => by
    rw [List.getElem?_cons_succ] at h
    obtain ⟨q', h1, h2, h3, h4, h5, h6, h7⟩ := Tube.scalarLoop_getElem f x rest next i q h
    refine ⟨q', ?_, h2, h3, h4, h5, fun hi => h6 ?_, fun hi => h7 ?_⟩
    · rw [Tube.scalarLoop, List.getElem?_cons_succ]; exact h1
    · simpa using hi
    · simpa using hi

/-- C27: a compound operator `f` applied to a chain with at least one slice and a scalar
`x` returns a chain with the same slices in which every envelope is `f` of the old
envelope and `x`, every input gate is `f` of the old input gate and `x`, and the output
gate of the last slice is `f` of its old output gate and `x`. -/
theorem C27_assignScalar_values (f : β → β → β) (a : TubeVector β) (x : β)
    (hpos : 0 < a.nbSlices) :
    ∃ r, Tube.assignScalar f a x = .ok r ∧ r.nbSlices = a.nbSlices ∧
      ∀ (i : ℕ) (s : TubeSlice β), a.m_v_slices[i]? = some s →
        ∃ s', r.m_v_slices[i]? = some s' ∧ s'.domain = s.domain ∧
          s'.codomain = f s.codomain x ∧ s'.inputGate = f s.inputGate x ∧
          (i + 1 = a.nbSlices → s'.outputGate = f s.outputGate x) := by
  obtain ⟨l⟩ := a
  cases l with
  | nil => simp [TubeVector.nbSlices] at hpos
  | cons first rest =>
    refine ⟨⟨Tube.scalarLoop f x first rest⟩, rfl, ?_, ?_⟩
    · simp [TubeVector.nbSlices, Tube.scalarLoop_length]
    · intro i s hs
      obtain ⟨q', h1, h2, -, h4, h5, h6, -⟩ := Tube.scalarLoop_getElem f x rest first i s hs
      refine ⟨q', h1, h2, h4, h5, fun hi => h6 ?_⟩
      simpa [TubeVector.nbSlices] using hi

/-- Witness for C27: `+=` with the scalar `[1, 1]` on the two-slice chain whose envelopes
and gates are `[0, 1]`. -/
theorem C27_assignScalar_values_witness :
    ∃ r, Tube.assignScalar Box1.add flatChain (Box1.bounded 1 1) = .ok r ∧
      r.nbSlices = flatChain.nbSlices ∧
      ∀ (i : ℕ) (s : TubeSlice Box1), flatChain.m_v_slices[i]? = some s →
        ∃ s', r.m_v_slices[i]? = some s' ∧ s'.domain = s.domain ∧
          s'.codomain = Box1.add s.codomain (Box1.bounded 1 1) ∧
          s'.inputGate = Box1.add s.inputGate (Box1.bounded 1 1) ∧
          (i + 1 = flatChain.nbSlices →
            s'.outputGate = Box1.add s.outputGate (Box1.bounded 1 1)) :=
  C27_assignScalar_values Box1.add flatChain (Box1.bounded 1 1) (by decide)

/-- The example above, evaluated: every envelope and input gate becomes `[1, 2]`, and so
does the output gate of the last slice. -/
theorem assignScalar_example :
    Tube.assignScalar Box1.add flatChain (Box1.bounded 1 1) = .ok
      ⟨[{ domain := ⟨0, 2⟩, codomain := .bounded 1 2, inputGate := .bounded 1 2,
          outputGate := .bounded 0 1, dim := 1 },
        { domain := ⟨2, 4⟩, codomain := .bounded 1 2, inputGate := .bounded 1 2,
          outputGate := .bounded 1 2, dim := 1 }]⟩ := by
  decide!

/-- The queries of a well-formed chain at one of its own slices: over the domain of the
slice the range query answers with its envelope, at the lower bound the point query
answers with its input gate, and at the upper bound of the last slice with its output
gate. -/
theorem TubeVector.query_own_slice [SemilatticeSup β] [OrderBot β] (x : TubeVector β)
    (hwf : x.WellFormed) {pre post : List (TubeSlice β)} {s : TubeSlice β}
    (hdec : x.m_v_slices = pre ++ s :: post) :
    x.operatorBracketInterval s.domain = .ok s.codomain ∧
    x.operatorBracketTime s.domain.lb = .ok s.inputGate ∧
    (post = [] → x.operatorBracketTime s.domain.ub = .ok s.outputGate) := by
  have hnd : s.domain.lb < s.domain.ub := hwf.2.1 s (by rw [hdec]; simp)
  obtain ⟨hlb, hub⟩ := x.slice_within_domain hwf hdec
  obtain ⟨hpre, hpost⟩ := TubeVector.bounds_of_append (by rw [← hdec]; exact hwf.2.2)
    (by rw [← hdec]; exact hwf.2.1)
  refine ⟨?_, ?_, ?_⟩
  · rw [x.operatorBracketInterval_eq s.domain hwf hnd ⟨hlb, hub⟩, hdec, List.filter_append,
      List.filter_cons, if_pos (by simpa using hnd),
      List.filter_eq_nil_iff.mpr (fun p hp => by
        have := hpre p hp
        simp only [decide_eq_true_eq, not_and, not_lt]
        intro _; exact this),
      List.filter_eq_nil_iff.mpr (fun q hq => by
        have := hpost q hq
        simp only [decide_eq_true_eq, not_and, not_lt]
        intro h; linarith)]
    simp
  · have hidx := x.input2index_of_append s.domain.lb hwf hdec le_rfl hnd
    have hcheck : DomainException.check x s.domain.lb = .ok () := by
      simp [DomainException.check, hlb, (by linarith : s.domain.lb ≤ x.domain.ub)]
    simp [TubeVector.operatorBracketTime, TubeVector.getSlice, hcheck, hidx,
      x.getSliceAt_of_append hdec, TubeSlice.operatorBracket]
  · intro hnil
    subst hnil
    obtain ⟨first, last, -, hl, hdom⟩ := x.exists_first_last hwf.1
    rw [hdec] at hl
    simp only [List.getLast?_append, List.getLast?_singleton, Option.or,
      Option.some.injEq] at hl
    subst hl
    have hdomub : x.domain.ub = s.domain.ub := by rw [hdom]
    have hidx := x.input2index_ub hwf
    rw [hdomub] at hidx
    have hlen : x.nbSlices - 1 = pre.length := by simp [TubeVector.nbSlices, hdec]
    rw [hlen] at hidx
    have hcheck : DomainException.check x s.domain.ub = .ok () := by
      simp [DomainException.check, hub, (by linarith : x.domain.lb ≤ s.domain.ub)]
    simp [TubeVector.operatorBracketTime, TubeVector.getSlice, hcheck, hidx,
      x.getSliceAt_of_append hdec, TubeSlice.operatorBracket, hnd.ne']

/-- On identical slicings the loop that queries the right-hand chain by time and the
lockstep loop return the same slices. -/
theorem Tube.queryLoop_eq_lockstepLoop [SemilatticeSup β] [OrderBot β] (f : β → β → β)
    (x : TubeVector β) (hwf : x.WellFormed) :
    ∀ (rest : List (TubeSlice β)) (s s_x : TubeSlice β)
      (rest_x pre_x : List (TubeSlice β)),
      x.m_v_slices = pre_x ++ s_x :: rest_x →
      (s :: rest).map (fun q => q.domain) = (s_x :: rest_x).map (fun q => q.domain) →
      ∃ r, Tube.lockstepLoop f s rest s_x rest_x = .ok r ∧
        Tube.queryLoop f x s rest = .ok r
  | [], s, s_x, rest_x, pre_x, hdec, hmap => by
    simp only [List.map_cons, List.map_nil, List.cons.injEq, List.nil_eq,
      List.map_eq_nil_iff] at hmap
    obtain ⟨hd, hnil⟩ := hmap
    subst hnil
    obtain ⟨h1, h2, h3⟩ := x.query_own_slice hwf hdec
    refine ⟨_, by rw [Tube.lockstepLoop], ?_⟩
    have hd' : (Tube.updateSlice f s s_x.codomain s_x.inputGate).domain = s_x.domain := hd
    rw [Tube.queryLoop]
    simp only [hd, h1, h2, hd', h3 rfl]
  | next :: rest, s, s_x, [], pre_x, hdec, hmap => by simp at hmap
  | next :: rest, s, s_x, next_x :: rest_x, pre_x, hdec, hmap => by
    simp only [List.map_cons, List.cons.injEq] at hmap
    obtain ⟨hd, hd2, hrest⟩ := hmap
    obtain ⟨h1, h2, -⟩ := x.query_own_slice hwf hdec
    obtain ⟨r, hr1, hr2⟩ := Tube.queryLoop_eq_lockstepLoop f x hwf rest next next_x rest_x
      (pre_x ++ [s_x]) (by rw [hdec]; simp) (by simp [hd2, hrest])
    refine ⟨Tube.updateSlice f s s_x.codomain s_x.inputGate :: r, ?_, ?_⟩
    · rw [Tube.lockstepLoop]; simp only [hr1]
    · rw [Tube.queryLoop]; simp only [hd, h1, h2, hr2]

/-- C28: when the right-hand chain `x` is well-formed and both chains have the same
slicing, the lockstep branch and the branch that queries `x` by time return one and the
same chain: over the domain of slice `i` the query of `x` is the envelope of slice `i`,
at its lower bound it is the input gate of slice `i`, and at the upper bound of the last
slice it is the output gate of the last slice. -/
theorem C28_lockstep_eq_query [SemilatticeSup β] [OrderBot β] (f : β → β → β)
    (a x : TubeVector β) (hwf : x.WellFormed) (hsame : Tube.same_slicing a x = true) :
    (∃ r, Tube.assignTubeLockstep f a x = .ok r ∧ Tube.assignTubeQuery f a x = .ok r) ∧
    ∀ (i : ℕ) (s_x : TubeSlice β), x.m_v_slices[i]? = some s_x →
      x.operatorBracketInterval s_x.domain = .ok s_x.codomain ∧
      x.operatorBracketTime s_x.domain.lb = .ok s_x.inputGate ∧
      (i + 1 = x.nbSlices → x.operatorBracketTime s_x.domain.ub = .ok s_x.outputGate) := by
  constructor
  · have hmap := (of_decide_eq_true hsame).2
    obtain ⟨la⟩ := a
    obtain ⟨lx⟩ := x
    cases lx with
    | nil => exact absurd hwf.1 (by simp [TubeVector.nbSlices])
    | cons first_x rest_x =>
      cases la with
      | nil => simp at hmap
      | cons first rest =>
        obtain ⟨r, hr1, hr2⟩ := Tube.queryLoop_eq_lockstepLoop f ⟨first_x :: rest_x⟩ hwf rest
          first first_x rest_x [] rfl hmap
        exact ⟨⟨r⟩, by simp only [Tube.assignTubeLockstep, hr1],
          by simp only [Tube.assignTubeQuery, hr2]⟩
  · intro i s_x hs
    obtain ⟨hdec, hlen⟩ := TubeVector.decomp_of_getElem? hs
    obtain ⟨h1, h2, h3⟩ := x.query_own_slice hwf hdec
    refine ⟨h1, h2, fun hi => h3 ?_⟩
    apply List.drop_eq_nil_of_le
    simp only [TubeVector.nbSlices] at hi
    omega

/-- Witness for C28: `|=` between the two chains over `[0, 2]`, `[2, 4]`. -/
theorem C28_lockstep_eq_query_witness :
    (∃ r, Tube.assignTubeLockstep Box1.hull flatChain twoSliceChain = .ok r ∧
      Tube.assignTubeQuery Box1.hull flatChain twoSliceChain = .ok r) ∧
    ∀ (i : ℕ) (s_x : TubeSlice Box1), twoSliceChain.m_v_slices[i]? = some s_x →
      twoSliceChain.operatorBracketInterval s_x.domain = .ok s_x.codomain ∧
      twoSliceChain.operatorBracketTime s_x.domain.lb = .ok s_x.inputGate ∧
      (i + 1 = twoSliceChain.nbSlices →
        twoSliceChain.operatorBracketTime s_x.domain.ub = .ok s_x.outputGate) :=
  C28_lockstep_eq_query Box1.hull flatChain twoSliceChain twoSliceChain_wellFormed
    (by decide!)

/-- On a well-formed chain the point query answers at every time of `domain()`. -/
theorem TubeVector.operatorBracketTime_ok (x : TubeVector β) (t : ℚ) (hwf : x.WellFormed)
    (ht : x.domain.lb ≤ t ∧ t ≤ x.domain.ub) : ∃ b, x.operatorBracketTime t = .ok b := by
  have hcheck : DomainException.check x t = .ok () := by simp [DomainException.check, ht]
  obtain ⟨pre, s, post, -, -, hget, -, -⟩ := x.lookup t hwf ht
  exact ⟨s.operatorBracket t, by simp [TubeVector.operatorBracketTime, hcheck, hget]⟩

/-- The loop that queries the right-hand chain by time completes when every slice it
walks lies inside the domain of that chain. -/
theorem Tube.queryLoop_ok [SemilatticeSup β] [OrderBot β] (f : β → β → β)
    (x : TubeVector β) (hwf : x.WellFormed) :
    ∀ (rest : List (TubeSlice β)) (s : TubeSlice β),
      (∀ q ∈ s :: rest, q.domain.lb < q.domain.ub ∧ x.domain.lb ≤ q.domain.lb ∧
        q.domain.ub ≤ x.domain.ub) →
      ∃ r, Tube.queryLoop f x s rest = .ok r
  | [], s, h => by
    obtain ⟨hnd, hlb, hub⟩ := h s (by simp)
    have h1 := x.operatorBracketInterval_eq s.domain hwf hnd ⟨hlb, hub⟩
    obtain ⟨g, h2⟩ := x.operatorBracketTime_ok s.domain.lb hwf ⟨hlb, by linarith⟩
    obtain ⟨og, h3⟩ := x.operatorBracketTime_ok s.domain.ub hwf ⟨by linarith, hub⟩
    have hd : ∀ e g', (Tube.updateSlice f s e g').domain = s.domain := fun _ _ => rfl
    rw [Tube.queryLoop]
    simp only [h1, h2, hd, h3]
    exact ⟨_, rfl⟩
  | next :: rest, s, h => by
    obtain ⟨hnd, hlb, hub⟩ := h s (by simp)
    have h1 := x.operatorBracketInterval_eq s.domain hwf hnd ⟨hlb, hub⟩
    obtain ⟨g, h2⟩ := x.operatorBracketTime_ok s.domain.lb hwf ⟨hlb, by linarith⟩
    obtain ⟨r, hr⟩ := Tube.queryLoop_ok f x hwf rest next
      (fun q hq => h q (List.mem_cons_of_mem _ hq))
    rw [Tube.queryLoop]
    simp only [h1, h2, hr]
    exact ⟨_, rfl⟩

/-- C30: when the left chain is well-formed and both chains have the same `domain()`,
the domain of every slice of the left chain, its lower bound and its upper bound pass
the domain checks of the right-hand chain `x`; when `x` is well-formed too, every query
answers and the branch that queries `x` by time returns a chain. -/
theorem C30_query_arguments_in_domain [SemilatticeSup β] [OrderBot β] (f : β → β → β)
    (a x : TubeVector β) (hwf : a.WellFormed) (hdom : a.domain = x.domain) :
    (∀ s ∈ a.m_v_slices,
      DomainException.checkInterval x s.domain = .ok () ∧
      DomainException.check x s.domain.lb = .ok () ∧
      DomainException.check x s.domain.ub = .ok ()) ∧
    (x.WellFormed → ∃ r, Tube.assignTubeQuery f a x = .ok r) := by
  have hin : ∀ s ∈ a.m_v_slices, s.domain.lb < s.domain.ub ∧ x.domain.lb ≤ s.domain.lb ∧
      s.domain.ub ≤ x.domain.ub := by
    intro s hs
    obtain ⟨pre, post, hdec⟩ := List.append_of_mem hs
    obtain ⟨hlb, hub⟩ := a.slice_within_domain hwf hdec
    rw [hdom] at hlb hub
    exact ⟨hwf.2.1 s hs, hlb, hub⟩
  constructor
  · intro s hs
    obtain ⟨hnd, hlb, hub⟩ := hin s hs
    have h1 : s.domain.lb ≤ x.domain.ub := by linarith
    have h2 : x.domain.lb ≤ s.domain.ub := by linarith
    simp [DomainException.checkInterval, DomainException.check, hnd.le, hlb, hub, h1, h2]
  · intro hwfx
    obtain ⟨l⟩ := a
    cases l with
    | nil => exact absurd hwf.1 (by simp [TubeVector.nbSlices])
    | cons first rest =>
      obtain ⟨r, hr⟩ := Tube.queryLoop_ok f x hwfx rest first hin
      exact ⟨⟨r⟩, by simp only [Tube.assignTubeQuery, hr]⟩

/-- Witness for C30: the one-slice chain over `[0, 10]` combined by `|=` with the
five-slice chain over `[0, 10]`. -/
theorem C30_query_arguments_in_domain_witness :
    (∀ s ∈ wideChain.m_v_slices,
      DomainException.checkInterval exampleChain s.domain = .ok () ∧
      DomainException.check exampleChain s.domain.lb = .ok () ∧
      DomainException.check exampleChain s.domain.ub = .ok ()) ∧
    (exampleChain.WellFormed → ∃ r, Tube.assignTubeQuery Box1.hull wideChain exampleChain = .ok r) :=
  C30_query_arguments_in_domain Box1.hull wideChain exampleChain wideChain_wellFormed
    (by decide!)

/-- The example above, evaluated: the slicings differ, so `|=` takes the branch that
queries the right-hand chain, and returns. -/
theorem assignTube_example :
    Tube.same_slicing wideChain exampleChain = false ∧
    Tube.assignTube Box1.hull wideChain exampleChain = .ok
      ⟨[{ domain := ⟨0, 10⟩, codomain := .all, inputGate := .all, outputGate := .all,
          dim := 1 }]⟩ := by
  decide!

/-! ## Monotone lookup -/

/-- C32: on a well-formed chain, for times `t1 ≤ t2` of `domain()`, `input2index`
answers for both with `input2index(t1) ≤ input2index(t2)`, and the domain of the slice
found for a time holds that time. -/
theorem C32_input2index_monotone (x : TubeVector β) (t1 t2 : ℚ) (hwf : x.WellFormed)
    (h1 : x.domain.lb ≤ t1) (h12 : t1 ≤ t2) (h2 : t2 ≤ x.domain.ub) :
    ∃ i1 i2 s1 s2, x.input2index t1 = .ok i1 ∧ x.input2index t2 = .ok i2 ∧ i1 ≤ i2 ∧
      x.m_v_slices[i1]? = some s1 ∧ s1.domain.lb ≤ t1 ∧ t1 ≤ s1.domain.ub ∧
      x.m_v_slices[i2]? = some s2 ∧ s2.domain.lb ≤ t2 ∧ t2 ≤ s2.domain.ub := by
  obtain ⟨pre1, s1, post1, hdec1, hidx1, -, hlb1, hub1⟩ :=
    x.lookup t1 hwf ⟨h1, le_trans h12 h2⟩
  obtain ⟨pre2, s2, post2, hdec2, hidx2, -, hlb2, hub2⟩ :=
    x.lookup t2 hwf ⟨le_trans h1 h12, h2⟩
  obtain ⟨mid, hmid, -⟩ := TubeVector.lookup_mono hwf.2.2 hwf.2.1 hdec1 hdec2 hlb1
    (hub2.imp id (fun h => h.2.1)) h12
  refine ⟨pre1.length, pre2.length, s1, s2, hidx1, hidx2, ?_, ?_, hlb1, ?_, ?_, hlb2, ?_⟩
  · rw [hmid, List.length_append]; omega
  · rw [hdec1]; exact TubeVector.getElem?_append_cons pre1 post1 s1
  · rcases hub1 with h | ⟨h, -, -⟩
    · exact h.le
    · exact h.le
  · rw [hdec2]; exact TubeVector.getElem?_append_cons pre2 post2 s2
  · rcases hub2 with h | ⟨h, -, -⟩
    · exact h.le
    · exact h.le

/-- Witness for C32: times `3` and `10` in the running example are found in slices `1`
and `4`. -/
theorem C32_input2index_monotone_witness :
    ∃ i1 i2 s1 s2, exampleChain.input2index 3 = .ok i1 ∧
      exampleChain.input2index 10 = .ok i2 ∧ i1 ≤ i2 ∧
      exampleChain.m_v_slices[i1]? = some s1 ∧ s1.domain.lb ≤ 3 ∧ 3 ≤ s1.domain.ub ∧
      exampleChain.m_v_slices[i2]? = some s2 ∧ s2.domain.lb ≤ 10 ∧ 10 ≤ s2.domain.ub :=
  C32_input2index_monotone exampleChain 3 10 exampleChain_wellFormed (by decide!)
    (by norm_num) (by decide!)

/-- The lookups of the example above. -/
theorem input2index_example :
    exampleChain.input2index 3 = .ok 1 ∧ exampleChain.input2index 10 = .ok 4 := by
  decide!

/-! ## The compound operators keep the slicing -/

theorem Tube.scalarLoop_slicing (f : β → β → β) (x : β) :
    ∀ (rest : List (TubeSlice β)) (s : TubeSlice β),
      (Tube.scalarLoop f x s rest).map (fun q => q.domain)
        = (s :: rest).map (fun q => q.domain)
  | [], _ => rfl
  | next :: rest, s => by
    rw [Tube.scalarLoop, List.map_cons, Tube.scalarLoop_slicing f x rest next]
    rfl

theorem Tube.trajectoryLoop_slicing (f : β → β → β) (x : Interval → β) :
    ∀ (rest : List (TubeSlice β)) (s : TubeSlice β),
      (Tube.trajectoryLoop f x s rest).map (fun q => q.domain)
        = (s :: rest).map (fun q => q.domain)
  | [], _ => rfl
  | next :: rest, s => by
    rw [Tube.trajectoryLoop, List.map_cons, Tube.trajectoryLoop_slicing f x rest next]
    rfl

theorem Tube.lockstepLoop_slicing (f : β → β → β) :
    ∀ (rest : List (TubeSlice β)) (s s_x : TubeSlice β) (rest_x r : List (TubeSlice β)),
      Tube.lockstepLoop f s rest s_x rest_x = .ok r →
      r.map (fun q => q.domain) = (s :: rest).map (fun q => q.domain)
  | [], s, s_x, rest_x, r, h => by
    rw [Tube.lockstepLoop] at h
    simp only [Except.ok.injEq] at h
    subst h
    rfl
  | next :: rest, s, s_x, [], r, h => by
    rw [Tube.lockstepLoop] at h
    exact Except.noConfusion h
  | next :: rest, s, s_x, next_x :: rest_x, r, h => by
    rw [Tube.lockstepLoop] at h
    cases hrec : Tube.lockstepLoop f next rest next_x rest_x with
    | error e => rw [hrec] at h; exact Except.noConfusion h
    | ok slices =>
      rw [hrec] at h
      simp only [Except.ok.injEq] at h
      subst h
      rw [List.map_cons, Tube.lockstepLoop_slicing f rest next next_x rest_x slices hrec]
      rfl

theorem Tube.queryLoop_slicing [SemilatticeSup β] [OrderBot β] (f : β → β → β)
    (x : TubeVector β) :
    ∀ (rest : List (TubeSlice β)) (s : TubeSlice β) (r : List (TubeSlice β)),
      Tube.queryLoop f x s rest = .ok r →
      r.map (fun q => q.domain) = (s :: rest).map (fun q => q.domain)
  | [], s, r, h => by
    rw [Tube.queryLoop] at h
    cases h1 : x.operatorBracketInterval s.domain with
    | error e => rw [h1] at h; exact Except.noConfusion h
    | ok envelope =>
      cases h2 : x.operatorBracketTime s.domain.lb with
      | error e => rw [h1, h2] at h; exact Except.noConfusion h
      | ok gate =>
        rw [h1, h2] at h
        dsimp only at h
        cases h3 : x.operatorBracketTime (Tube.updateSlice f s envelope gate).domain.ub with
        | error e => rw [h3] at h; exact Except.noConfusion h
        | ok output_gate =>
          rw [h3] at h
          simp only [Except.ok.injEq] at h
          subst h
          rfl
  | next :: rest, s, r, h => by
    rw [Tube.queryLoop] at h
    cases h1 : x.operatorBracketInterval s.domain with
    | error e => rw [h1] at h; exact Except.noConfusion h
    | ok envelope =>
      cases h2 : x.operatorBracketTime s.domain.lb with
      | error e => rw [h1, h2] at h; exact Except.noConfusion h
      | ok gate =>
        cases hrec : Tube.queryLoop f x next rest with
        | error e => rw [h1, h2, hrec] at h; exact Except.noConfusion h
        | ok slices =>
          rw [h1, h2, hrec] at h
          simp only [Except.ok.injEq] at h
          subst h
          rw [List.map_cons, Tube.queryLoop_slicing f x rest next slices hrec]
          rfl

/-- A chain with the slicing of a well-formed chain is well-formed. -/
theorem TubeVector.wellFormed_of_slicing {r a : TubeVector β} (h : r.slicing = a.slicing)
    (hwf : a.WellFormed) : r.WellFormed := by
  simp only [TubeVector.slicing] at h
  obtain ⟨hpos, hnd, hc⟩ := hwf
  refine ⟨?_, ?_, ?_⟩
  · have := congrArg List.length h
    simp only [List.length_map] at this
    simp only [TubeVector.nbSlices] at hpos ⊢
    omega
  · intro s hs
    have hmem : s.domain ∈ a.m_v_slices.map (fun q => q.domain) := by
      rw [← h]; exact List.mem_map_of_mem _ hs
    obtain ⟨q, hq, hqd⟩ := List.mem_map.mp hmem
    have := hnd q hq
    rw [hqd] at this
    exact this
  · have hc' : (a.m_v_slices.map (fun q => q.domain)).Chain' (fun d e => d.ub = e.lb) :=
      (List.chain'_map _).mpr hc
    rw [← h] at hc'
    exact (List.chain'_map _).mp hc'

/-- A chain with the slicing of another chain has its `domain()`. -/
theorem TubeVector.domain_of_slicing {r a : TubeVector β} (h : r.slicing = a.slicing) :
    r.domain = a.domain := by
  simp only [TubeVector.slicing] at h
  have hh : r.m_v_slices.head?.map (fun q => q.domain)
      = a.m_v_slices.head?.map (fun q => q.domain) := by
    rw [← List.head?_map, ← List.head?_map, h]
  have hl : r.m_v_slices.getLast?.map (fun q => q.domain)
      = a.m_v_slices.getLast?.map (fun q => q.domain) := by
    rw [← List.getLast?_map, ← List.getLast?_map, h]
  unfold TubeVector.domain
  cases h1 : r.m_v_slices.head? <;> cases h2 : a.m_v_slices.head? <;>
    cases h3 : r.m_v_slices.getLast? <;> cases h4 : a.m_v_slices.getLast? <;>
    simp_all

/-- What a chain with the slicing of a well-formed chain keeps: slice count,
well-formedness and `domain()`. -/
theorem TubeVector.keeps_of_slicing {r a : TubeVector β} (h : r.slicing = a.slicing)
    (hwf : a.WellFormed) :
    r.slicing = a.slicing ∧ r.nbSlices = a.nbSlices ∧ r.WellFormed ∧ r.domain = a.domain := by
  refine ⟨h, ?_, TubeVector.wellFormed_of_slicing h hwf, TubeVector.domain_of_slicing h⟩
  have := congrArg List.length h
  simpa [TubeVector.slicing, TubeVector.nbSlices] using this

/-- C31: on a well-formed chain each compound operator `f` returns, for a scalar, for a
trajectory over the same domain, and for a well-formed chain over the same domain, a
chain with the same slice domains in the same order, hence the same slice count, the
same `domain()`, and contiguous; and whenever the operator returns for a right-hand
chain, the slice domains are the same. The loops walk the list of slices once. -/
theorem C31_compound_operators_keep_slicing [SemilatticeSup β] [OrderBot β]
    (f : β → β → β) (a : TubeVector β) (hwf : a.WellFormed) :
    (∀ x : β, ∃ r, Tube.assignScalar f a x = .ok r ∧
      r.slicing = a.slicing ∧ r.nbSlices = a.nbSlices ∧ r.WellFormed ∧
        r.domain = a.domain) ∧
    (∀ Trajectory_eval : Interval → β,
      ∃ r, Tube.assignTrajectory f a a.domain Trajectory_eval = .ok r ∧
        r.slicing = a.slicing ∧ r.nbSlices = a.nbSlices ∧ r.WellFormed ∧
          r.domain = a.domain) ∧
    (∀ x : TubeVector β, x.WellFormed → a.domain = x.domain →
      ∃ r, Tube.assignTube f a x = .ok r ∧
        r.slicing = a.slicing ∧ r.nbSlices = a.nbSlices ∧ r.WellFormed ∧
          r.domain = a.domain) ∧
    (∀ (x : TubeVector β) (r : TubeVector β), Tube.assignTube f a x = .ok r →
      r.slicing = a.slicing) := by
  obtain ⟨l⟩ := a
  cases l with
  | nil => exact absurd hwf.1 (by simp [TubeVector.nbSlices])
  | cons first rest =>
    have hlock : ∀ (x r : TubeVector β),
        Tube.assignTubeLockstep f ⟨first :: rest⟩ x = .ok r →
        r.slicing = (⟨first :: rest⟩ : TubeVector β).slicing := by
      intro x r h
      obtain ⟨lx⟩ := x
      cases lx with
      | nil => exact Except.noConfusion h
      | cons first_x rest_x =>
        simp only [Tube.assignTubeLockstep] at h
        cases hrec : Tube.lockstepLoop f first rest first_x rest_x with
        | error e => rw [hrec] at h; exact Except.noConfusion h
        | ok slices =>
          rw [hrec] at h
          simp only [Except.ok.injEq] at h
          subst h
          exact Tube.lockstepLoop_slicing f rest first first_x rest_x slices hrec
    have hquery : ∀ (x r : TubeVector β),
        Tube.assignTubeQuery f ⟨first :: rest⟩ x = .ok r →
        r.slicing = (⟨first :: rest⟩ : TubeVector β).slicing := by
      intro x r h
      simp only [Tube.assignTubeQuery] at h
      cases hrec : Tube.queryLoop f x first rest with
      | error e => rw [hrec] at h; exact Except.noConfusion h
      | ok slices =>
        rw [hrec] at h
        simp only [Except.ok.injEq] at h
        subst h
        exact Tube.queryLoop_slicing f x rest first slices hrec
    have hany : ∀ (x r : TubeVector β), Tube.assignTube f ⟨first :: rest⟩ x = .ok r →
        r.slicing = (⟨first :: rest⟩ : TubeVector β).slicing := by
      intro x r h
      simp only [Tube.assignTube] at h
      split_ifs at h with h1 h2
      · exact hlock x r h
      · exact hquery x r h
    refine ⟨fun x => ?_, fun Trajectory_eval => ?_, fun x hwfx hdom => ?_, hany⟩
    · exact ⟨⟨Tube.scalarLoop f x first rest⟩, rfl,
        TubeVector.keeps_of_slicing (Tube.scalarLoop_slicing f x rest first) hwf⟩
    · exact ⟨⟨Tube.trajectoryLoop f Trajectory_eval first rest⟩,
        by simp only [Tube.assignTrajectory, if_true],
        TubeVector.keeps_of_slicing (Tube.trajectoryLoop_slicing f Trajectory_eval rest first)
          hwf⟩
    · have hret : ∃ r, Tube.assignTube f ⟨first :: rest⟩ x = .ok r := by
        simp only [Tube.assignTube, hdom, if_true]
        by_cases hsame : Tube.same_slicing ⟨first :: rest⟩ x = true
        · rw [if_pos hsame]
          have hmap := (of_decide_eq_true hsame).2
          obtain ⟨lx⟩ := x
          cases lx with
          | nil => simp at hmap
          | cons first_x rest_x =>
            obtain ⟨r, hr, -⟩ := Tube.queryLoop_eq_lockstepLoop f ⟨first_x :: rest_x⟩ hwfx rest
              first first_x rest_x [] rfl hmap
            exact ⟨⟨r⟩, by simp only [Tube.assignTubeLockstep, hr]⟩
        · rw [if_neg hsame]
          have hin : ∀ q ∈ first :: rest, q.domain.lb < q.domain.ub ∧
              x.domain.lb ≤ q.domain.lb ∧ q.domain.ub ≤ x.domain.ub := by
            intro q hq
            obtain ⟨pre, post, hdec⟩ := List.append_of_mem hq
            obtain ⟨hlb, hub⟩ :=
              TubeVector.slice_within_domain ⟨first :: rest⟩ hwf hdec
            rw [hdom] at hlb hub
            exact ⟨hwf.2.1 q hq, hlb, hub⟩
          obtain ⟨r, hr⟩ := Tube.queryLoop_ok f x hwfx rest first hin
          exact ⟨⟨r⟩, by simp only [Tube.assignTubeQuery, hr]⟩
      obtain ⟨r, hr⟩ := hret
      exact ⟨r, hr, TubeVector.keeps_of_slicing (hany x r hr) hwf⟩

/-- Witness for C31: the three kinds of right-hand side on the one-slice chain over
`[0, 10]`. -/
theorem C31_compound_operators_keep_slicing_witness :
    (∀ x : Box1, ∃ r, Tube.assignScalar Box1.add wideChain x = .ok r ∧
      r.slicing = wideChain.slicing ∧ r.nbSlices = wideChain.nbSlices ∧ r.WellFormed ∧
        r.domain = wideChain.domain) ∧
    (∀ Trajectory_eval : Interval → Box1,
      ∃ r, Tube.assignTrajectory Box1.add wideChain wideChain.domain Trajectory_eval = .ok r ∧
        r.slicing = wideChain.slicing ∧ r.nbSlices = wideChain.nbSlices ∧ r.WellFormed ∧
          r.domain = wideChain.domain) ∧
    (∀ x : TubeVector Box1, x.WellFormed → wideChain.domain = x.domain →
      ∃ r, Tube.assignTube Box1.add wideChain x = .ok r ∧
        r.slicing = wideChain.slicing ∧ r.nbSlices = wideChain.nbSlices ∧ r.WellFormed ∧
          r.domain = wideChain.domain) ∧
    (∀ (x : TubeVector Box1) (r : TubeVector Box1),
      Tube.assignTube Box1.add wideChain x = .ok r → r.slicing = wideChain.slicing) :=
  C31_compound_operators_keep_slicing Box1.add wideChain wideChain_wellFormed

/-- The three kinds of right-hand side evaluated on examples: `+=` with the scalar
`[1, 1]`, with the trajectory that is `[1, 1]` at every time, and with the five-slice
chain over the same domain, whose envelopes hold every real. -/
theorem compound_example :
    (Tube.assignScalar Box1.add wideChain (Box1.bounded 1 1)).map TubeVector.slicing
      = .ok [⟨0, 10⟩] ∧
    (Tube.assignTrajectory Box1.add wideChain ⟨0, 10⟩
        (fun _ => Box1.bounded 1 1)).map TubeVector.slicing = .ok [⟨0, 10⟩] ∧
    (Tube.assignTube Box1.add wideChain exampleChain).map TubeVector.slicing
      = .ok [⟨0, 10⟩] ∧
    Tube.assignTrajectory Box1.add wideChain ⟨0, 5⟩ (fun _ => Box1.bounded 1 1)
      = .error .AssertionFailed := by
  decide!

end tubex
